import Mathlib

/-!
# Floyd chess engine: the search core (`Source/search.c`)

A shallow embedding of `search.c` and the properties of its routines.

Conventions of the embedding.

* A C `int` is an `Int`.  The one place where the width of `int` matters for the
  result, the packing of the sort key in `filterAndSort`, is written with an
  explicit `wrap32`.
* A C array is a `List Int` read with `getD` and written with `List.set`; the
  live part of an array is given by the count that travels with it, as in the
  source.
* The board module (`Board.h`), the evaluator (`evaluate.h`) and the helper
  header (`cplus.h`) are not part of `search.c`.  Their operations are taken as
  the fields of a `BoardModule`, so that every theorem holds for every
  implementation of them.
* `longjmp` is an explicit `aborted` result that carries the engine as it was
  at the jump; the asynchronous `globalSignal` is an oracle of the environment.
-/

namespace Floyd

/-! ## Pieces and tables -/

/-- The piece codes of `Board.h` that index `pieceValue`. -/
inductive Piece where
  | empty
  | whiteKing | whiteQueen | whiteRook | whiteBishop | whiteKnight | whitePawn
  | blackKing | blackQueen | blackRook | blackBishop | blackKnight | blackPawn
  deriving DecidableEq, Repr

/-- The table `pieceValue[]` of `search.c`. -/
def pieceValue : Piece → Int
  | .empty => -1
  | .whiteKing => 27 | .whiteQueen => 9 | .whiteRook => 5
  | .whiteBishop => 3 | .whiteKnight => 3 | .whitePawn => 1
  | .blackKing => 27 | .blackQueen => 9 | .blackRook => 5
  | .blackBishop => 3 | .blackKnight => 3 | .blackPawn => 1

/-- The table `promotionValue[] = { 9, 5, 3, 3 }` of `search.c`.  An index
outside the table is outside the array in C; it reads as `0` here. -/
def promotionValue (i : Int) : Int :=
  if i = 0 then 9 else if i = 1 then 5 else if i = 2 then 3 else if i = 3 then 3 else 0

/-- The largest `int` (`maxInt` of `cplus.h`). -/
def maxInt : Int := 2147483647

/-- The smallest `int` (`minInt` of `cplus.h`). -/
def minInt : Int := -2147483648

/-- The value of a 32-bit two's complement `int` holding `x`. -/
def wrap32 (x : Int) : Int := (x + 2147483648) % 4294967296 - 2147483648

/-- C `max` on `int`. -/
def imax (a b : Int) : Int := if a < b then b else a

/-! ## The board module -/

/-- The operations of the board module and of the evaluator that `search.c`
calls, for a board type `B`.  `squares b sq` is `b->squares[sq]`,
`xsideAttacks b sq` is `b->xside->attacks[sq]`, `moveFrom` and `moveTo` are the
macros `from(move)` and `to(move)`. -/
structure BoardModule (B : Type) where
  squares : B → Int → Piece
  xsideAttacks : B → Int → Int
  moveFrom : Int → Int
  moveTo : Int → Int
  promotionBits : Nat
  isPromotion : B → Int → Int → Bool
  plyNumber : B → Int
  generateMoves : B → List Int
  makeMove : B → Int → B
  undoMove : B → B
  wasLegalMove : B → Bool
  inCheck : B → Bool
  repetition : B → Bool
  evaluate : B → Int

variable {B : Type}

/-! ## exchange -/

/-- The function `exchange` of `search.c`. -/
def exchange (M : BoardModule B) (self : B) (move : Int) : Int :=
  let fromSq := M.moveFrom move
  let toSq := M.moveTo move
  let victim := M.squares self toSq
  let score := pieceValue victim
  if M.xsideAttacks self toSq ≠ 0 then
    let piece := M.squares self fromSq
    score - pieceValue piece
  else
    if M.isPromotion self fromSq toSq then
      score + (promotionValue (move >>> M.promotionBits) - 1)
    else
      score

/-- The one-ply estimate as the specification words it: `v` is the value of
the piece on the target square; when the side not to move attacks the target
the value of the moving piece is subtracted, otherwise a promotion adds its
gain minus the pawn. -/
def exchangeSpec (M : BoardModule B) (board : B) (move : Int) : Int :=
  let v := pieceValue (M.squares board (M.moveTo move))
  if M.xsideAttacks board (M.moveTo move) = 0 then
    if M.isPromotion board (M.moveFrom move) (M.moveTo move) = true then
      v + promotionValue (move >>> M.promotionBits) - 1
    else v
  else v - pieceValue (M.squares board (M.moveFrom move))

/-! ## filterAndSort -/

/-- The comparator `compareMoves` of `search.c`: `(a < b) - (a > b)`. -/
def compareMoves (a b : Int) : Int :=
  (if a < b then 1 else 0) - (if a > b then 1 else 0)

/-- The library routine `qsort` applied to the first `n` entries of an `int`
array with the comparator `cmp`: afterwards `x` stands before `y` only if
`cmp x y ≤ 0`.  For `compareMoves` two keys compare equal only when they are the
same `int`, so the sorted arrangement does not depend on the algorithm. -/
def qsort (moveList : List Int) (n : Nat) (cmp : Int → Int → Int) : List Int :=
  (moveList.take n).insertionSort (fun a b => cmp a b ≤ 0) ++ moveList.drop n

/-- First loop of `filterAndSort`: with `k` entries left to read, `i` the read
index and `n` the write index.  `moveScore << 16` is `moveScore * 65536` in
two's complement, and `x & 0xffff` is `x % 65536`. -/
def filterAndSort.pack (M : BoardModule B) (self : B) (moveFilter : Int) :
    Nat → Nat → Nat → List Int → List Int × Nat
  | 0, _, n, moveList => (moveList, n)
  | k + 1, i, n, moveList =>
    let moveScore := exchange M self (moveList.getD i 0)
    if moveScore ≥ moveFilter then
      filterAndSort.pack M self moveFilter k (i + 1) (n + 1)
        (moveList.set n (wrap32 (moveScore * 65536 + moveList.getD i 0 % 65536)))
    else
      filterAndSort.pack M self moveFilter k (i + 1) n moveList

/-- Last loop of `filterAndSort`: `moveList[i] &= 0xffff` for `i < n`, with `k`
entries left. -/
def filterAndSort.strip : Nat → Nat → List Int → List Int
  | 0, _, moveList => moveList
  | k + 1, i, moveList =>
    filterAndSort.strip k (i + 1) (moveList.set i (moveList.getD i 0 % 65536))

/-- The function `filterAndSort` of `search.c`: the array after the call and
the returned count. -/
def filterAndSort (M : BoardModule B) (self : B) (moveList : List Int) (nrMoves : Nat)
    (moveFilter : Int) : List Int × Nat :=
  let packed := filterAndSort.pack M self moveFilter nrMoves 0 0 moveList
  let sorted := qsort packed.1 packed.2 compareMoves
  (filterAndSort.strip packed.2 0 sorted, packed.2)

/-! ## filterLegalMoves -/

/-- The loop of `filterLegalMoves`: `k` entries left, read index `i`, write
index `j`. -/
def filterLegalMoves.loop (M : BoardModule B) :
    Nat → Nat → Nat → B → List Int → B × List Int × Nat
  | 0, _, j, self, moveList => (self, moveList, j)
  | k + 1, i, j, self, moveList =>
    let self := M.makeMove self (moveList.getD i 0)
    if M.wasLegalMove self then
      let moveList := moveList.set j (moveList.getD i 0)
      filterLegalMoves.loop M k (i + 1) (j + 1) (M.undoMove self) moveList
    else
      filterLegalMoves.loop M k (i + 1) j (M.undoMove self) moveList

/-- The function `filterLegalMoves` of `search.c`: the board, the array and
the returned count after the call. -/
def filterLegalMoves (M : BoardModule B) (self : B) (moveList : List Int) (nrMoves : Nat) :
    B × List Int × Nat :=
  filterLegalMoves.loop M nrMoves 0 0 self moveList

/-! ## moveToFront -/

/-- The library routine `memmove` on an `int` array: `count` entries starting
at index `src` are copied to index `dst`, as if through a temporary buffer. -/
def memmove (a : List Int) (dst src count : Nat) : List Int :=
  a.take dst ++ (a.drop src).take count ++ a.drop (dst + count)

/-- The loop of `moveToFront`: `k` entries left, index `i`. -/
def moveToFront.loop (move : Int) : Nat → Nat → List Int → List Int
  | 0, _, moveList => moveList
  | k + 1, i, moveList =>
    if moveList.getD i 0 ≠ move then
      moveToFront.loop move k (i + 1) moveList
    else
      (memmove moveList 0 1 i).set 0 move

/-- The function `moveToFront` of `search.c`. -/
def moveToFront (moveList : List Int) (nrMoves : Nat) (move : Int) : List Int :=
  moveToFront.loop move nrMoves 0 moveList

/-- The contract of `moveToFront` in the specification, for the array `old`
before the call and the array `new` after it: when `move` first occurs at index
`i < n`, then `new[0] = move`, `new[k] = old[k-1]` for `1 ≤ k ≤ i` and `new[k] =
old[k]` for `k > i`; when `move` does not occur in `old[0..n)`, nothing
changes. -/
def MoveToFrontContract (old new : List Int) (n : Nat) (move : Int) : Prop :=
  (∀ i, i < n → old.getD i 0 = move → (∀ k, k < i → old.getD k 0 ≠ move) →
    new.getD 0 0 = move ∧
    (∀ k, 1 ≤ k → k ≤ i → new.getD k 0 = old.getD (k - 1) 0) ∧
    (∀ k, i < k → new.getD k 0 = old.getD k 0)) ∧
  ((∀ i, i < n → old.getD i 0 ≠ move) → new = old)

/-! ## The engine descriptor -/

/-- The `int` list type of `cplus.h` behind `pv`: the store `v` and the number
`len` of live entries.  Entries at `len` and beyond stay in the store when `len`
is lowered, as in C.  `len` and the indices into the list are never negative
and are natural numbers here. -/
structure IntList where
  v : List Int
  len : Nat
  deriving DecidableEq, Repr

/-- The assignment `v[i] = x` on a store: past the end of the list the
store grows, the cells in between reading as `0`. -/
def writeAt (v : List Int) (i : Nat) (x : Int) : List Int :=
  if i < v.length then v.set i x else v ++ List.replicate (i - v.length) 0 ++ [x]

/-- Modelled from the spec: the macro `pushList` of `cplus.h`, which is not in
`search.c`; it appends a value to a list (written at index `len`, and `len`
grows by one). -/
def pushList (l : IntList) (x : Int) : IntList :=
  { v := writeAt l.v l.len x, len := l.len + 1 }

/-- The fields of `struct Engine` that `search.c` reads or writes (the clock
field `seconds` and the jump buffer aside). -/
structure Engine (B : Type) where
  board : B
  rootPlyNumber : Int
  depth : Int
  score : Int
  bestMove : Int
  pv : IntList
  nodeCount : Nat
  deriving DecidableEq, Repr

/-- What lies outside the program during one call of `rootSearch`.
`globalSignal n` is the value of the variable `globalSignal`, which the signal
handler `catchSignal` writes asynchronously, as read by the poll that `scout`
makes when the node counter stands at `n`.  The counter grows between any two
polls, so every course of the flag in time is such a function. -/
structure Env where
  globalSignal : Nat → Int

/-- How a routine of the search ends: it returns `value` with the engine in
state `self`; or `longjmp` was taken with the engine in state `self`; or the
fuel of the model ran out, which says nothing about the program. -/
inductive Result (B : Type) (α : Type) where
  | ok (value : α) (self : Engine B)
  | aborted (self : Engine B)
  | outOfFuel
  deriving DecidableEq, Repr

/-- The stub `ttWrite` of `search.c`. -/
def ttWrite (_depth _alpha _beta score : Int) : Int := score

/-- The function `endScore` of `search.c`. -/
def endScore (M : BoardModule B) (self : Engine B) (check : Bool) : Int :=
  let rootDistance := M.plyNumber self.board - self.rootPlyNumber
  if check then -32000 + rootDistance else 0

/-- The function `drawScore` of `search.c`. -/
def drawScore (_self : Engine B) : Int := 0

/-- The C truth value of a `bool` as an `int`. -/
def boolInt (b : Bool) : Int := if b then 1 else 0

/-! ## qSearch -/

/-- The move loop of `qSearch`, with `k` entries left and index `i`; `child`
is the recursive call `qSearch(self, ·)`. -/
def qSearch.loop (M : BoardModule B) (child : Engine B → Int → Result B Int) (alpha : Int)
    (moveList : List Int) : Nat → Nat → Engine B → Int → Result B Int
  | 0, _, self, bestScore => .ok bestScore self
  | k + 1, i, self, bestScore =>
    if bestScore ≤ alpha then
      let self := { self with board := M.makeMove self.board (moveList.getD i 0) }
      if M.wasLegalMove self.board then
        let self := { self with nodeCount := self.nodeCount + 1 }
        match child self (-(alpha + 1)) with
        | .ok value self =>
          let score := -value
          let bestScore := imax bestScore score
          qSearch.loop M child alpha moveList k (i + 1)
            { self with board := M.undoMove self.board } bestScore
        | .aborted self => .aborted self
        | .outOfFuel => .outOfFuel
      else
        qSearch.loop M child alpha moveList k (i + 1)
          { self with board := M.undoMove self.board } bestScore
    else .ok bestScore self

/-- The function `qSearch` of `search.c`. -/
def qSearch (M : BoardModule B) : Nat → Engine B → Int → Result B Int
  | 0, _, _ => .outOfFuel
  | fuel + 1, self, alpha =>
    let check := M.inCheck self.board
    let bestScore := if check then minInt else M.evaluate self.board
    if bestScore > alpha then
      .ok (ttWrite 0 alpha (alpha + 1) bestScore) self
    else
      let moveList := M.generateMoves self.board
      let nrMoves := moveList.length
      let sorted := filterAndSort M self.board moveList nrMoves (if check then minInt else 0)
      match qSearch.loop M (qSearch M fuel) alpha sorted.1 sorted.2 0 self bestScore with
      | .ok bestScore self =>
        let bestScore := if bestScore = minInt then endScore M self check else bestScore
        .ok (ttWrite 0 alpha (alpha + 1) bestScore) self
      | .aborted self => .aborted self
      | .outOfFuel => .outOfFuel

/-! ## scout -/

/-- The move loop of `scout`, with `k` entries left and index `i`; `child` is
the recursive call `scout(self, ·, ·)`. -/
def scout.loop (M : BoardModule B) (child : Engine B → Int → Int → Result B Int)
    (depth alpha check : Int) (moveList : List Int) :
    Nat → Nat → Engine B → Int → Result B Int
  | 0, _, self, bestScore => .ok bestScore self
  | k + 1, i, self, bestScore =>
    if bestScore ≤ alpha then
      let reduction : Int := 0
      let self := { self with board := M.makeMove self.board (moveList.getD i 0) }
      if M.wasLegalMove self.board then
        let newDepth := imax 0 (depth - 1 + check - reduction)
        match child self newDepth (-(alpha + 1)) with
        | .ok value self =>
          let score := -value
          let bestScore := imax bestScore score
          scout.loop M child depth alpha check moveList k (i + 1)
            { self with board := M.undoMove self.board } bestScore
        | .aborted self => .aborted self
        | .outOfFuel => .outOfFuel
      else
        scout.loop M child depth alpha check moveList k (i + 1)
          { self with board := M.undoMove self.board } bestScore
    else .ok bestScore self

/-- The function `scout` of `search.c`. -/
def scout (M : BoardModule B) (env : Env) : Nat → Engine B → Int → Int → Result B Int
  | 0, _, _, _ => .outOfFuel
  | fuel + 1, self, depth, alpha =>
    let self := { self with nodeCount := self.nodeCount + 1 }
    if M.repetition self.board then
      .ok (drawScore self) self
    else if depth = 0 then
      qSearch M fuel self alpha
    else if env.globalSignal self.nodeCount ≠ 0 then
      .aborted self
    else
      let check := M.inCheck self.board
      let bestScore := minInt
      let moveList := M.generateMoves self.board
      let nrMoves := moveList.length
      let sorted := filterAndSort M self.board moveList nrMoves minInt
      match scout.loop M (scout M env fuel) depth alpha (boolInt check) sorted.1 sorted.2 0
          self bestScore with
      | .ok bestScore self =>
        let bestScore := if bestScore = minInt then endScore M self check else bestScore
        .ok (ttWrite depth alpha (alpha + 1) bestScore) self
      | .aborted self => .aborted self
      | .outOfFuel => .outOfFuel

/-! ## pvSearch -/

/-- The copy loop of `pvSearch` after a successful re-search:
`pv.v[pvIndex+j] = pv.v[pvLen+j]` while `pvLen+j < pv.len`, with `k` rounds
left. -/
def pvSearch.splice (pvIndex pvLen : Nat) : Nat → Nat → List Int → List Int
  | 0, _, v => v
  | k + 1, j, v =>
    pvSearch.splice pvIndex pvLen k (j + 1) (writeAt v (pvIndex + j) (v.getD (pvLen + j) 0))

/-- The block of `pvSearch` that searches the first move with the open
window.  It returns `bestScore` and the move list, which `moveToFront` may
have changed.  `pvChild` is the recursive call of `pvSearch`. -/
def pvSearch.first (M : BoardModule B)
    (pvChild : Engine B → Int → Int → Int → Nat → Result B Int)
    (depth alpha beta : Int) (pvIndex : Nat) (check : Int)
    (moveList : List Int) (nrMoves : Nat) (self : Engine B) (bestScore : Int) :
    Result B (Int × List Int) :=
  if nrMoves > 0 then
    let moveList :=
      if pvIndex < self.pv.len then moveToFront moveList nrMoves (self.pv.v.getD pvIndex 0)
      else moveList
    let self :=
      if pvIndex < self.pv.len then self
      else { self with pv := pushList self.pv (moveList.getD 0 0) }
    let self := { self with board := M.makeMove self.board (moveList.getD 0 0) }
    let newDepth := imax 0 (depth - 1 + check)
    let newAlpha := imax alpha bestScore
    match pvChild self newDepth (-beta) (-newAlpha) (pvIndex + 1) with
    | .ok value self =>
      let score := -value
      if score > bestScore then
        .ok (score, moveList) { self with board := M.undoMove self.board }
      else
        .ok (bestScore, moveList)
          { self with pv := { self.pv with len := pvIndex }, board := M.undoMove self.board }
    | .aborted self => .aborted self
    | .outOfFuel => .outOfFuel
  else .ok (bestScore, moveList) self

/-- The loop of `pvSearch` over the other moves, with `k` entries left and
index `i`.  `pvChild` and `scoutChild` are the calls of `pvSearch` and
`scout`. -/
def pvSearch.loop (M : BoardModule B)
    (pvChild : Engine B → Int → Int → Int → Nat → Result B Int)
    (scoutChild : Engine B → Int → Int → Result B Int)
    (depth alpha beta : Int) (pvIndex : Nat) (check : Int) (moveList : List Int) :
    Nat → Nat → Engine B → Int → Result B Int
  | 0, _, self, bestScore => .ok bestScore self
  | k + 1, i, self, bestScore =>
    if bestScore < beta then
      let reduction : Int := 0
      let self := { self with board := M.makeMove self.board (moveList.getD i 0) }
      let newDepth := imax 0 (depth - 1 + check - reduction)
      let newAlpha := imax alpha bestScore
      match scoutChild self newDepth (-newAlpha - 1) with
      | .ok value self =>
        let score := -value
        if score > bestScore then
          let pvLen := self.pv.len
          let self := { self with pv := pushList self.pv (moveList.getD i 0) }
          let researchDepth := imax 0 (depth - 1 + check)
          match pvChild self researchDepth (-beta) (-newAlpha) (pvLen + 1) with
          | .ok value self =>
            let score := -value
            if score > bestScore then
              let v := pvSearch.splice pvIndex pvLen (self.pv.len - pvLen) 0 self.pv.v
              let self :=
                { self with pv := { v := v, len := self.pv.len - (pvLen - pvIndex) } }
              pvSearch.loop M pvChild scoutChild depth alpha beta pvIndex check moveList k (i + 1)
                { self with board := M.undoMove self.board } score
            else
              let self := { self with pv := { self.pv with len := pvLen } }
              pvSearch.loop M pvChild scoutChild depth alpha beta pvIndex check moveList k (i + 1)
                { self with board := M.undoMove self.board } bestScore
          | .aborted self => .aborted self
          | .outOfFuel => .outOfFuel
        else
          pvSearch.loop M pvChild scoutChild depth alpha beta pvIndex check moveList k (i + 1)
            { self with board := M.undoMove self.board } bestScore
      | .aborted self => .aborted self
      | .outOfFuel => .outOfFuel
    else .ok bestScore self

/-- The part of `pvSearch` from the move generation to the end, entered with
the `moveFilter` and the `bestScore` that the frontier test has set. -/
def pvSearch.moves (M : BoardModule B)
    (pvChild : Engine B → Int → Int → Int → Nat → Result B Int)
    (scoutChild : Engine B → Int → Int → Result B Int)
    (depth alpha beta : Int) (pvIndex : Nat) (check : Bool) (moveFilter : Int)
    (self : Engine B) (bestScore : Int) : Result B Int :=
  let moveList := M.generateMoves self.board
  let nrMoves := moveList.length
  let sorted := filterAndSort M self.board moveList nrMoves moveFilter
  let legal := filterLegalMoves M self.board sorted.1 sorted.2
  let self := { self with board := legal.1 }
  let moveList := legal.2.1
  let nrMoves := legal.2.2
  match pvSearch.first M pvChild depth alpha beta pvIndex (boolInt check) moveList nrMoves
      self bestScore with
  | .ok (bestScore, moveList) self =>
    match pvSearch.loop M pvChild scoutChild depth alpha beta pvIndex (boolInt check) moveList
        (nrMoves - 1) 1 self bestScore with
    | .ok bestScore self =>
      let bestScore := if bestScore = minInt then endScore M self check else bestScore
      .ok (ttWrite depth alpha beta bestScore) self
    | .aborted self => .aborted self
    | .outOfFuel => .outOfFuel
  | .aborted self => .aborted self
  | .outOfFuel => .outOfFuel

/-- The function `pvSearch` of `search.c`. -/
def pvSearch (M : BoardModule B) (env : Env) :
    Nat → Engine B → Int → Int → Int → Nat → Result B Int
  | 0, _, _, _, _, _ => .outOfFuel
  | fuel + 1, self, depth, alpha, beta, pvIndex =>
    let self := { self with nodeCount := self.nodeCount + 1 }
    if M.repetition self.board then
      .ok (drawScore self) self
    else
      let check := M.inCheck self.board
      if depth = 0 ∧ check = false then
        let bestScore := M.evaluate self.board
        if bestScore ≥ beta then
          .ok (ttWrite depth alpha beta bestScore)
            { self with pv := { self.pv with len := pvIndex } }
        else
          pvSearch.moves M (pvSearch M env fuel) (scout M env fuel) depth alpha beta pvIndex
            check 0 self bestScore
      else
        pvSearch.moves M (pvSearch M env fuel) (scout M env fuel) depth alpha beta pvIndex
          check minInt self minInt

/-! ## rootSearch -/

/-- The branch of `rootSearch` that `longjmp` lands in (`// search aborted`).
The result of the info function is discarded there. -/
def rootSearch.landingPad (self : Engine B) : Engine B :=
  { self with
    pv := { self.pv with
      len := if self.pv.len > 0 ∧ self.pv.v.getD 0 0 ≠ self.bestMove then 1 else 0 } }

/-- The iteration loop of `rootSearch`, with `k` iterations left.  The info
function, when present, reads the engine through `infoData`. -/
def rootSearch.loop (M : BoardModule B) (env : Env) (fuel : Nat)
    (infoFunction : Option (Engine B → Bool)) :
    Nat → Int → Bool → Engine B → Result B Unit
  | 0, _, _, self => .ok () self
  | k + 1, iteration, stop, self =>
    if stop = false then
      let self := { self with depth := iteration }
      match pvSearch M env fuel self iteration (-maxInt) maxInt 0 with
      | .ok value self =>
        let self := { self with score := value }
        let self := if self.pv.len > 0 then { self with bestMove := self.pv.v.getD 0 0 } else self
        let stop := match infoFunction with
          | some f => f self
          | none => stop
        rootSearch.loop M env fuel infoFunction k (iteration + 1) stop self
      | .aborted self => .aborted self
      | .outOfFuel => .outOfFuel
    else .ok () self

/-- The function `rootSearch` of `search.c`.  The iterations run for
`iteration = 0, …, depth`.  The result is `ok` when the loop ran to its end and
`aborted` when the search was left through `longjmp`; in both cases the engine
is the one the caller finds after `rootSearch` has returned.  The alarm set
from `movetime` acts through `env.globalSignal` only. -/
def rootSearch (M : BoardModule B) (env : Env) (fuel : Nat) (self : Engine B) (depth : Int)
    (infoFunction : Option (Engine B → Bool)) : Result B Unit :=
  let self := { self with nodeCount := 0 }
  let self := { self with rootPlyNumber := M.plyNumber self.board }
  match rootSearch.loop M env fuel infoFunction (depth + 1).toNat 0 false self with
  | .ok _ self => .ok () self
  | .aborted self => .aborted (rootSearch.landingPad self)
  | .outOfFuel => .outOfFuel

/-! ## Auxiliary notions for the move ordering -/

/-- The sort key that `filterAndSort` builds for a move: the pre-score in the
high bits, the low 16 bits of the move below. -/
def sortKey (M : BoardModule B) (b : B) (m : Int) : Int :=
  exchange M b m * 65536 + m % 65536

/-- The moves of `moveList` that pass the threshold `f`, in input order. -/
def survivors (M : BoardModule B) (b : B) (f : Int) (moveList : List Int) : List Int :=
  moveList.filter (fun m => decide (f ≤ exchange M b m))

/-- The sorted keys of the moves that pass the threshold. -/
def sortedKeys (M : BoardModule B) (b : B) (f : Int) (moveList : List Int) : List Int :=
  ((survivors M b f moveList).map (sortKey M b)).insertionSort (fun a b => compareMoves a b ≤ 0)

/-- The order that the specification asks of the first `out.2` entries of
`out.1`: an entry never has a smaller exchange estimate than a later one, and of
two entries with the same estimate the earlier is the larger move. -/
def DescendingByExchange (M : BoardModule B) (board : B) (out : List Int × Nat) : Prop :=
  ∀ i j : Nat, i < j → j < out.2 →
    exchange M board (out.1.getD j 0) ≤ exchange M board (out.1.getD i 0) ∧
    (exchange M board (out.1.getD i 0) = exchange M board (out.1.getD j 0) →
      out.1.getD j 0 ≤ out.1.getD i 0)

/-- The legality test that `filterLegalMoves` applies to a move on board `b`. -/
def legalAt (M : BoardModule B) (b : B) (m : Int) : Bool :=
  M.wasLegalMove (M.makeMove b m)

/-- The board module's contract on the moves it generates: a generated move is
a non-negative 16-bit integer, and `undoMove` after `makeMove` of it restores
the board. -/
def UndoRestores (M : BoardModule B) : Prop :=
  ∀ b : B, ∀ m ∈ M.generateMoves b,
    (0 ≤ m ∧ m < 65536) ∧ M.undoMove (M.makeMove b m) = b

/-! ## A small board module for concrete runs -/

/-- A board module over move histories: the board is the list of the moves
made, the latest first.  `moves`, `legal`, `check` and `eval` give the generated
moves, the legality of the move just made, the check test and the evaluation
of a history; `piece` gives the piece on a square.  A move holds its target
square in its lowest six bits and the square it leaves in the next six. -/
def historyModule (moves : List Int → List Int) (legal check : List Int → Bool)
    (eval : List Int → Int) (piece : Int → Piece) : BoardModule (List Int) where
  squares := fun _ sq => piece sq
  xsideAttacks := fun _ _ => 0
  moveFrom := fun m => m / 64 % 64
  moveTo := fun m => m % 64
  promotionBits := 13
  isPromotion := fun _ _ _ => false
  plyNumber := fun b => (b.length : Int)
  generateMoves := moves
  makeMove := fun b m => m :: b
  undoMove := fun b => b.tail
  wasLegalMove := legal
  inCheck := check
  repetition := fun _ => false
  evaluate := eval

/-- An engine descriptor that has not searched yet: it holds `board`, no best
move and an empty principal variation. -/
def freshEngine (board : B) : Engine B :=
  { board := board, rootPlyNumber := 0, depth := 0, score := 0, bestMove := 0,
    pv := { v := [], len := 0 }, nodeCount := 0 }

/-- A position tree in which every position of fewer than three plies has the
two moves `1` and `2`, all legal, nobody is ever in check, and a position is
worth the sum of the moves played. -/
def twoMoveModule : BoardModule (List Int) :=
  historyModule (fun b => if b.length < 3 then [1, 2] else []) (fun _ => true) (fun _ => false)
    (fun b => b.sum) (fun _ => .empty)

/-- A position in which the side to move is in check and its one pseudo-legal
move `1` leaves the king in check. -/
def mateModule : BoardModule (List Int) :=
  historyModule (fun _ => [1]) (fun _ => false) (fun _ => true) (fun _ => 0) (fun _ => .empty)

/-- A board module whose squares 1 and 2 hold a black queen and a black pawn,
for runs of the move ordering. -/
def captureModule : BoardModule (List Int) :=
  historyModule (fun _ => [65, 130, 3, 66]) (fun _ => true) (fun _ => false) (fun _ => 0)
    (fun sq => if sq = 1 then .blackQueen else if sq = 2 then .blackPawn else .empty)

/-- A position with a white pawn on square 36 and a black pawn beside it on
square 35, in which the one move `2347`, from square 36 to the empty square 43,
is the capture en passant of that pawn: after the move the pawn has left
square 35.  No square is attacked and nobody is in check. -/
def enPassantModule : BoardModule (List Int) where
  squares := fun b sq =>
    if b = [] then
      (if sq = 36 then .whitePawn else if sq = 35 then .blackPawn else .empty)
    else
      (if sq = 43 then .whitePawn else .empty)
  xsideAttacks := fun _ _ => 0
  moveFrom := fun m => m / 64 % 64
  moveTo := fun m => m % 64
  promotionBits := 13
  isPromotion := fun _ _ _ => false
  plyNumber := fun b => (b.length : Int)
  generateMoves := fun b => if b = [] then [2347] else []
  makeMove := fun b m => m :: b
  undoMove := fun b => b.tail
  wasLegalMove := fun _ => true
  inCheck := fun _ => false
  repetition := fun _ => false
  evaluate := fun _ => 0

/-! ## The Python binding (`floydmodule.c`) -/

/-- The `info` argument of `floydmodule_search` as the function tells its
values apart: the null pointer, the text `uci`, any other text. -/
inductive InfoArg where
  | null
  | uci
  | other
  deriving DecidableEq, Repr

/-- A C `double` as its comparisons with `0.0` tell the values apart: a finite
value (every finite `double` is a rational number; `-0.0` is the value `0`),
the two infinities, and NaN.  The format code `d` of the argument parser
accepts all of them. -/
inductive CDouble where
  | finite (value : ℚ)
  | posInf
  | negInf
  | nan
  deriving DecidableEq

/-- The C comparison `x < 0.0` on a `double`: false for NaN. -/
def CDouble.ltZero : CDouble → Bool
  | .finite value => decide (value < 0)
  | .posInf => false
  | .negInf => true
  | .nan => false

/-- The C comparison `x >= 0.0` on a `double`: false for NaN. -/
def CDouble.geZero : CDouble → Bool
  | .finite value => decide (0 ≤ value)
  | .posInf => true
  | .negInf => false
  | .nan => false

/-- The arguments of `floydmodule_search` after `PyArg_ParseTupleAndKeywords`
has filled them in, defaults included.  The FEN text is opaque, of a type
`F`. -/
structure SearchArgs (F : Type) where
  fen : F
  depth : Int
  movetime : CDouble
  info : InfoArg

/-- The four `PyErr_Format(PyExc_ValueError, ...)` returns of
`floydmodule_search`. -/
inductive Invalid where
  | fen
  | depth
  | movetime
  | info
  deriving DecidableEq, Repr

/-- How `floydmodule_search` goes on after its checks: it returns null because
the argument parser failed, it returns a `ValueError`, or it calls
`rootSearch` with the given depth and movetime (`uci` tells whether the info
function is `uciSearchInfo`). -/
inductive SearchOutcome where
  | null
  | valueError (what : Invalid)
  | searched (depth : Int) (movetime : CDouble) (uci : Bool)
  deriving DecidableEq

/-- The function `floydmodule_search` of `floydmodule.c` up to its call of
`rootSearch`.  `args` is `none` when `PyArg_ParseTupleAndKeywords` fails;
`setupBoard` gives the length that `setupBoard` returns for a FEN text;
`maxDepth` is the constant of `Engine.h`. -/
def floydmodule_search {F : Type} (setupBoard : F → Int) (maxDepth : Int)
    (args : Option (SearchArgs F)) : SearchOutcome :=
  match args with
  | none => .null
  | some a =>
    let len := setupBoard a.fen
    if len ≤ 0 then .valueError .fen
    else if a.depth < 0 ∨ a.depth > maxDepth then .valueError .depth
    else if a.movetime.ltZero then .valueError .movetime
    else
      match a.info with
      | .null => .searched a.depth a.movetime false
      | .uci => .searched a.depth a.movetime true
      | .other => .valueError .info

/-! ## The signal state around `rootSearch` -/

/-- A disposition of `SIGALRM`: the default action, ignoring, the handler
`catchSignal` of `search.c`, or a handler of the host. -/
inductive Handler where
  | dfl
  | ign
  | catchSignal
  | host (id : Nat)
  deriving DecidableEq, Repr

/-- The part of the process state that `rootSearch` touches through `signal`
and `alarm`: the installed `SIGALRM` handler and the seconds of the pending
alarm, if one is pending. -/
structure SignalState where
  handler : Handler
  alarm : Option Nat
  deriving DecidableEq, Repr

/-- The library routine `signal(SIGALRM, h)`: it installs `h` and returns the
handler that was installed before. -/
def signal (st : SignalState) (h : Handler) : Handler × SignalState :=
  (st.handler, { st with handler := h })

/-- The library routine `alarm(seconds)`: it replaces the pending alarm, and
with `seconds = 0` it leaves none pending. -/
def alarm (st : SignalState) (seconds : Nat) : SignalState :=
  { st with alarm := if seconds = 0 then none else some seconds }

/-- The calls of `signal` and `alarm` in `rootSearch`, on the signal state.
`seconds` is `ceil(movetime)`; `expired` tells whether the alarm went off while
the search ran, which takes it out of the pending state.  The search leaves
through the loop or through the landing pad; both ways reach the same last
call `signal(SIGALRM, oldHandler)`. -/
def rootSearch.signals (st : SignalState) (seconds : Nat) (expired : Bool) : SignalState :=
  let old := signal st .catchSignal
  let oldHandler := old.1
  let st := alarm old.2 seconds
  let st := if expired then { st with alarm := none } else st
  (signal st oldHandler).2

/-! ## Relations between the engine before and after a call -/

/-- A pair of relations between the engine on entry and the engine at the end
of a call that the search keeps: `onReturn` for a normal return, `onAbort` for
a `longjmp`.  `onReturn` is reflexive and transitive, `onAbort` absorbs
`onReturn` on the left, and the steps that `qSearch` and `scout` take on the
engine (a changed board, one more node, the poll that finds the flag set for
the environment `env`) respect them. -/
structure Kept (B : Type) (env : Env) where
  onReturn : Engine B → Engine B → Prop
  onAbort : Engine B → Engine B → Prop
  refl : ∀ s, onReturn s s
  trans : ∀ a b c, onReturn a b → onReturn b c → onReturn a c
  absorb : ∀ a b c, onReturn a b → onAbort b c → onAbort a c
  board : ∀ (s : Engine B) (b : B), onReturn s { s with board := b }
  node : ∀ s : Engine B, onReturn s { s with nodeCount := s.nodeCount + 1 }
  poll : ∀ s : Engine B, env.globalSignal (s.nodeCount + 1) ≠ 0 →
    onAbort s { s with nodeCount := s.nodeCount + 1 }

/-- The fields that no routine below `rootSearch` writes stay as they are, and
the node counter does not go down; a `longjmp` has moreover passed a poll that
found the flag set, at a node counted after the entry. -/
def keptFields (B : Type) (env : Env) : Kept B env where
  onReturn := fun s e =>
    e.rootPlyNumber = s.rootPlyNumber ∧ e.depth = s.depth ∧ e.score = s.score ∧
    e.bestMove = s.bestMove ∧ s.nodeCount ≤ e.nodeCount
  onAbort := fun s e =>
    e.rootPlyNumber = s.rootPlyNumber ∧ e.depth = s.depth ∧ e.score = s.score ∧
    e.bestMove = s.bestMove ∧ s.nodeCount < e.nodeCount ∧ env.globalSignal e.nodeCount ≠ 0
  refl := fun _ => ⟨rfl, rfl, rfl, rfl, le_refl _⟩
  trans := fun _ _ _ h1 h2 =>
    ⟨h2.1.trans h1.1, h2.2.1.trans h1.2.1, h2.2.2.1.trans h1.2.2.1,
      h2.2.2.2.1.trans h1.2.2.2.1, le_trans h1.2.2.2.2 h2.2.2.2.2⟩
  absorb := fun _ _ _ h1 h2 =>
    ⟨h2.1.trans h1.1, h2.2.1.trans h1.2.1, h2.2.2.1.trans h1.2.2.1,
      h2.2.2.2.1.trans h1.2.2.2.1, lt_of_le_of_lt h1.2.2.2.2 h2.2.2.2.2.1, h2.2.2.2.2.2⟩
  board := fun _ _ => ⟨rfl, rfl, rfl, rfl, le_refl _⟩
  node := fun _ => ⟨rfl, rfl, rfl, rfl, Nat.le_succ _⟩
  poll := fun _ h => ⟨rfl, rfl, rfl, rfl, Nat.lt_succ_self _, h⟩

/-- The principal variation stays as it is: what `qSearch` and `scout` keep,
however they end. -/
def keptPv (B : Type) (env : Env) : Kept B env where
  onReturn := fun s e => e.pv = s.pv
  onAbort := fun s e => e.pv = s.pv
  refl := fun _ => rfl
  trans := fun _ _ _ h1 h2 => h2.trans h1
  absorb := fun _ _ _ h1 h2 => h2.trans h1
  board := fun _ _ => rfl
  node := fun _ => rfl
  poll := fun _ _ => rfl

/-- Nothing is kept on a `longjmp` because none is taken: what holds of
`qSearch`, which does not poll the flag. -/
def keptNoAbort (B : Type) : Kept B ⟨fun _ => 0⟩ where
  onReturn := fun _ _ => True
  onAbort := fun _ _ => False
  refl := fun _ => trivial
  trans := fun _ _ _ _ _ => trivial
  absorb := fun _ _ _ _ h => h
  board := fun _ _ => trivial
  node := fun _ => trivial
  poll := fun _ h => h rfl

/-! ## The iterations of `rootSearch`, one by one -/

/-- One round of the loop of `rootSearch` as the specification lists it: set
`depth`, run `pvSearch` at the root with the window `[-maxInt, maxInt]` and
`pvIndex = 0`, store the score, update `bestMove`, ask the info function.  The
value is the answer of the info function (`false` when there is none). -/
def iterationStep (M : BoardModule B) (env : Env) (fuel : Nat)
    (infoFunction : Option (Engine B → Bool)) (iteration : Int) (self : Engine B) :
    Result B Bool :=
  match pvSearch M env fuel { self with depth := iteration } iteration (-maxInt) maxInt 0 with
  | .ok value self =>
    let self := { self with score := value }
    let self := if self.pv.len > 0 then { self with bestMove := self.pv.v.getD 0 0 } else self
    match infoFunction with
    | some f => .ok (f self) self
    | none => .ok false self
  | .aborted self => .aborted self
  | .outOfFuel => .outOfFuel

/-- `Iterations … first n self e stop`: the `n` rounds numbered `first`,
`first + 1`, …, `first + n - 1` ran one after the other from the engine `self`
to the engine `e`, each returned normally, the info function answered `false`
after each but the last, and `stop` after the last. -/
inductive Iterations (M : BoardModule B) (env : Env) (fuel : Nat)
    (infoFunction : Option (Engine B → Bool)) :
    Int → Nat → Engine B → Engine B → Bool → Prop where
  | last (first : Int) (self e : Engine B) (stop : Bool) :
      iterationStep M env fuel infoFunction first self = .ok stop e →
      Iterations M env fuel infoFunction first 1 self e stop
  | next (first : Int) (n : Nat) (self mid e : Engine B) (stop : Bool) :
      iterationStep M env fuel infoFunction first self = .ok false mid →
      Iterations M env fuel infoFunction (first + 1) n mid e stop →
      Iterations M env fuel infoFunction first (n + 1) self e stop

/-- The body of `pvSearch` for one node, with the recursive calls of
`pvSearch` and the calls of `scout` as parameters: `pvSearch` with fuel
`fuel + 1` is this body over `pvSearch` and `scout` with fuel `fuel`. -/
def pvSearch.node (M : BoardModule B)
    (pvChild : Engine B → Int → Int → Int → Nat → Result B Int)
    (scoutChild : Engine B → Int → Int → Result B Int)
    (self : Engine B) (depth alpha beta : Int) (pvIndex : Nat) : Result B Int :=
  let self := { self with nodeCount := self.nodeCount + 1 }
  if M.repetition self.board then
    .ok (drawScore self) self
  else
    let check := M.inCheck self.board
    if depth = 0 ∧ check = false then
      let bestScore := M.evaluate self.board
      if bestScore ≥ beta then
        .ok (ttWrite depth alpha beta bestScore)
          { self with pv := { self.pv with len := pvIndex } }
      else
        pvSearch.moves M pvChild scoutChild depth alpha beta pvIndex check 0 self bestScore
    else
      pvSearch.moves M pvChild scoutChild depth alpha beta pvIndex check minInt self minInt

/-- A stand-in for `pvSearch` that behaves as `child` when it is entered with
`pvIndex ≤ pv.len` and as `other` when it is not. -/
def enteredWithin (child other : Engine B → Int → Int → Int → Nat → Result B Int) :
    Engine B → Int → Int → Int → Nat → Result B Int :=
  fun self depth alpha beta pvIndex =>
    if pvIndex ≤ self.pv.len then child self depth alpha beta pvIndex
    else other self depth alpha beta pvIndex

/-- The frame that a call with `pvIndex` keeps of the principal variation: on
return `pv.len ≥ pvIndex` and the entries `pv[0..pvIndex)` are those of the
entry. -/
def PvFrame (pvIndex : Nat) (self e : Engine B) : Prop :=
  pvIndex ≤ e.pv.len ∧ ∀ i, i < pvIndex → e.pv.v.getD i 0 = self.pv.v.getD i 0

/-! ## The quiescence value of a position -/

/-- The moves that quiescence considers on board `b`: the legal moves with a
non-negative exchange estimate, and all legal moves when the side to move is
in check. -/
def qMoves (M : BoardModule B) (b : B) : List Int :=
  (M.generateMoves b).filter (fun m =>
    (M.inCheck b || decide (0 ≤ exchange M b m)) && M.wasLegalMove (M.makeMove b m))

/-- The quiescence negamax value of the specification, for a capture tree of
depth below `fuel`: the maximum of the stand-pat evaluation (left out when in
check) and the negated values of the positions after the moves of `qMoves`;
the mate score `-32000 + (plyNumber - rootPlyNumber)` when in check without a
legal move. -/
def qValue (M : BoardModule B) (rootPlyNumber : Int) : Nat → B → Int
  | 0, _ => 0
  | fuel + 1, b =>
    let children := (qMoves M b).map (fun m => -(qValue M rootPlyNumber fuel (M.makeMove b m)))
    if M.inCheck b then
      match children with
      | [] => -32000 + (M.plyNumber b - rootPlyNumber)
      | v :: vs => vs.foldl max v
    else children.foldl max (M.evaluate b)

/-- The capture tree below `b` is finite, of depth below `fuel`. -/
def qFinite (M : BoardModule B) : Nat → B → Bool
  | 0, _ => false
  | fuel + 1, b => (qMoves M b).all (fun m => qFinite M fuel (M.makeMove b m))

/-- The evaluation of a position, and the mate score of a position in check,
are scores that an `int` holds together with their negation. -/
def ScoresBounded (M : BoardModule B) (rootPlyNumber : Int) : Prop :=
  ∀ b : B, (-maxInt ≤ M.evaluate b ∧ M.evaluate b ≤ maxInt) ∧
    (M.inCheck b = true → -maxInt ≤ -32000 + (M.plyNumber b - rootPlyNumber) ∧
      -32000 + (M.plyNumber b - rootPlyNumber) ≤ maxInt)

/-- A line of two captures of the piece on square 1: the root is worth `-200`
to the side to move, the position after the first capture `100`, the position
after the second `-500`, each to the side then to move. -/
def recaptureModule : BoardModule (List Int) :=
  historyModule (fun b => if b.length < 2 then [65] else []) (fun _ => true) (fun _ => false)
    (fun b => if b.length < 1 then -200 else if b.length < 2 then 100 else -500)
    (fun sq => if sq = 1 then .blackQueen else .empty)

/-- The contract of a null-window search for `qSearch` with fuel `n` at the
engine `self`: it returns a score `s` that an `int` holds with its negation;
when `s ≤ alpha` the quiescence value is at most `s`, and when `s > alpha` it
is at least `s`. -/
def QBounds (M : BoardModule B) (n : Nat) (self : Engine B) (alpha : Int) : Prop :=
  ∃ s e, qSearch M n self alpha = .ok s e ∧ -maxInt ≤ s ∧ s ≤ maxInt ∧
    (s ≤ alpha → qValue M self.rootPlyNumber n self.board ≤ s) ∧
    (alpha < s → s ≤ qValue M self.rootPlyNumber n self.board)

/-! ## A round of the loop of `pvSearch` with a re-search -/

/-- The engine at the root of `twoMoveModule` in a search of depth 2, after
the first move `1` of the list `[1, 2]` has been searched: the best score is
`2` and the principal variation holds the line `1, 1`. -/
def researchEntry : Engine (List Int) :=
  { board := [], rootPlyNumber := 0, depth := 0, score := 0, bestMove := 0,
    pv := { v := [1, 1, 1], len := 2 }, nodeCount := 5 }

/-- The engine that `scout` returns for the move `2` from `researchEntry`. -/
def researchScouted : Engine (List Int) :=
  { board := [2], rootPlyNumber := 0, depth := 0, score := 0, bestMove := 0,
    pv := { v := [1, 1, 1], len := 2 }, nodeCount := 8 }

/-- The engine that the re-search of the move `2` returns: the move stands at
`pv[2]` and the child line `1` at `pv[3]`. -/
def researchDone : Engine (List Int) :=
  { board := [2], rootPlyNumber := 0, depth := 0, score := 0, bestMove := 0,
    pv := { v := [1, 1, 2, 1, 1], len := 4 }, nodeCount := 12 }

/-! ## The negamax value of a position -/

/-- The legal moves on board `b`: the generated moves that pass the legality
test. -/
def legalMoves (M : BoardModule B) (b : B) : List Int :=
  (M.generateMoves b).filter (legalAt M b)

/-- The plain negamax value `V(node, depth)` of the specification, for a game
tree of depth below `fuel`: `0` at a repetition; the quiescence value at depth
0; otherwise the maximum of the negated values of the positions after the legal
moves, searched to depth `max(0, depth - 1 + check)`; without a legal move the
mate score `-32000 + (plyNumber - rootPlyNumber)` when in check and `0` when
not. -/
def negamaxValue (M : BoardModule B) (rootPlyNumber : Int) : Nat → B → Int → Int
  | 0, _, _ => 0
  | fuel + 1, b, depth =>
    if M.repetition b then 0
    else if depth = 0 then qValue M rootPlyNumber fuel b
    else
      match (legalMoves M b).map (fun m =>
          -(negamaxValue M rootPlyNumber fuel (M.makeMove b m)
            (imax 0 (depth - 1 + boolInt (M.inCheck b))))) with
      | [] => if M.inCheck b then -32000 + (M.plyNumber b - rootPlyNumber) else 0
      | v :: vs => vs.foldl max v

/-- The game tree below `b`, searched to `depth` and then through the
captures, is finite, of depth below `fuel`. -/
def gameFinite (M : BoardModule B) : Nat → B → Int → Bool
  | 0, _, _ => false
  | fuel + 1, b, depth =>
    M.repetition b ||
      (if depth = 0 then qFinite M fuel b
       else (legalMoves M b).all (fun m =>
         gameFinite M fuel (M.makeMove b m) (imax 0 (depth - 1 + boolInt (M.inCheck b)))))

/-! ## Theorems: move ordering -/

/-- C1. At the list `[1, 2]` with `move = 2`, which first occurs at index 1,
`moveToFront` leaves `[2, 2]`: the old first entry is overwritten and not moved
to index 1, so the contract of the specification fails there. -/
theorem moveToFront_overwrites :
    moveToFront [1, 2] 2 2 = [2, 2] ∧
    ¬ MoveToFrontContract [1, 2] (moveToFront [1, 2] 2 2) 2 2 := by
  refine ⟨by decide, fun h => ?_⟩
  have h1 := (h.1 1 (by decide) (by decide) (by intro k hk; interval_cases k; decide)).2.1 1
    (le_refl _) (le_refl _)
  revert h1
  decide

/-- C4. `exchange` is the one-ply estimate of the specification for every
board and move, over the tables `K=27, Q=9, R=5, B=N=3, P=1`, empty `-1`, and
promotion gains `9, 5, 3, 3`. -/
theorem exchange_eq_exchangeSpec :
    (∀ (M : BoardModule B) (board : B) (move : Int),
      exchange M board move = exchangeSpec M board move) ∧
    pieceValue .empty = -1 ∧
    (pieceValue .whiteKing = 27 ∧ pieceValue .whiteQueen = 9 ∧ pieceValue .whiteRook = 5 ∧
      pieceValue .whiteBishop = 3 ∧ pieceValue .whiteKnight = 3 ∧ pieceValue .whitePawn = 1) ∧
    (pieceValue .blackKing = 27 ∧ pieceValue .blackQueen = 9 ∧ pieceValue .blackRook = 5 ∧
      pieceValue .blackBishop = 3 ∧ pieceValue .blackKnight = 3 ∧ pieceValue .blackPawn = 1) ∧
    (promotionValue 0 = 9 ∧ promotionValue 1 = 5 ∧ promotionValue 2 = 3 ∧
      promotionValue 3 = 3) := by
  refine ⟨?_, by decide, by decide, by decide, by decide⟩
  intro M board move
  unfold exchange exchangeSpec
  simp only
  split_ifs <;> first | rfl | omega

theorem pieceValue_bounds (p : Piece) : -1 ≤ pieceValue p ∧ pieceValue p ≤ 27 := by
  cases p <;> simp [pieceValue]

theorem promotionValue_bounds (i : Int) : 0 ≤ promotionValue i ∧ promotionValue i ≤ 9 := by
  unfold promotionValue
  split_ifs <;> omega

theorem exchange_bounds (M : BoardModule B) (b : B) (m : Int) :
    -28 ≤ exchange M b m ∧ exchange M b m ≤ 35 := by
  have h1 := pieceValue_bounds (M.squares b (M.moveTo m))
  have h2 := pieceValue_bounds (M.squares b (M.moveFrom m))
  have h3 := promotionValue_bounds (m >>> M.promotionBits)
  unfold exchange
  simp only
  split_ifs <;> omega

theorem wrap32_key (s m : Int) (h1 : -28 ≤ s) (h2 : s ≤ 35) :
    wrap32 (s * 65536 + m % 65536) = s * 65536 + m % 65536 := by
  unfold wrap32
  omega

theorem sortKey_mod (M : BoardModule B) (b : B) (m : Int) : sortKey M b m % 65536 = m % 65536 := by
  unfold sortKey
  omega

theorem drop_eq_getD_cons {l : List Int} {i : Nat} (h : i < l.length) :
    l.drop i = l.getD i 0 :: l.drop (i + 1) := by
  rw [List.getD_eq_getElem l 0 h]
  exact List.drop_eq_getElem_cons h

theorem take_set_succ {l : List Int} {n : Nat} (x : Int) (h : n < l.length) :
    (l.set n x).take (n + 1) = l.take n ++ [x] := by
  induction l generalizing n with
  | nil => simp at h
  | cons a l ih =>
    cases n with
    | zero => simp
    | succ n => simp at h; simp [ih h]

theorem pack_spec (M : BoardModule B) (b : B) (f : Int) :
    ∀ (k i n : Nat) (l : List Int), n ≤ i → i + k ≤ l.length →
      (filterAndSort.pack M b f k i n l).2
          = n + (((l.drop i).take k).filter (fun m => decide (f ≤ exchange M b m))).length ∧
      (filterAndSort.pack M b f k i n l).1.take (filterAndSort.pack M b f k i n l).2
          = l.take n ++ (((l.drop i).take k).filter
              (fun m => decide (f ≤ exchange M b m))).map (sortKey M b) ∧
      (filterAndSort.pack M b f k i n l).1.length = l.length := by
  intro k
  induction k with
  | zero => intro i n l _ _; simp [filterAndSort.pack]
  | succ k ih =>
    intro i n l hn hi
    have hlt : i < l.length := by omega
    simp only [filterAndSort.pack]
    rw [drop_eq_getD_cons hlt]
    generalize l.getD i 0 = x
    simp only [List.take_succ_cons]
    by_cases hk : f ≤ exchange M b x
    · have hb := exchange_bounds M b x
      rw [if_pos (by simpa using hk), wrap32_key _ _ hb.1 hb.2]
      have := ih (i + 1) (n + 1) (l.set n (sortKey M b x)) (by omega)
        (by simp; omega)
      rw [List.drop_set_of_lt _ _ (by omega : n < i + 1)] at this
      simp only [sortKey] at this ⊢
      obtain ⟨h1, h2, h3⟩ := this
      refine ⟨?_, ?_, ?_⟩
      · rw [h1]; simp [List.filter_cons, hk]; omega
      · rw [h2, take_set_succ _ (by omega)]
        simp [List.filter_cons, hk, sortKey]
      · simpa using h3
    · rw [if_neg (by simpa using hk)]
      have := ih (i + 1) n l (by omega) (by omega)
      obtain ⟨h1, h2, h3⟩ := this
      refine ⟨?_, ?_, h3⟩
      · rw [h1]; simp [List.filter_cons, hk]
      · rw [h2]; simp [List.filter_cons, hk]

theorem strip_spec : ∀ (k i : Nat) (l : List Int), i + k ≤ l.length →
    filterAndSort.strip k i l
      = l.take i ++ ((l.drop i).take k).map (fun x => x % 65536) ++ l.drop (i + k) := by
  intro k
  induction k with
  | zero => intro i l _; simp [filterAndSort.strip]
  | succ k ih =>
    intro i l h
    have hlt : i < l.length := by omega
    simp only [filterAndSort.strip]
    rw [ih (i + 1) _ (by simp; omega), take_set_succ _ hlt, drop_eq_getD_cons hlt]
    generalize l.getD i 0 = x
    rw [List.drop_set_of_lt _ _ (by omega : i < i + 1),
      List.drop_set_of_lt _ _ (by omega : i < i + 1 + k)]
    simp [List.take_succ_cons, Nat.add_assoc, Nat.add_comm 1 k]


theorem compareMoves_le (a b : Int) : compareMoves a b ≤ 0 ↔ b ≤ a := by
  unfold compareMoves
  split_ifs <;> omega

theorem keyOrder_total : IsTotal Int (fun a b => compareMoves a b ≤ 0) :=
  ⟨fun a b => by simp only [compareMoves_le]; omega⟩

theorem keyOrder_trans : IsTrans Int (fun a b => compareMoves a b ≤ 0) :=
  ⟨fun a b c => by simp only [compareMoves_le]; omega⟩

theorem keyOrder_antisymm : IsAntisymm Int (fun a b => compareMoves a b ≤ 0) :=
  ⟨fun a b => by simp only [compareMoves_le]; omega⟩

theorem filterAndSort_spec (M : BoardModule B) (b : B) (f : Int) (l : List Int) (n : Nat)
    (hn : n ≤ l.length) :
    (filterAndSort M b l n f).2 = (survivors M b f (l.take n)).length ∧
    (filterAndSort M b l n f).1.take (filterAndSort M b l n f).2
      = (sortedKeys M b f (l.take n)).map (fun x => x % 65536) ∧
    (filterAndSort M b l n f).1.length = l.length := by
  obtain ⟨h1, h2, h3⟩ := pack_spec M b f n 0 0 l (le_refl _) (by omega)
  simp only [List.drop_zero, Nat.zero_add, List.take_zero, List.nil_append] at h1 h2
  unfold filterAndSort
  simp only
  generalize filterAndSort.pack M b f n 0 0 l = p at h1 h2 h3
  obtain ⟨pl, pn⟩ := p
  simp only at h1 h2 h3 ⊢
  have hpn : pn ≤ pl.length := by
    rw [h3, h1]
    exact le_trans (List.length_filter_le _ _) (by simp [hn])
  have hq : (qsort pl pn compareMoves).length = pl.length := by
    simp [qsort, List.length_insertionSort]; omega
  have hqt : (qsort pl pn compareMoves).take pn = sortedKeys M b f (l.take n) := by
    unfold qsort sortedKeys survivors
    rw [List.take_left' (by simp [List.length_insertionSort, hpn]), h2]
  refine ⟨h1, ?_, ?_⟩
  · rw [strip_spec pn 0 _ (by omega)]
    simp only [List.take_zero, List.nil_append, List.drop_zero, Nat.zero_add]
    rw [List.take_left' (by simp [hq, hpn]), hqt]
  · rw [strip_spec pn 0 _ (by omega)]
    simp [hq, hpn]
    omega


theorem sortedKeys_perm (M : BoardModule B) (b : B) (f : Int) (l : List Int) :
    (sortedKeys M b f l).Perm ((survivors M b f l).map (sortKey M b)) :=
  List.perm_insertionSort _ _

theorem sortedKeys_sorted (M : BoardModule B) (b : B) (f : Int) (l : List Int) :
    (sortedKeys M b f l).Sorted (fun a b => compareMoves a b ≤ 0) :=
  haveI := keyOrder_total
  haveI := keyOrder_trans
  List.sorted_insertionSort _ _

theorem sortedKeys_congr (M : BoardModule B) (b : B) (f : Int) {l l' : List Int}
    (h : l'.Perm l) : sortedKeys M b f l' = sortedKeys M b f l := by
  haveI := keyOrder_antisymm
  apply List.eq_of_perm_of_sorted _ (sortedKeys_sorted M b f l') (sortedKeys_sorted M b f l)
  refine (sortedKeys_perm M b f l').trans (List.Perm.trans ?_ (sortedKeys_perm M b f l).symm)
  exact (h.filter _).map _

theorem getD_take_lt (l : List Int) {i n : Nat} (h : i < n) :
    (l.take n).getD i 0 = l.getD i 0 := by
  simp [List.getElem?_take_of_lt h]

/-- C2. `filterAndSort` returns the number of input moves whose exchange
estimate reaches `moveFilter`, and the first `count` entries of the array are,
as a multiset, the low 16 bits of exactly those moves: none added, none
duplicated, none lost. -/
theorem filterAndSort_count_perm (M : BoardModule B) (board : B) (moveList : List Int)
    (moveFilter : Int) :
    (filterAndSort M board moveList moveList.length moveFilter).2
      = (moveList.filter (fun m => decide (exchange M board m ≥ moveFilter))).length ∧
    ((filterAndSort M board moveList moveList.length moveFilter).1.take
        (filterAndSort M board moveList moveList.length moveFilter).2).Perm
      ((moveList.filter (fun m => decide (exchange M board m ≥ moveFilter))).map
        (fun m => m % 65536)) := by
  obtain ⟨h1, h2, -⟩ := filterAndSort_spec M board moveFilter moveList moveList.length (le_refl _)
  rw [List.take_length] at h1 h2
  refine ⟨h1, ?_⟩
  rw [h2]
  refine ((sortedKeys_perm M board moveFilter moveList).map _).trans ?_
  rw [List.map_map]
  have : ((fun x : Int => x % 65536) ∘ sortKey M board) = fun m => m % 65536 := by
    funext m; exact sortKey_mod M board m
  rw [this]
  rfl

theorem sortedKeys_pairwise (M : BoardModule B) (b : B) (f : Int) (l : List Int)
    (h16 : ∀ m ∈ l, 0 ≤ m ∧ m < 65536) :
    ((sortedKeys M b f l).map (fun x => x % 65536)).Pairwise (fun x y =>
      exchange M b y ≤ exchange M b x ∧ (exchange M b x = exchange M b y → y ≤ x)) := by
  rw [List.pairwise_map]
  refine (sortedKeys_sorted M b f l).imp_of_mem ?_
  intro x y hx hy hxy
  rw [compareMoves_le] at hxy
  have key : ∀ z ∈ sortedKeys M b f l, ∃ m, 0 ≤ m ∧ m < 65536 ∧ z = exchange M b m * 65536 + m := by
    intro z hz
    have hz' := (sortedKeys_perm M b f l).mem_iff.1 hz
    obtain ⟨m, hm, rfl⟩ := List.mem_map.1 hz'
    have hml : m ∈ l := (List.mem_filter.1 hm).1
    obtain ⟨h0, h1⟩ := h16 m hml
    exact ⟨m, h0, h1, by unfold sortKey; omega⟩
  obtain ⟨m1, h10, h11, rfl⟩ := key x hx
  obtain ⟨m2, h20, h21, rfl⟩ := key y hy
  have e1 : (exchange M b m1 * 65536 + m1) % 65536 = m1 := by omega
  have e2 : (exchange M b m2 * 65536 + m2) % 65536 = m2 := by omega
  rw [e1, e2]
  constructor
  · omega
  · intro he; omega

/-- C3. For 16-bit moves, after `filterAndSort` the surviving moves stand in
descending order of their exchange estimate, moves of equal estimate stand with
the larger move first, and the resulting order is the same for every
arrangement of the same input moves. -/
theorem filterAndSort_descending (M : BoardModule B) (board : B) (moveList : List Int)
    (moveFilter : Int) (h16 : ∀ m ∈ moveList, 0 ≤ m ∧ m < 65536) :
    DescendingByExchange M board (filterAndSort M board moveList moveList.length moveFilter) ∧
    (∀ other : List Int, other.Perm moveList →
      (filterAndSort M board other other.length moveFilter).1.take
          (filterAndSort M board other other.length moveFilter).2
        = (filterAndSort M board moveList moveList.length moveFilter).1.take
          (filterAndSort M board moveList moveList.length moveFilter).2) := by
  obtain ⟨h1, h2, h3⟩ := filterAndSort_spec M board moveFilter moveList moveList.length (le_refl _)
  rw [List.take_length] at h1 h2
  constructor
  · intro i j hij hj
    have hp := sortedKeys_pairwise M board moveFilter moveList h16
    rw [← h2] at hp
    rw [← getD_take_lt _ hj, ← getD_take_lt _ (lt_trans hij hj)]
    generalize hout : (filterAndSort M board moveList moveList.length moveFilter).1.take
      (filterAndSort M board moveList moveList.length moveFilter).2 = o at hp
    have hlen : o.length = (filterAndSort M board moveList moveList.length moveFilter).2 := by
      rw [← hout, List.length_take, h3, h1]
      exact min_eq_left (List.length_filter_le _ _)
    have hj' : j < o.length := by omega
    have hi' : i < o.length := by omega
    rw [List.getD_eq_getElem _ _ hj', List.getD_eq_getElem _ _ hi']
    exact List.pairwise_iff_getElem.1 hp i j hi' hj' hij
  · intro other hperm
    obtain ⟨-, g2, -⟩ := filterAndSort_spec M board moveFilter other other.length (le_refl _)
    rw [List.take_length] at g2
    rw [g2, h2, sortedKeys_congr M board moveFilter hperm]


set_option maxRecDepth 100000 in
theorem filterAndSort_descending_witness :
    (∀ m ∈ ([65, 130, 3, 66] : List Int), 0 ≤ m ∧ m < 65536) ∧
    filterAndSort captureModule [] [65, 130, 3, 66] 4 0 = ([65, 130, 66, 66], 3) ∧
    DescendingByExchange captureModule [] (filterAndSort captureModule [] [65, 130, 3, 66] 4 0) ∧
    (filterAndSort captureModule [] [66, 3, 130, 65] 4 0).1.take
        (filterAndSort captureModule [] [66, 3, 130, 65] 4 0).2
      = (filterAndSort captureModule [] [65, 130, 3, 66] 4 0).1.take
        (filterAndSort captureModule [] [65, 130, 3, 66] 4 0).2 :=
  ⟨by decide, by decide,
    (filterAndSort_descending captureModule [] [65, 130, 3, 66] 0 (by decide)).1,
    (filterAndSort_descending captureModule [] [65, 130, 3, 66] 0 (by decide)).2
      [66, 3, 130, 65] (by decide)⟩

/-! ## Theorems: the board is restored -/

theorem getD_mem_take (l : List Int) {i n : Nat} (h : i < n) (hn : n ≤ l.length) :
    l.getD i 0 ∈ l.take n := by
  rw [← getD_take_lt l h]
  have hi : i < (l.take n).length := by simp; omega
  rw [List.getD_eq_getElem _ _ hi]
  exact List.getElem_mem _

theorem filterLegalMoves_loop_spec (M : BoardModule B) (b : B) :
    ∀ (k i j : Nat) (l : List Int), j ≤ i → i + k ≤ l.length →
      (∀ x ∈ (l.drop i).take k, M.undoMove (M.makeMove b x) = b) →
      (filterLegalMoves.loop M k i j b l).1 = b ∧
      (filterLegalMoves.loop M k i j b l).2.2
        = j + (((l.drop i).take k).filter (legalAt M b)).length ∧
      (filterLegalMoves.loop M k i j b l).2.1.take (filterLegalMoves.loop M k i j b l).2.2
        = l.take j ++ ((l.drop i).take k).filter (legalAt M b) ∧
      (filterLegalMoves.loop M k i j b l).2.1.length = l.length := by
  intro k
  induction k with
  | zero => intro i j l _ _ _; simp [filterLegalMoves.loop]
  | succ k ih =>
    intro i j l hj hi hu
    have hlt : i < l.length := by omega
    simp only [filterLegalMoves.loop]
    rw [drop_eq_getD_cons hlt] at hu ⊢
    generalize l.getD i 0 = x at hu ⊢
    simp only [List.take_succ_cons] at hu ⊢
    have hux : M.undoMove (M.makeMove b x) = b := hu x (List.mem_cons_self _ _)
    have hu' : ∀ y ∈ (l.drop (i + 1)).take k, M.undoMove (M.makeMove b y) = b :=
      fun y hy => hu y (List.mem_cons_of_mem _ hy)
    by_cases hk : M.wasLegalMove (M.makeMove b x) = true
    · rw [if_pos hk, hux]
      have := ih (i + 1) (j + 1) (l.set j x) (by omega) (by simp; omega)
        (by rw [List.drop_set_of_lt _ _ (by omega : j < i + 1)]; exact hu')
      rw [List.drop_set_of_lt _ _ (by omega : j < i + 1)] at this
      obtain ⟨h0, h1, h2, h3⟩ := this
      refine ⟨h0, ?_, ?_, by simpa using h3⟩
      · rw [h1]; simp [List.filter_cons, legalAt, hk]; omega
      · rw [h2, take_set_succ _ (by omega)]
        simp [List.filter_cons, legalAt, hk]
    · rw [if_neg hk, hux]
      obtain ⟨h0, h1, h2, h3⟩ := ih (i + 1) j l (by omega) (by omega) hu'
      refine ⟨h0, ?_, ?_, h3⟩
      · rw [h1]; simp [List.filter_cons, legalAt, hk]
      · rw [h2]; simp [List.filter_cons, legalAt, hk]

theorem filterLegalMoves_spec (M : BoardModule B) (b : B) (l : List Int) (n : Nat)
    (hn : n ≤ l.length) (hu : ∀ x ∈ l.take n, M.undoMove (M.makeMove b x) = b) :
    (filterLegalMoves M b l n).1 = b ∧
    (filterLegalMoves M b l n).2.2 = ((l.take n).filter (legalAt M b)).length ∧
    (filterLegalMoves M b l n).2.1.take (filterLegalMoves M b l n).2.2
      = (l.take n).filter (legalAt M b) ∧
    (filterLegalMoves M b l n).2.1.length = l.length := by
  have := filterLegalMoves_loop_spec M b n 0 0 l (le_refl _) (by omega) (by simpa using hu)
  simpa [filterLegalMoves] using this

theorem moveToFront_loop_getD (move : Int) :
    ∀ (k i : Nat) (l : List Int), i + k ≤ l.length →
      (moveToFront.loop move k i l).length = l.length ∧
      ∀ j, j < i + k → ∃ j', j' < i + k ∧ (moveToFront.loop move k i l).getD j 0 = l.getD j' 0 := by
  intro k
  induction k with
  | zero => intro i l _; exact ⟨rfl, fun j hj => ⟨j, hj, rfl⟩⟩
  | succ k ih =>
    intro i l h
    simp only [moveToFront.loop]
    by_cases hm : l.getD i 0 = move
    · rw [if_neg (by simpa using hm)]
      constructor
      · simp [memmove]; omega
      · intro j hj
        by_cases h0 : j = 0
        · subst h0
          refine ⟨i, by omega, ?_⟩
          rw [hm]
          have : 0 < (memmove l 0 1 i).length := by simp [memmove]; omega
          simp [List.getElem?_set, this]
        · by_cases h1 : j < i
          · refine ⟨j + 1, by omega, ?_⟩
            have : (memmove l 0 1 i)[j]? = l[j + 1]? := by
              simp only [memmove, List.take_zero, List.nil_append, Nat.zero_add]
              rw [List.getElem?_append_left (by simp; omega), List.getElem?_take_of_lt h1]
              simp [Nat.add_comm]
            simp [List.getElem?_set, Ne.symm h0, this]
          · refine ⟨j, hj, ?_⟩
            have : (memmove l 0 1 i)[j]? = l[j]? := by
              simp only [memmove, List.take_zero, List.nil_append, Nat.zero_add]
              rw [List.getElem?_append_right (by simp; omega)]
              simp
              congr 1
              omega
            simp [List.getElem?_set, Ne.symm h0, this]
    · rw [if_pos (by simpa using hm)]
      obtain ⟨g1, g2⟩ := ih (i + 1) l (by omega)
      refine ⟨g1, fun j hj => ?_⟩
      obtain ⟨j', hj', e⟩ := g2 j (by omega)
      exact ⟨j', by omega, e⟩

theorem qSearch_loop_board (M : BoardModule B) (child : Engine B → Int → Result B Int)
    (alpha : Int) (moveList : List Int) (b : B) (n : Nat)
    (hchild : ∀ e a v e', child e a = .ok v e' → e'.board = e.board)
    (hgood : ∀ x, x < n → M.undoMove (M.makeMove b (moveList.getD x 0)) = b) :
    ∀ (k i : Nat) (self : Engine B) (bestScore : Int), i + k ≤ n → self.board = b →
      ∀ v e, qSearch.loop M child alpha moveList k i self bestScore = .ok v e → e.board = b := by
  intro k
  induction k with
  | zero =>
    intro i self bestScore _ hb v e h
    simp only [qSearch.loop, Result.ok.injEq] at h
    rw [← h.2]; exact hb
  | succ k ih =>
    intro i self bestScore hik hb v e h
    simp only [qSearch.loop] at h
    split_ifs at h with h1 h2
    · split at h
      · next value self' hc =>
        have hb' := hchild _ _ _ _ hc
        simp only at hb'
        refine ih (i + 1) _ _ (by omega) ?_ v e h
        simp only [hb', hb]
        exact hgood i (by omega)
      · cases h
      · cases h
    · refine ih (i + 1) _ _ (by omega) ?_ v e h
      simp only [hb]
      exact hgood i (by omega)
    · simp only [Result.ok.injEq] at h
      rw [← h.2]; exact hb

theorem filterAndSort_generated (M : BoardModule B) (b : B) (f : Int) (G : List Int)
    (h16 : ∀ m ∈ G, 0 ≤ m ∧ m < 65536) :
    (filterAndSort M b G G.length f).2 ≤ (filterAndSort M b G G.length f).1.length ∧
    (∀ x ∈ (filterAndSort M b G G.length f).1.take (filterAndSort M b G G.length f).2,
      x ∈ G ∧ f ≤ exchange M b x) ∧
    (filterAndSort M b G G.length f).2 = (survivors M b f G).length := by
  obtain ⟨h1, h2, h3⟩ := filterAndSort_spec M b f G G.length (le_refl _)
  rw [List.take_length] at h1 h2
  refine ⟨?_, ?_, h1⟩
  · rw [h3, h1]; exact List.length_filter_le _ _
  · intro x hx
    rw [h2] at hx
    obtain ⟨k, hk, rfl⟩ := List.mem_map.1 hx
    have hk' := (sortedKeys_perm M b f G).mem_iff.1 hk
    obtain ⟨m, hm, rfl⟩ := List.mem_map.1 hk'
    obtain ⟨hmG, hkeep⟩ := List.mem_filter.1 hm
    have := h16 m hmG
    have e : sortKey M b m % 65536 = m := by rw [sortKey_mod]; omega
    rw [e]
    exact ⟨hmG, by simpa using hkeep⟩

theorem filterAndSort_good (M : BoardModule B) (H : UndoRestores M) (b : B) (f : Int) :
    ∀ x, x < (filterAndSort M b (M.generateMoves b) (M.generateMoves b).length f).2 →
      M.undoMove (M.makeMove b
        ((filterAndSort M b (M.generateMoves b) (M.generateMoves b).length f).1.getD x 0)) = b := by
  intro x hx
  obtain ⟨h1, h2, -⟩ := filterAndSort_generated M b f (M.generateMoves b) (fun m hm => (H b m hm).1)
  exact (H b _ (h2 _ (getD_mem_take _ hx h1)).1).2

theorem qSearch_board (M : BoardModule B) (H : UndoRestores M) :
    ∀ (fuel : Nat) (self : Engine B) (alpha : Int) (v : Int) (e : Engine B),
      qSearch M fuel self alpha = .ok v e → e.board = self.board := by
  intro fuel
  induction fuel with
  | zero => intro self alpha v e h; simp [qSearch] at h
  | succ fuel ih =>
    intro self alpha v e h
    simp only [qSearch] at h
    generalize (if M.inCheck self.board = true then minInt else M.evaluate self.board) = bs0 at h
    generalize (if M.inCheck self.board = true then minInt else 0) = f at h
    split_ifs at h with h1
    · simp only [Result.ok.injEq] at h
      rw [← h.2]
    · split at h
      · next bs self' hl =>
        simp only [Result.ok.injEq] at h
        rw [← h.2]
        exact qSearch_loop_board M _ alpha _ self.board _ (fun e a v e' => ih e a v e')
          (filterAndSort_good M H self.board _) _ 0 self _ (by omega) rfl _ _ hl
      · cases h
      · cases h

theorem scout_loop_board (M : BoardModule B) (child : Engine B → Int → Int → Result B Int)
    (depth alpha check : Int) (moveList : List Int) (b : B) (n : Nat)
    (hchild : ∀ e d a v e', child e d a = .ok v e' → e'.board = e.board)
    (hgood : ∀ x, x < n → M.undoMove (M.makeMove b (moveList.getD x 0)) = b) :
    ∀ (k i : Nat) (self : Engine B) (bestScore : Int), i + k ≤ n → self.board = b →
      ∀ v e, scout.loop M child depth alpha check moveList k i self bestScore = .ok v e →
        e.board = b := by
  intro k
  induction k with
  | zero =>
    intro i self bestScore _ hb v e h
    simp only [scout.loop, Result.ok.injEq] at h
    rw [← h.2]; exact hb
  | succ k ih =>
    intro i self bestScore hik hb v e h
    simp only [scout.loop] at h
    split_ifs at h with h1 h2
    · split at h
      · next value self' hc =>
        have hb' := hchild _ _ _ _ _ hc
        simp only at hb'
        refine ih (i + 1) _ _ (by omega) ?_ v e h
        simp only [hb', hb]
        exact hgood i (by omega)
      · cases h
      · cases h
    · refine ih (i + 1) _ _ (by omega) ?_ v e h
      simp only [hb]
      exact hgood i (by omega)
    · simp only [Result.ok.injEq] at h
      rw [← h.2]; exact hb

theorem scout_board (M : BoardModule B) (env : Env) (H : UndoRestores M) :
    ∀ (fuel : Nat) (self : Engine B) (depth alpha : Int) (v : Int) (e : Engine B),
      scout M env fuel self depth alpha = .ok v e → e.board = self.board := by
  intro fuel
  induction fuel with
  | zero => intro self depth alpha v e h; simp [scout] at h
  | succ fuel ih =>
    intro self depth alpha v e h
    simp only [scout] at h
    split_ifs at h with h1 h2 h3
    · simp only [Result.ok.injEq] at h
      rw [← h.2]
    · have := qSearch_board M H _ _ _ _ _ h
      exact this
    · split at h
      · next bs self' hl =>
        simp only [Result.ok.injEq] at h
        rw [← h.2]
        have := scout_loop_board M _ depth alpha _ _ self.board _ (fun e d a v e' => ih e d a v e')
          (filterAndSort_good M H self.board _) _ 0 _ _ (le_of_eq (Nat.zero_add _)) (by rfl) _ _ hl
        exact this
      · cases h
      · cases h

theorem moveToFront_getD (l : List Int) (n : Nat) (move : Int) (hn : n ≤ l.length) :
    ∀ j, j < n → ∃ j', j' < n ∧ (moveToFront l n move).getD j 0 = l.getD j' 0 := by
  intro j hj
  obtain ⟨-, h⟩ := moveToFront_loop_getD move n 0 l (by omega)
  obtain ⟨j', h1, h2⟩ := h j (by omega)
  exact ⟨j', by omega, h2⟩

theorem pvSearch_first_board (M : BoardModule B)
    (pvChild : Engine B → Int → Int → Int → Nat → Result B Int)
    (depth alpha beta : Int) (pvIndex : Nat) (check : Int)
    (moveList : List Int) (nrMoves : Nat) (self : Engine B) (bestScore : Int) (b : B)
    (hchild : ∀ e d a c p v e', pvChild e d a c p = .ok v e' → e'.board = e.board)
    (hn : nrMoves ≤ moveList.length)
    (hgood : ∀ x, x < nrMoves → M.undoMove (M.makeMove b (moveList.getD x 0)) = b)
    (hb : self.board = b) (v : Int × List Int) (e : Engine B)
    (h : pvSearch.first M pvChild depth alpha beta pvIndex check moveList nrMoves self bestScore
      = .ok v e) :
    e.board = b ∧ ∀ x, x < nrMoves → M.undoMove (M.makeMove b (v.2.getD x 0)) = b := by
  unfold pvSearch.first at h
  by_cases h0 : nrMoves > 0
  · rw [if_pos h0] at h
    simp only at h
    have hgood' : ∀ x, x < nrMoves → M.undoMove (M.makeMove b
        ((if pvIndex < self.pv.len then moveToFront moveList nrMoves (self.pv.v.getD pvIndex 0)
          else moveList).getD x 0)) = b := by
      intro x hx
      by_cases hp : pvIndex < self.pv.len
      · rw [if_pos hp]
        obtain ⟨j', hj', e'⟩ := moveToFront_getD moveList nrMoves (self.pv.v.getD pvIndex 0) hn x hx
        rw [e']; exact hgood j' hj'
      · rw [if_neg hp]; exact hgood x hx
    generalize (if pvIndex < self.pv.len then moveToFront moveList nrMoves (self.pv.v.getD pvIndex 0)
          else moveList) = ml at h hgood'
    split at h
    · next value self' hc =>
      have hb' := hchild _ _ _ _ _ _ _ hc
      simp only at hb'
      have hself : (if pvIndex < self.pv.len then self
          else { self with pv := pushList self.pv (ml.getD 0 0) }).board = b := by
        split_ifs <;> exact hb
      rw [hself] at hb'
      split_ifs at h with h2
      · simp only [Result.ok.injEq] at h
        obtain ⟨rfl, rfl⟩ := h
        exact ⟨by simp only [hb']; exact hgood' 0 h0, hgood'⟩
      · simp only [Result.ok.injEq] at h
        obtain ⟨rfl, rfl⟩ := h
        exact ⟨by simp only [hb']; exact hgood' 0 h0, hgood'⟩
    · cases h
    · cases h
  · rw [if_neg h0] at h
    simp only [Result.ok.injEq] at h
    obtain ⟨rfl, rfl⟩ := h
    exact ⟨hb, hgood⟩

theorem pvSearch_loop_board (M : BoardModule B)
    (pvChild : Engine B → Int → Int → Int → Nat → Result B Int)
    (scoutChild : Engine B → Int → Int → Result B Int)
    (depth alpha beta : Int) (pvIndex : Nat) (check : Int) (moveList : List Int) (b : B) (n : Nat)
    (hchild : ∀ e d a c p v e', pvChild e d a c p = .ok v e' → e'.board = e.board)
    (hscout : ∀ e d a v e', scoutChild e d a = .ok v e' → e'.board = e.board)
    (hgood : ∀ x, x < n → M.undoMove (M.makeMove b (moveList.getD x 0)) = b) :
    ∀ (k i : Nat) (self : Engine B) (bestScore : Int), k = 0 ∨ i + k ≤ n → self.board = b →
      ∀ v e, pvSearch.loop M pvChild scoutChild depth alpha beta pvIndex check moveList k i
        self bestScore = .ok v e → e.board = b := by
  intro k
  induction k with
  | zero =>
    intro i self bestScore _ hb v e h
    simp only [pvSearch.loop, Result.ok.injEq] at h
    rw [← h.2]; exact hb
  | succ k ih =>
    intro i self bestScore hik hb v e h
    simp only [pvSearch.loop] at h
    have hik : i + (k + 1) ≤ n := by omega
    have hg := hgood i (by omega)
    by_cases h1 : bestScore < beta
    · rw [if_pos h1] at h
      split at h
      · next value self' hc =>
        have hb' := hscout _ _ _ _ _ hc
        simp only [hb] at hb'
        by_cases h2 : -value > bestScore
        · rw [if_pos h2] at h
          split at h
          · next value2 self2 hc2 =>
            have hb2 := hchild _ _ _ _ _ _ _ hc2
            simp only [hb'] at hb2
            by_cases h3 : -value2 > bestScore
            · rw [if_pos h3] at h
              refine ih (i + 1) _ _ (Or.inr (by omega)) ?_ v e h
              simp only [hb2]; exact hg
            · rw [if_neg h3] at h
              refine ih (i + 1) _ _ (Or.inr (by omega)) ?_ v e h
              simp only [hb2]; exact hg
          · cases h
          · cases h
        · rw [if_neg h2] at h
          refine ih (i + 1) _ _ (Or.inr (by omega)) ?_ v e h
          simp only [hb']; exact hg
      · cases h
      · cases h
    · rw [if_neg h1] at h
      simp only [Result.ok.injEq] at h
      rw [← h.2]; exact hb

theorem legal_good (M : BoardModule B) (H : UndoRestores M) (b : B) (f : Int) :
    (filterLegalMoves M b
        (filterAndSort M b (M.generateMoves b) (M.generateMoves b).length f).1
        (filterAndSort M b (M.generateMoves b) (M.generateMoves b).length f).2).1 = b ∧
    (filterLegalMoves M b
        (filterAndSort M b (M.generateMoves b) (M.generateMoves b).length f).1
        (filterAndSort M b (M.generateMoves b) (M.generateMoves b).length f).2).2.2
      ≤ (filterLegalMoves M b
        (filterAndSort M b (M.generateMoves b) (M.generateMoves b).length f).1
        (filterAndSort M b (M.generateMoves b) (M.generateMoves b).length f).2).2.1.length ∧
    ∀ x, x < (filterLegalMoves M b
        (filterAndSort M b (M.generateMoves b) (M.generateMoves b).length f).1
        (filterAndSort M b (M.generateMoves b) (M.generateMoves b).length f).2).2.2 →
      M.undoMove (M.makeMove b ((filterLegalMoves M b
        (filterAndSort M b (M.generateMoves b) (M.generateMoves b).length f).1
        (filterAndSort M b (M.generateMoves b) (M.generateMoves b).length f).2).2.1.getD x 0))
        = b := by
  obtain ⟨h1, h2, -⟩ := filterAndSort_generated M b f (M.generateMoves b)
    (fun m hm => (H b m hm).1)
  generalize filterAndSort M b (M.generateMoves b) (M.generateMoves b).length f = s at h1 h2
  have hu : ∀ x ∈ s.1.take s.2, M.undoMove (M.makeMove b x) = b :=
    fun x hx => (H b x (h2 x hx).1).2
  obtain ⟨g0, g1, g2, g3⟩ := filterLegalMoves_spec M b s.1 s.2 h1 hu
  have hle : (filterLegalMoves M b s.1 s.2).2.2 ≤ (filterLegalMoves M b s.1 s.2).2.1.length := by
    rw [g3, g1]
    exact le_trans (List.length_filter_le _ _) (by simp)
  refine ⟨g0, hle, fun x hx => ?_⟩
  have hm := getD_mem_take _ hx hle
  rw [g2] at hm
  exact hu _ (List.mem_filter.1 hm).1

theorem pvSearch_moves_board (M : BoardModule B) (H : UndoRestores M)
    (pvChild : Engine B → Int → Int → Int → Nat → Result B Int)
    (scoutChild : Engine B → Int → Int → Result B Int)
    (depth alpha beta : Int) (pvIndex : Nat) (check : Bool) (moveFilter : Int)
    (self : Engine B) (bestScore : Int)
    (hchild : ∀ e d a c p v e', pvChild e d a c p = .ok v e' → e'.board = e.board)
    (hscout : ∀ e d a v e', scoutChild e d a = .ok v e' → e'.board = e.board)
    (v : Int) (e : Engine B)
    (h : pvSearch.moves M pvChild scoutChild depth alpha beta pvIndex check moveFilter self
      bestScore = .ok v e) :
    e.board = self.board := by
  unfold pvSearch.moves at h
  simp only at h
  obtain ⟨g0, g1, g2⟩ := legal_good M H self.board moveFilter
  generalize filterLegalMoves M self.board
    (filterAndSort M self.board (M.generateMoves self.board)
      (M.generateMoves self.board).length moveFilter).1
    (filterAndSort M self.board (M.generateMoves self.board)
      (M.generateMoves self.board).length moveFilter).2 = legal at h g0 g1 g2
  split at h
  · next bs ml self1 hf =>
    obtain ⟨f1, f2⟩ := pvSearch_first_board M pvChild depth alpha beta pvIndex _ _ _ _ _
      self.board hchild g1 g2 g0 _ _ hf
    split at h
    · next bs2 self2 hl =>
      simp only [Result.ok.injEq] at h
      rw [← h.2]
      exact pvSearch_loop_board M pvChild scoutChild depth alpha beta pvIndex _ _ self.board
        legal.2.2 hchild hscout f2 _ 1 _ _ (by omega) f1 _ _ hl
    · cases h
    · cases h
  · cases h
  · cases h

theorem pvSearch_board (M : BoardModule B) (env : Env) (H : UndoRestores M) :
    ∀ (fuel : Nat) (self : Engine B) (depth alpha beta : Int) (pvIndex : Nat) (v : Int)
      (e : Engine B),
      pvSearch M env fuel self depth alpha beta pvIndex = .ok v e → e.board = self.board := by
  intro fuel
  induction fuel with
  | zero => intro self depth alpha beta pvIndex v e h; simp [pvSearch] at h
  | succ fuel ih =>
    intro self depth alpha beta pvIndex v e h
    simp only [pvSearch] at h
    have hsc := scout_board M env H fuel
    by_cases h1 : M.repetition self.board = true
    · rw [if_pos h1] at h
      simp only [Result.ok.injEq] at h
      rw [← h.2]
    · rw [if_neg h1] at h
      by_cases h2 : depth = 0 ∧ M.inCheck self.board = false
      · rw [if_pos h2] at h
        by_cases h3 : M.evaluate self.board ≥ beta
        · rw [if_pos h3] at h
          simp only [Result.ok.injEq] at h
          rw [← h.2]
        · rw [if_neg h3] at h
          have := pvSearch_moves_board M H _ _ _ _ _ _ _ _ _ _ ih hsc _ _ h
          exact this
      · rw [if_neg h2] at h
        have := pvSearch_moves_board M H _ _ _ _ _ _ _ _ _ _ ih hsc _ _ h
        exact this

theorem rootSearch_loop_board (M : BoardModule B) (env : Env) (H : UndoRestores M) (fuel : Nat)
    (infoFunction : Option (Engine B → Bool)) :
    ∀ (k : Nat) (iteration : Int) (stop : Bool) (self e : Engine B),
      rootSearch.loop M env fuel infoFunction k iteration stop self = .ok () e →
      e.board = self.board := by
  intro k
  induction k with
  | zero =>
    intro iteration stop self e h
    simp only [rootSearch.loop, Result.ok.injEq, true_and] at h
    rw [h]
  | succ k ih =>
    intro iteration stop self e h
    simp only [rootSearch.loop] at h
    by_cases hs : stop = false
    · rw [if_pos hs] at h
      split at h
      · next value self1 hp =>
        have hb := pvSearch_board M env H _ _ _ _ _ _ _ _ hp
        have := ih _ _ _ _ h
        rw [this]
        simp only at hb
        split_ifs <;> exact hb
      · cases h
      · cases h
    · rw [if_neg hs] at h
      simp only [Result.ok.injEq, true_and] at h
      rw [h]

/-! ## Theorems: the root driver -/

theorem twoMoveModule_undo : UndoRestores twoMoveModule := by
  intro b m hm
  have hm' : m ∈ (if b.length < 3 then ([1, 2] : List Int) else []) := hm
  split_ifs at hm'
  · simp only [List.mem_cons, List.mem_singleton, List.not_mem_nil, or_false] at hm'
    refine ⟨?_, rfl⟩
    rcases hm' with rfl | rfl <;> decide
  · simp at hm'

theorem mateModule_undo : UndoRestores mateModule := by
  intro b m hm
  have hm' : m ∈ ([1] : List Int) := hm
  simp only [List.mem_singleton] at hm'
  subst hm'
  exact ⟨by decide, rfl⟩

theorem rootSearch_loop_bestMove (M : BoardModule B) (env : Env) (fuel : Nat)
    (infoFunction : Option (Engine B → Bool)) :
    ∀ (k : Nat) (iteration : Int) (stop : Bool) (self e : Engine B),
      rootSearch.loop M env fuel infoFunction k iteration stop self = .ok () e →
      e = self ∧ (k = 0 ∨ stop = true) ∨ (e.pv.len > 0 → e.bestMove = e.pv.v.getD 0 0) := by
  intro k
  induction k with
  | zero =>
    intro iteration stop self e h
    simp only [rootSearch.loop, Result.ok.injEq, true_and] at h
    exact Or.inl ⟨h.symm, Or.inl rfl⟩
  | succ k ih =>
    intro iteration stop self e h
    simp only [rootSearch.loop] at h
    by_cases hs : stop = false
    · rw [if_pos hs] at h
      right
      split at h
      · next value self1 hp =>
        rcases ih _ _ _ _ h with ⟨he, -⟩ | h'
        · rw [he]
          split_ifs with hlen
          · intro _; rfl
          · intro hl; exact absurd hl hlen
        · exact h'
      · cases h
      · cases h
    · rw [if_neg hs] at h
      simp only [Result.ok.injEq, true_and] at h
      exact Or.inl ⟨h.symm, Or.inr (by simpa using hs)⟩

/-- C6. After `rootSearch` has returned normally for a depth `≥ 0`, a
non-empty principal variation starts with `bestMove`. -/
theorem rootSearch_bestMove_heads_pv (M : BoardModule B) (env : Env) (fuel : Nat)
    (self : Engine B) (depth : Int) (infoFunction : Option (Engine B → Bool)) (e : Engine B)
    (hdepth : 0 ≤ depth)
    (h : rootSearch M env fuel self depth infoFunction = .ok () e)
    (hlen : e.pv.len > 0) :
    e.bestMove = e.pv.v.getD 0 0 := by
  unfold rootSearch at h
  simp only at h
  split at h
  · next u self1 hl =>
    simp only [Result.ok.injEq, true_and] at h
    subst h
    rcases rootSearch_loop_bestMove M env fuel infoFunction _ _ _ _ _ hl with ⟨-, h0 | h0⟩ | h'
    · omega
    · cases h0
    · exact h' hlen
  · cases h
  · cases h

set_option maxRecDepth 100000 in
theorem rootSearch_bestMove_heads_pv_witness :
    (0 : Int) ≤ 1 ∧
    rootSearch twoMoveModule ⟨fun _ => 0⟩ 4 (freshEngine []) 1 none
      = .ok () { board := [], rootPlyNumber := 0, depth := 1, score := -1, bestMove := 1,
                 pv := { v := [1, 1], len := 1 }, nodeCount := 5 } ∧
    (1 : Int) = ([1, 1] : List Int).getD 0 0 :=
  ⟨by decide, by decide,
    rootSearch_bestMove_heads_pv twoMoveModule ⟨fun _ => 0⟩ 4 (freshEngine []) 1 none
      { board := [], rootPlyNumber := 0, depth := 1, score := -1, bestMove := 1,
        pv := { v := [1, 1], len := 1 }, nodeCount := 5 } (by decide) (by decide) (by decide)⟩

/-- C7. When `undoMove` after `makeMove` restores the board for every
generated move, every call of `pvSearch`, `scout`, `qSearch` and
`filterLegalMoves` (on generated moves) that returns normally leaves the board
as it was on entry, and so does `rootSearch` when it returns normally. -/
theorem search_restores_board (M : BoardModule B) (env : Env) (H : UndoRestores M) :
    (∀ (fuel : Nat) (self : Engine B) (depth alpha beta : Int) (pvIndex : Nat) (v : Int)
        (e : Engine B),
      pvSearch M env fuel self depth alpha beta pvIndex = .ok v e → e.board = self.board) ∧
    (∀ (fuel : Nat) (self : Engine B) (depth alpha : Int) (v : Int) (e : Engine B),
      scout M env fuel self depth alpha = .ok v e → e.board = self.board) ∧
    (∀ (fuel : Nat) (self : Engine B) (alpha : Int) (v : Int) (e : Engine B),
      qSearch M fuel self alpha = .ok v e → e.board = self.board) ∧
    (∀ (board : B) (moveList : List Int) (nrMoves : Nat), nrMoves ≤ moveList.length →
      (∀ m ∈ moveList.take nrMoves, m ∈ M.generateMoves board) →
      (filterLegalMoves M board moveList nrMoves).1 = board) ∧
    (∀ (fuel : Nat) (self : Engine B) (depth : Int) (infoFunction : Option (Engine B → Bool))
        (e : Engine B),
      rootSearch M env fuel self depth infoFunction = .ok () e → e.board = self.board) := by
  refine ⟨pvSearch_board M env H, scout_board M env H, qSearch_board M H, ?_, ?_⟩
  · intro board moveList nrMoves hn hgen
    exact (filterLegalMoves_spec M board moveList nrMoves hn
      (fun x hx => (H board x (hgen x hx)).2)).1
  · intro fuel self depth infoFunction e h
    unfold rootSearch at h
    simp only at h
    split at h
    · next u self1 hl =>
      simp only [Result.ok.injEq, true_and] at h
      subst h
      have := rootSearch_loop_board M env H fuel infoFunction _ _ _ _ _ hl
      exact this
    · cases h
    · cases h

set_option maxRecDepth 100000 in
theorem search_restores_board_witness :
    UndoRestores twoMoveModule ∧
    rootSearch twoMoveModule ⟨fun _ => 0⟩ 6 (freshEngine []) 2 none
      = .ok () { board := [], rootPlyNumber := 0, depth := 2, score := 2, bestMove := 1,
                 pv := { v := [1, 1, 1], len := 2 }, nodeCount := 13 } ∧
    ({ board := [], rootPlyNumber := 0, depth := 2, score := 2, bestMove := 1,
       pv := { v := [1, 1, 1], len := 2 }, nodeCount := 13 } : Engine (List Int)).board
      = (freshEngine ([] : List Int)).board :=
  ⟨twoMoveModule_undo, by decide,
    (search_restores_board twoMoveModule ⟨fun _ => 0⟩ twoMoveModule_undo).2.2.2.2 6
      (freshEngine []) 2 none _ (by decide)⟩

set_option maxRecDepth 100000 in
/-- C8. On a board module whose `undoMove` restores every generated move, a
search of depth 2 from the root position `[]`, in which the signal arrives
when ten nodes have been visited, leaves `rootSearch` through the landing pad
with the board `[1]`: the root move `1`, made before the aborting call of
`scout`, has not been undone. -/
theorem rootSearch_abort_keeps_move_made :
    UndoRestores twoMoveModule ∧
    rootSearch twoMoveModule ⟨fun n => if 10 ≤ n then 14 else 0⟩ 6 (freshEngine []) 2 none
      = .aborted { board := [1], rootPlyNumber := 0, depth := 2, score := -1, bestMove := 1,
                   pv := { v := [1, 1, 1], len := 0 }, nodeCount := 11 } :=
  ⟨twoMoveModule_undo, by decide⟩

set_option maxRecDepth 100000 in
/-- C5, as stated, fails. A search of depth 2 in which the signal arrives when
ten nodes have been visited unwinds with `pv.len = 2` and `pv[0] = bestMove =
1`; the landing pad then leaves `pv.len = 0`, where the claim asks for
`pv.len = 1`. -/
theorem landingPad_drops_confirmed_move :
    rootSearch.loop twoMoveModule ⟨fun n => if 10 ≤ n then 14 else 0⟩ 6 none 3 0 false (freshEngine [])
      = .aborted { board := [1], rootPlyNumber := 0, depth := 2, score := -1, bestMove := 1,
                   pv := { v := [1, 1, 1], len := 2 }, nodeCount := 11 } ∧
    ([1, 1, 1] : List Int).getD 0 0 = 1 ∧
    (rootSearch.landingPad
      ({ board := [1], rootPlyNumber := 0, depth := 2, score := -1, bestMove := 1,
         pv := { v := [1, 1, 1], len := 2 }, nodeCount := 11 } : Engine (List Int))).pv.len
      = 0 := by
  decide

/-- C5, amended. After the landing pad of `rootSearch`, `pv.len` is 0 or 1,
and it is 1 exactly when before the adjustment `pv.len > 0` and `pv[0]` differs
from `bestMove` (so that `pv.len = 0` or `pv[0]` is not `bestMove`); the landing
pad changes neither `bestMove` nor the board. -/
theorem landingPad_pv (self : Engine B) :
    ((rootSearch.landingPad self).pv.len = 0 ∨ (rootSearch.landingPad self).pv.len = 1) ∧
    ((rootSearch.landingPad self).pv.len = 1 ↔
      (self.pv.len > 0 ∧ self.pv.v.getD 0 0 ≠ self.bestMove)) ∧
    ((rootSearch.landingPad self).pv.len = 0 ∨
      (rootSearch.landingPad self).pv.v.getD 0 0 ≠ (rootSearch.landingPad self).bestMove) ∧
    (rootSearch.landingPad self).bestMove = self.bestMove ∧
    (rootSearch.landingPad self).board = self.board := by
  unfold rootSearch.landingPad
  simp only
  generalize self.pv.v.getD 0 0 = x
  split_ifs with h
  · exact ⟨Or.inr rfl, ⟨fun _ => h, fun _ => rfl⟩, Or.inr h.2, trivial, trivial⟩
  · exact ⟨Or.inl rfl, ⟨fun h0 => absurd h0 (by decide), fun h1 => absurd h1 h⟩,
      Or.inl rfl, trivial, trivial⟩

/-! ## Theorems: positions without a legal move -/

theorem engine_board_self (self : Engine B) (b : B) (h : b = self.board) :
    { self with board := b } = self := by
  subst h; rfl

theorem filterLegalMoves_nolegal (M : BoardModule B) (H : UndoRestores M) (b : B) (f : Int)
    (hnolegal : ∀ m ∈ M.generateMoves b, M.wasLegalMove (M.makeMove b m) = false) :
    (filterLegalMoves M b
        (filterAndSort M b (M.generateMoves b) (M.generateMoves b).length f).1
        (filterAndSort M b (M.generateMoves b) (M.generateMoves b).length f).2).1 = b ∧
    (filterLegalMoves M b
        (filterAndSort M b (M.generateMoves b) (M.generateMoves b).length f).1
        (filterAndSort M b (M.generateMoves b) (M.generateMoves b).length f).2).2.2 = 0 := by
  obtain ⟨h1, h2, -⟩ := filterAndSort_generated M b f (M.generateMoves b)
    (fun m hm => (H b m hm).1)
  generalize filterAndSort M b (M.generateMoves b) (M.generateMoves b).length f = s at h1 h2
  obtain ⟨g0, g1, -, -⟩ := filterLegalMoves_spec M b s.1 s.2 h1
    (fun x hx => (H b x (h2 x hx).1).2)
  refine ⟨g0, ?_⟩
  rw [g1, List.length_eq_zero, List.filter_eq_nil_iff]
  intro x hx
  simp [legalAt, hnolegal x (h2 x hx).1]

theorem pvSearch_moves_nolegal (M : BoardModule B) (H : UndoRestores M)
    (pvChild : Engine B → Int → Int → Int → Nat → Result B Int)
    (scoutChild : Engine B → Int → Int → Result B Int)
    (depth alpha beta : Int) (pvIndex : Nat) (check : Bool) (moveFilter : Int)
    (self : Engine B) (bestScore : Int)
    (hnolegal : ∀ m ∈ M.generateMoves self.board,
      M.wasLegalMove (M.makeMove self.board m) = false) :
    pvSearch.moves M pvChild scoutChild depth alpha beta pvIndex check moveFilter self bestScore
      = .ok (ttWrite depth alpha beta
          (if bestScore = minInt then endScore M self check else bestScore)) self := by
  obtain ⟨g0, g1⟩ := filterLegalMoves_nolegal M H self.board moveFilter hnolegal
  unfold pvSearch.moves
  simp only
  generalize filterLegalMoves M self.board
    (filterAndSort M self.board (M.generateMoves self.board)
      (M.generateMoves self.board).length moveFilter).1
    (filterAndSort M self.board (M.generateMoves self.board)
      (M.generateMoves self.board).length moveFilter).2 = legal at g0 g1
  rw [g0, g1]
  simp only [pvSearch.first, pvSearch.loop, gt_iff_lt, lt_self_iff_false, if_false]

theorem pvSearch_mate (M : BoardModule B) (env : Env) (H : UndoRestores M) (self : Engine B)
    (hrep : M.repetition self.board = false) (hcheck : M.inCheck self.board = true)
    (hnolegal : ∀ m ∈ M.generateMoves self.board,
      M.wasLegalMove (M.makeMove self.board m) = false)
    (fuel : Nat) (depth alpha beta : Int) (pvIndex : Nat) :
    pvSearch M env (fuel + 1) self depth alpha beta pvIndex
      = .ok (-32000 + (M.plyNumber self.board - self.rootPlyNumber))
          { self with nodeCount := self.nodeCount + 1 } := by
  simp only [pvSearch]
  rw [if_neg (by rw [hrep]; exact Bool.false_ne_true),
    if_neg (by rw [hcheck]; exact fun h => Bool.noConfusion h.2)]
  rw [pvSearch_moves_nolegal M H _ _ _ _ _ _ _ _ { self with nodeCount := self.nodeCount + 1 } _
    hnolegal]
  simp [ttWrite, endScore, hcheck]

theorem rootSearch_loop_mate (M : BoardModule B) (env : Env) (H : UndoRestores M) (fuel : Nat)
    (infoFunction : Option (Engine B → Bool)) :
    ∀ (k : Nat) (iteration : Int) (stop : Bool) (self : Engine B),
      M.repetition self.board = false → M.inCheck self.board = true →
      (∀ m ∈ M.generateMoves self.board, M.wasLegalMove (M.makeMove self.board m) = false) →
      self.rootPlyNumber = M.plyNumber self.board → self.pv.len = 0 →
      ∃ e, rootSearch.loop M env (fuel + 1) infoFunction k iteration stop self = .ok () e ∧
        e.board = self.board ∧ e.pv = self.pv ∧ e.bestMove = self.bestMove ∧
        (e.score = -32000 ∨ ((k = 0 ∨ stop = true) ∧ e.score = self.score)) := by
  intro k
  induction k with
  | zero =>
    intro iteration stop self _ _ _ _ _
    exact ⟨self, rfl, rfl, rfl, rfl, Or.inr ⟨Or.inl rfl, rfl⟩⟩
  | succ k ih =>
    intro iteration stop self hrep hcheck hnolegal hroot hpv
    simp only [rootSearch.loop]
    by_cases hs : stop = false
    · rw [if_pos hs]
      rw [pvSearch_mate M env H { self with depth := iteration } hrep hcheck hnolegal fuel]
      simp only [hpv, gt_iff_lt, lt_self_iff_false, if_false]
      have key := fun st => ih (iteration + 1) st
        { self with
          depth := iteration
          nodeCount := self.nodeCount + 1
          score := -32000 + (M.plyNumber self.board - self.rootPlyNumber) }
        hrep hcheck hnolegal hroot hpv
      have hscore : ∀ e : Engine B, (e.score = -32000 ∨
          e.score = -32000 + (M.plyNumber self.board - self.rootPlyNumber)) →
          e.score = -32000 := by
        intro e he
        rcases he with he | he
        · exact he
        · rw [he, hroot]; omega
      cases infoFunction with
      | none =>
        obtain ⟨e, h1, h2, h3, h4, h5⟩ := key stop
        exact ⟨e, h1, h2, h3, h4, Or.inl (hscore e (h5.imp id (fun h => h.2)))⟩
      | some f =>
        obtain ⟨e, h1, h2, h3, h4, h5⟩ := key (f _)
        exact ⟨e, h1, h2, h3, h4, Or.inl (hscore e (h5.imp id (fun h => h.2)))⟩
    · rw [if_neg hs]
      exact ⟨self, rfl, rfl, rfl, rfl, Or.inr ⟨Or.inr (by simpa using hs), rfl⟩⟩

theorem mateModule_nolegal (b : List Int) :
    ∀ m ∈ mateModule.generateMoves b, mateModule.wasLegalMove (mateModule.makeMove b m) = false :=
  fun _ _ => rfl

/-- C10, as stated, fails: `rootSearch` does not reset `bestMove`, so on a
checkmated root position an engine that still holds the move `7` of an earlier
search returns with `bestMove = 7`, not `0`. -/
theorem rootSearch_checkmate_stale_bestMove :
    mateModule.inCheck [] = true ∧ mateModule.repetition [] = false ∧
    (∀ m ∈ mateModule.generateMoves [],
      mateModule.wasLegalMove (mateModule.makeMove [] m) = false) ∧
    rootSearch mateModule ⟨fun _ => 0⟩ 1 { freshEngine [] with bestMove := 7 } 0 none
      = .ok () { board := [], rootPlyNumber := 0, depth := 0, score := -32000, bestMove := 7,
                 pv := { v := [], len := 0 }, nodeCount := 1 } :=
  ⟨rfl, rfl, mateModule_nolegal [], by decide⟩

/-- C10, amended. On a root position that is not a repetition, in which the
side to move is in check and has no legal move, for every depth `≥ 0` and an
engine entered with `pv.len = 0`, `rootSearch` returns normally with
`score = -32000` and `pv.len = 0`, and leaves `bestMove` and the board as they
were on entry (so `bestMove = 0` when it was `0` on entry). -/
theorem rootSearch_checkmate (M : BoardModule B) (env : Env) (H : UndoRestores M)
    (self : Engine B) (depth : Int) (infoFunction : Option (Engine B → Bool)) (fuel : Nat)
    (hdepth : 0 ≤ depth)
    (hrep : M.repetition self.board = false) (hcheck : M.inCheck self.board = true)
    (hnolegal : ∀ m ∈ M.generateMoves self.board,
      M.wasLegalMove (M.makeMove self.board m) = false)
    (hpv : self.pv.len = 0) :
    ∃ e, rootSearch M env (fuel + 1) self depth infoFunction = .ok () e ∧
      e.score = -32000 ∧ e.pv.len = 0 ∧ e.bestMove = self.bestMove ∧ e.board = self.board := by
  unfold rootSearch
  simp only
  obtain ⟨e, h1, h2, h3, h4, h5⟩ := rootSearch_loop_mate M env H fuel infoFunction
    (depth + 1).toNat 0 false
    { self with nodeCount := 0, rootPlyNumber := M.plyNumber self.board }
    hrep hcheck hnolegal rfl hpv
  rw [h1]
  refine ⟨e, rfl, ?_, by rw [h3]; exact hpv, h4, h2⟩
  rcases h5 with h5 | ⟨h5 | h5, -⟩
  · exact h5
  · omega
  · cases h5

theorem rootSearch_checkmate_witness :
    UndoRestores mateModule ∧ (0 : Int) ≤ 3 ∧
    ∃ e, rootSearch mateModule ⟨fun _ => 0⟩ 1 (freshEngine []) 3 none = .ok () e ∧
      e.score = -32000 ∧ e.pv.len = 0 ∧ e.bestMove = 0 ∧ e.board = [] :=
  ⟨mateModule_undo, by decide,
    rootSearch_checkmate mateModule ⟨fun _ => 0⟩ mateModule_undo (freshEngine []) 3 none 0
      (by decide) rfl rfl (mateModule_nolegal []) rfl⟩

/-! ## Theorems: the threshold of the move filter -/

theorem filterAndSort_mem_iff (M : BoardModule B) (b : B) (f : Int) (G : List Int)
    (h16 : ∀ m ∈ G, 0 ≤ m ∧ m < 65536) (x : Int) :
    x ∈ (filterAndSort M b G G.length f).1.take (filterAndSort M b G G.length f).2
      ↔ x ∈ G ∧ f ≤ exchange M b x := by
  constructor
  · intro hx
    exact (filterAndSort_generated M b f G h16).2.1 x hx
  · rintro ⟨hG, hf⟩
    obtain ⟨-, h2, -⟩ := filterAndSort_spec M b f G G.length (le_refl _)
    rw [List.take_length] at h2
    rw [h2]
    have h := h16 x hG
    have e : sortKey M b x % 65536 = x := by rw [sortKey_mod]; omega
    refine List.mem_map.2 ⟨sortKey M b x, ?_, e⟩
    refine (sortedKeys_perm M b f G).mem_iff.2 (List.mem_map.2 ⟨x, ?_, rfl⟩)
    exact List.mem_filter.2 ⟨hG, by simpa using hf⟩

theorem pieceValue_pos {p : Piece} (h : p ≠ .empty) : 1 ≤ pieceValue p := by
  cases p <;> simp [pieceValue] at h ⊢

set_option maxRecDepth 100000 in
/-- C15, as stated, fails for a capture en passant: in `enPassantModule` the
move `2347` captures a pawn with a pawn, onto a square that the opponent does
not attack, but its target square is empty, so its exchange estimate is `-1`
and `filterAndSort` with threshold 0 keeps no move. -/
theorem filterAndSort_drops_en_passant :
    enPassantModule.squares [] (enPassantModule.moveFrom 2347) = .whitePawn ∧
    enPassantModule.squares [] (enPassantModule.moveTo 2347) = .empty ∧
    enPassantModule.squares [] 35 = .blackPawn ∧
    enPassantModule.squares (enPassantModule.makeMove [] 2347) 35 = .empty ∧
    pieceValue .whitePawn ≤ pieceValue .blackPawn ∧
    enPassantModule.xsideAttacks [] (enPassantModule.moveTo 2347) = 0 ∧
    exchange enPassantModule [] 2347 = -1 ∧
    (filterAndSort enPassantModule [] [2347] 1 0).2 = 0 := by
  decide

/-- C15, amended. With `moveFilter = 0` a 16-bit move is among the moves that
`filterAndSort` keeps exactly when its exchange estimate is non-negative; a
capture of a piece that stands on the target square and is worth at least the
capturing piece is kept, and so is a capture of a piece on the target square,
or a promotion whose promotion bits index the table, onto a square that the
opponent does not attack.  A move of a piece to an empty square that is not a
promotion, as a capture en passant is, is not kept. -/
theorem filterAndSort_threshold_zero (M : BoardModule B) (board : B) (moveList : List Int)
    (h16 : ∀ m ∈ moveList, 0 ≤ m ∧ m < 65536) :
    (∀ m : Int,
      m ∈ (filterAndSort M board moveList moveList.length 0).1.take
          (filterAndSort M board moveList moveList.length 0).2
        ↔ m ∈ moveList ∧ 0 ≤ exchange M board m) ∧
    (∀ m ∈ moveList, M.squares board (M.moveTo m) ≠ .empty →
      pieceValue (M.squares board (M.moveFrom m)) ≤ pieceValue (M.squares board (M.moveTo m)) →
      m ∈ (filterAndSort M board moveList moveList.length 0).1.take
          (filterAndSort M board moveList moveList.length 0).2) ∧
    (∀ m ∈ moveList, M.xsideAttacks board (M.moveTo m) = 0 →
      (M.squares board (M.moveTo m) ≠ .empty ∨
        (M.isPromotion board (M.moveFrom m) (M.moveTo m) = true ∧
          0 ≤ m >>> M.promotionBits ∧ m >>> M.promotionBits ≤ 3)) →
      m ∈ (filterAndSort M board moveList moveList.length 0).1.take
          (filterAndSort M board moveList moveList.length 0).2) ∧
    (∀ m : Int, M.squares board (M.moveFrom m) ≠ .empty →
      M.squares board (M.moveTo m) = .empty →
      M.isPromotion board (M.moveFrom m) (M.moveTo m) = false →
      m ∉ (filterAndSort M board moveList moveList.length 0).1.take
          (filterAndSort M board moveList moveList.length 0).2) := by
  refine ⟨fun m => filterAndSort_mem_iff M board 0 moveList h16 m, ?_, ?_, ?_⟩
  · intro m hm hcap hval
    refine (filterAndSort_mem_iff M board 0 moveList h16 m).2 ⟨hm, ?_⟩
    have hv := pieceValue_pos hcap
    have hp := promotionValue_bounds (m >>> M.promotionBits)
    unfold exchange
    simp only
    split_ifs <;> omega
  · intro m hm hatt hcase
    refine (filterAndSort_mem_iff M board 0 moveList h16 m).2 ⟨hm, ?_⟩
    have hp := promotionValue_bounds (m >>> M.promotionBits)
    have hv := pieceValue_bounds (M.squares board (M.moveTo m))
    unfold exchange
    simp only
    rw [if_neg (by simp [hatt])]
    rcases hcase with hcap | ⟨hprom, h0, h3⟩
    · have hv' := pieceValue_pos hcap
      split_ifs <;> omega
    · rw [if_pos hprom]
      have : 3 ≤ promotionValue (m >>> M.promotionBits) := by
        unfold promotionValue
        split_ifs <;> omega
      omega
  · intro m hfrom hto hquiet hmem
    have h0 := ((filterAndSort_mem_iff M board 0 moveList h16 m).1 hmem).2
    have hp := pieceValue_pos hfrom
    have hv : pieceValue (M.squares board (M.moveTo m)) = -1 := by rw [hto]; rfl
    unfold exchange at h0
    simp only [hv, hquiet, Bool.false_eq_true, if_false] at h0
    split_ifs at h0 <;> omega

set_option maxRecDepth 100000 in
theorem filterAndSort_threshold_zero_witness :
    (∀ m ∈ ([65, 130, 3, 66] : List Int), 0 ≤ m ∧ m < 65536) ∧
    ((65 : Int) ∈ (filterAndSort captureModule [] [65, 130, 3, 66] 4 0).1.take
        (filterAndSort captureModule [] [65, 130, 3, 66] 4 0).2
      ↔ (65 : Int) ∈ ([65, 130, 3, 66] : List Int) ∧ 0 ≤ exchange captureModule [] 65) ∧
    (3 : Int) ∉ (filterAndSort captureModule [] [65, 130, 3, 66] 4 0).1.take
        (filterAndSort captureModule [] [65, 130, 3, 66] 4 0).2 :=
  ⟨by decide,
    (filterAndSort_threshold_zero captureModule [] [65, 130, 3, 66] (by decide)).1 65,
    by decide⟩

/-- C16. A move from a square that holds a piece to an empty square that is
not a promotion has a negative exchange estimate: `-1` when the opponent does
not attack the target, at most `-2` when it does; so `filterAndSort` with
threshold 0 never keeps it. -/
theorem exchange_quiet_negative (M : BoardModule B) (board : B) (move : Int)
    (hfrom : M.squares board (M.moveFrom move) ≠ .empty)
    (hto : M.squares board (M.moveTo move) = .empty)
    (hquiet : M.isPromotion board (M.moveFrom move) (M.moveTo move) = false) :
    exchange M board move < 0 ∧
    (M.xsideAttacks board (M.moveTo move) = 0 → exchange M board move = -1) ∧
    (M.xsideAttacks board (M.moveTo move) ≠ 0 → exchange M board move ≤ -2) ∧
    (∀ moveList : List Int, (∀ m ∈ moveList, 0 ≤ m ∧ m < 65536) →
      move ∉ (filterAndSort M board moveList moveList.length 0).1.take
          (filterAndSort M board moveList moveList.length 0).2) := by
  have hp := pieceValue_pos hfrom
  have hex : (M.xsideAttacks board (M.moveTo move) = 0 → exchange M board move = -1) ∧
      (M.xsideAttacks board (M.moveTo move) ≠ 0 → exchange M board move ≤ -2) := by
    have hv : pieceValue (M.squares board (M.moveTo move)) = -1 := by rw [hto]; rfl
    unfold exchange
    simp only [hv, hquiet]
    constructor
    · intro h; rw [if_neg (by simp [h])]; simp
    · intro h; rw [if_pos h]; omega
  have hneg : exchange M board move < 0 := by
    by_cases h : M.xsideAttacks board (M.moveTo move) = 0
    · rw [hex.1 h]; decide
    · have := hex.2 h; omega
  refine ⟨hneg, hex.1, hex.2, ?_⟩
  intro moveList h16 hmem
  have := ((filterAndSort_mem_iff M board 0 moveList h16 move).1 hmem).2
  omega

set_option maxRecDepth 100000 in
theorem exchange_quiet_negative_witness :
    captureModule.squares [] (captureModule.moveFrom 67) ≠ .empty ∧
    captureModule.squares [] (captureModule.moveTo 67) = .empty ∧
    captureModule.isPromotion [] (captureModule.moveFrom 67) (captureModule.moveTo 67) = false ∧
    exchange captureModule [] 67 < 0 :=
  ⟨by decide, by decide, by decide,
    (exchange_quiet_negative captureModule [] 67 (by decide) (by decide) (by decide)).1⟩

/-! ## Theorems: the binding and the signal state -/

/-- C14, as stated, fails for a `movetime` that is NaN: the test
`movetime < 0.0` is false for it, so `floydmodule_search` goes on to
`rootSearch` with a `movetime` for which `movetime >= 0` does not hold. -/
theorem floydmodule_search_admits_nan :
    floydmodule_search (fun _ : Nat => 1) 20 (some ⟨0, 3, .nan, .null⟩)
      = .searched 3 .nan false ∧
    CDouble.geZero .nan = false := by
  decide

/-- C14, amended. `floydmodule_search` calls `rootSearch` only with `0 ≤ depth
≤ maxDepth`, a `movetime` for which `movetime < 0.0` is false (so `movetime ≥
0`, or `movetime` is NaN), a FEN that `setupBoard` accepts and an `info` that is
absent or `uci`; and every call with `depth < 0`, `depth > maxDepth` or
`movetime < 0` ends in a `ValueError`, so `rootSearch` is not called. -/
theorem floydmodule_search_validates {F : Type} (setupBoard : F → Int) (maxDepth : Int)
    (args : Option (SearchArgs F)) :
    (∀ (d : Int) (t : CDouble) (u : Bool),
      floydmodule_search setupBoard maxDepth args = .searched d t u →
      ∃ a, args = some a ∧ d = a.depth ∧ t = a.movetime ∧
        0 ≤ a.depth ∧ a.depth ≤ maxDepth ∧ a.movetime.ltZero = false ∧
        (a.movetime.geZero = true ∨ a.movetime = .nan) ∧ 0 < setupBoard a.fen ∧
        a.info ≠ .other) ∧
    (∀ a, args = some a →
      (a.depth < 0 ∨ maxDepth < a.depth ∨ a.movetime.ltZero = true) →
      ∃ w, floydmodule_search setupBoard maxDepth args = .valueError w) := by
  constructor
  · intro d t u h
    cases args with
    | none => simp [floydmodule_search] at h
    | some a =>
      refine ⟨a, rfl, ?_⟩
      simp only [floydmodule_search] at h
      split_ifs at h with h1 h2 h3
      have hd : 0 ≤ a.depth ∧ a.depth ≤ maxDepth := by omega
      have ht : a.movetime.ltZero = false := by simpa using h3
      have hg : a.movetime.geZero = true ∨ a.movetime = .nan := by
        cases hm : a.movetime with
        | finite value =>
          rw [hm] at ht
          simp only [CDouble.ltZero, decide_eq_false_iff_not, not_lt] at ht
          left
          simp only [CDouble.geZero, decide_eq_true_eq]
          exact ht
        | posInf => exact Or.inl rfl
        | negInf => rw [hm] at ht; cases ht
        | nan => exact Or.inr rfl
      have hl : 0 < setupBoard a.fen := by omega
      cases hi : a.info with
      | null =>
        rw [hi] at h
        simp only [SearchOutcome.searched.injEq] at h
        exact ⟨h.1.symm, h.2.1.symm, hd.1, hd.2, ht, hg, hl, by simp⟩
      | uci =>
        rw [hi] at h
        simp only [SearchOutcome.searched.injEq] at h
        exact ⟨h.1.symm, h.2.1.symm, hd.1, hd.2, ht, hg, hl, by simp⟩
      | other =>
        rw [hi] at h
        simp at h
  · intro a ha hbad
    subst ha
    simp only [floydmodule_search]
    by_cases h1 : setupBoard a.fen ≤ 0
    · exact ⟨.fen, by rw [if_pos h1]⟩
    · rw [if_neg h1]
      by_cases h2 : a.depth < 0 ∨ a.depth > maxDepth
      · exact ⟨.depth, by rw [if_pos h2]⟩
      · rw [if_neg h2]
        have h3 : a.movetime.ltZero = true := by
          rcases hbad with h | h | h
          · exact absurd (Or.inl h) h2
          · exact absurd (Or.inr h) h2
          · exact h
        exact ⟨.movetime, by rw [if_pos h3]⟩

theorem floydmodule_search_validates_witness :
    ((⟨0, 3, .finite (-1), .null⟩ : SearchArgs Nat).depth < 0 ∨
      20 < (⟨0, 3, .finite (-1), .null⟩ : SearchArgs Nat).depth ∨
      (⟨0, 3, .finite (-1), .null⟩ : SearchArgs Nat).movetime.ltZero = true) ∧
    (∃ w, floydmodule_search (fun _ : Nat => 1) 20 (some ⟨0, 3, .finite (-1), .null⟩)
      = .valueError w) ∧
    floydmodule_search (fun _ : Nat => 1) 20 (some ⟨0, 3, .finite 0, .uci⟩)
      = .searched 3 (.finite 0) true :=
  ⟨Or.inr (Or.inr (by decide)),
    (floydmodule_search_validates (fun _ : Nat => 1) 20 (some ⟨0, 3, .finite (-1), .null⟩)).2
      ⟨0, 3, .finite (-1), .null⟩ rfl (Or.inr (Or.inr (by decide))),
    by decide⟩

/-- C19. `rootSearch` puts back the `SIGALRM` handler that it found, whatever
happens in between; but it never disarms its alarm: entered with the default
handler and no alarm pending, a call with `ceil(movetime) = 10` that ends
before the alarm goes off returns with that alarm of 10 seconds still
pending. -/
theorem rootSearch_leaves_alarm_pending :
    (∀ (st : SignalState) (seconds : Nat) (expired : Bool),
      (rootSearch.signals st seconds expired).handler = st.handler) ∧
    rootSearch.signals { handler := .dfl, alarm := none } 10 false
      = { handler := .dfl, alarm := some 10 } := by
  refine ⟨?_, by decide⟩
  intro st seconds expired
  simp only [rootSearch.signals, signal, alarm]

/-! ## Theorems: what a call keeps of the engine -/

theorem qSearch_loop_kept (M : BoardModule B) (env : Env) (K : Kept B env)
    (child : Engine B → Int → Result B Int) (alpha : Int) (moveList : List Int)
    (hok : ∀ e a v e', child e a = .ok v e' → K.onReturn e e')
    (hab : ∀ e a e', child e a = .aborted e' → K.onAbort e e') :
    ∀ (k i : Nat) (self : Engine B) (bestScore : Int),
      (∀ v e, qSearch.loop M child alpha moveList k i self bestScore = .ok v e →
        K.onReturn self e) ∧
      (∀ e, qSearch.loop M child alpha moveList k i self bestScore = .aborted e →
        K.onAbort self e) := by
  intro k
  induction k with
  | zero =>
    intro i self bestScore
    simp only [qSearch.loop]
    refine ⟨fun v e h => ?_, fun e h => ?_⟩
    · cases h; exact K.refl _
    · cases h
  | succ k ih =>
    intro i self bestScore
    simp only [qSearch.loop]
    by_cases h0 : bestScore ≤ alpha
    · rw [if_pos h0]
      by_cases h1 : M.wasLegalMove (M.makeMove self.board (moveList.getD i 0)) = true
      · rw [if_pos h1]
        have r1 : K.onReturn self
            { self with board := M.makeMove self.board (moveList.getD i 0),
                        nodeCount := self.nodeCount + 1 } :=
          K.trans _ _ _ (K.board self _) (K.node _)
        cases hc : child { self with board := M.makeMove self.board (moveList.getD i 0),
                                     nodeCount := self.nodeCount + 1 } (-(alpha + 1)) with
        | ok value self1 =>
          have r2 := K.trans _ _ _ (K.trans _ _ _ r1 (hok _ _ _ _ hc))
            (K.board self1 (M.undoMove self1.board))
          obtain ⟨g1, g2⟩ := ih (i + 1) { self1 with board := M.undoMove self1.board }
            (imax bestScore (-value))
          exact ⟨fun v e h => K.trans _ _ _ r2 (g1 v e h), fun e h => K.absorb _ _ _ r2 (g2 e h)⟩
        | aborted self1 =>
          refine ⟨fun v e h => ?_, fun e h => ?_⟩
          · cases h
          · cases h; exact K.absorb _ _ _ r1 (hab _ _ _ hc)
        | outOfFuel => exact ⟨fun _ _ h => Result.noConfusion h, fun _ h => Result.noConfusion h⟩
      · rw [if_neg h1]
        have r2 : K.onReturn self
            { self with board := M.undoMove (M.makeMove self.board (moveList.getD i 0)) } :=
          K.board self _
        obtain ⟨g1, g2⟩ := ih (i + 1)
          { self with board := M.undoMove (M.makeMove self.board (moveList.getD i 0)) } bestScore
        exact ⟨fun v e h => K.trans _ _ _ r2 (g1 v e h), fun e h => K.absorb _ _ _ r2 (g2 e h)⟩
    · rw [if_neg h0]
      refine ⟨fun v e h => ?_, fun e h => ?_⟩
      · cases h; exact K.refl _
      · cases h

theorem qSearch_kept (M : BoardModule B) (env : Env) (K : Kept B env) :
    ∀ (fuel : Nat) (self : Engine B) (alpha : Int),
      (∀ v e, qSearch M fuel self alpha = .ok v e → K.onReturn self e) ∧
      (∀ e, qSearch M fuel self alpha = .aborted e → K.onAbort self e) := by
  intro fuel
  induction fuel with
  | zero =>
    intro self alpha
    simp only [qSearch]
    refine ⟨fun v e h => ?_, fun e h => ?_⟩
    · cases h
    · cases h
  | succ fuel ih =>
    intro self alpha
    simp only [qSearch]
    generalize (if M.inCheck self.board = true then minInt else M.evaluate self.board) = bs0
    generalize (if M.inCheck self.board = true then minInt else 0) = f
    by_cases h1 : bs0 > alpha
    · rw [if_pos h1]
      refine ⟨fun v e h => ?_, fun e h => ?_⟩
      · cases h; exact K.refl _
      · cases h
    · rw [if_neg h1]
      obtain ⟨g1, g2⟩ := qSearch_loop_kept M env K (qSearch M fuel) alpha
        (filterAndSort M self.board (M.generateMoves self.board)
          (M.generateMoves self.board).length f).1
        (fun e a v e' h => (ih e a).1 v e' h) (fun e a e' h => (ih e a).2 e' h)
        (filterAndSort M self.board (M.generateMoves self.board)
          (M.generateMoves self.board).length f).2 0 self bs0
      cases hl : qSearch.loop M (qSearch M fuel) alpha
        (filterAndSort M self.board (M.generateMoves self.board)
          (M.generateMoves self.board).length f).1
        (filterAndSort M self.board (M.generateMoves self.board)
          (M.generateMoves self.board).length f).2 0 self bs0 with
      | ok bs self1 =>
        refine ⟨fun v e h => ?_, fun e h => ?_⟩
        · cases h; exact g1 _ _ hl
        · cases h
      | aborted self1 =>
        refine ⟨fun v e h => ?_, fun e h => ?_⟩
        · cases h
        · cases h; exact g2 _ hl
      | outOfFuel => exact ⟨fun _ _ h => Result.noConfusion h, fun _ h => Result.noConfusion h⟩

theorem scout_loop_kept (M : BoardModule B) (env : Env) (K : Kept B env)
    (child : Engine B → Int → Int → Result B Int) (depth alpha check : Int)
    (moveList : List Int)
    (hok : ∀ e d a v e', child e d a = .ok v e' → K.onReturn e e')
    (hab : ∀ e d a e', child e d a = .aborted e' → K.onAbort e e') :
    ∀ (k i : Nat) (self : Engine B) (bestScore : Int),
      (∀ v e, scout.loop M child depth alpha check moveList k i self bestScore = .ok v e →
        K.onReturn self e) ∧
      (∀ e, scout.loop M child depth alpha check moveList k i self bestScore = .aborted e →
        K.onAbort self e) := by
  intro k
  induction k with
  | zero =>
    intro i self bestScore
    simp only [scout.loop]
    refine ⟨fun v e h => ?_, fun e h => ?_⟩
    · cases h; exact K.refl _
    · cases h
  | succ k ih =>
    intro i self bestScore
    simp only [scout.loop]
    by_cases h0 : bestScore ≤ alpha
    · rw [if_pos h0]
      by_cases h1 : M.wasLegalMove (M.makeMove self.board (moveList.getD i 0)) = true
      · rw [if_pos h1]
        have r1 : K.onReturn self
            { self with board := M.makeMove self.board (moveList.getD i 0) } :=
          K.board self _
        cases hc : child { self with board := M.makeMove self.board (moveList.getD i 0) }
            (imax 0 (depth - 1 + check - 0)) (-(alpha + 1)) with
        | ok value self1 =>
          have r2 := K.trans _ _ _ (K.trans _ _ _ r1 (hok _ _ _ _ _ hc))
            (K.board self1 (M.undoMove self1.board))
          obtain ⟨g1, g2⟩ := ih (i + 1) { self1 with board := M.undoMove self1.board }
            (imax bestScore (-value))
          exact ⟨fun v e h => K.trans _ _ _ r2 (g1 v e h), fun e h => K.absorb _ _ _ r2 (g2 e h)⟩
        | aborted self1 =>
          refine ⟨fun v e h => ?_, fun e h => ?_⟩
          · cases h
          · cases h; exact K.absorb _ _ _ r1 (hab _ _ _ _ hc)
        | outOfFuel => exact ⟨fun _ _ h => Result.noConfusion h, fun _ h => Result.noConfusion h⟩
      · rw [if_neg h1]
        have r2 : K.onReturn self
            { self with board := M.undoMove (M.makeMove self.board (moveList.getD i 0)) } :=
          K.board self _
        obtain ⟨g1, g2⟩ := ih (i + 1)
          { self with board := M.undoMove (M.makeMove self.board (moveList.getD i 0)) } bestScore
        exact ⟨fun v e h => K.trans _ _ _ r2 (g1 v e h), fun e h => K.absorb _ _ _ r2 (g2 e h)⟩
    · rw [if_neg h0]
      refine ⟨fun v e h => ?_, fun e h => ?_⟩
      · cases h; exact K.refl _
      · cases h

theorem scout_kept (M : BoardModule B) (env : Env) (K : Kept B env) :
    ∀ (fuel : Nat) (self : Engine B) (depth alpha : Int),
      (∀ v e, scout M env fuel self depth alpha = .ok v e → K.onReturn self e) ∧
      (∀ e, scout M env fuel self depth alpha = .aborted e → K.onAbort self e) := by
  intro fuel
  induction fuel with
  | zero =>
    intro self depth alpha
    simp only [scout]
    exact ⟨fun _ _ h => Result.noConfusion h, fun _ h => Result.noConfusion h⟩
  | succ fuel ih =>
    intro self depth alpha
    simp only [scout]
    have r0 : K.onReturn self { self with nodeCount := self.nodeCount + 1 } := K.node self
    by_cases h1 : M.repetition self.board = true
    · rw [if_pos h1]
      refine ⟨fun v e h => ?_, fun e h => ?_⟩
      · cases h; exact r0
      · cases h
    · rw [if_neg h1]
      by_cases h2 : depth = 0
      · rw [if_pos h2]
        obtain ⟨g1, g2⟩ := qSearch_kept M env K fuel { self with nodeCount := self.nodeCount + 1 }
          alpha
        exact ⟨fun v e h => K.trans _ _ _ r0 (g1 v e h), fun e h => K.absorb _ _ _ r0 (g2 e h)⟩
      · rw [if_neg h2]
        by_cases h3 : env.globalSignal (self.nodeCount + 1) ≠ 0
        · rw [if_pos h3]
          refine ⟨fun v e h => ?_, fun e h => ?_⟩
          · cases h
          · cases h; exact K.poll self h3
        · rw [if_neg h3]
          obtain ⟨g1, g2⟩ := scout_loop_kept M env K (scout M env fuel) depth alpha
            (boolInt (M.inCheck self.board))
            (filterAndSort M self.board (M.generateMoves self.board)
              (M.generateMoves self.board).length minInt).1
            (fun e d a v e' h => (ih e d a).1 v e' h) (fun e d a e' h => (ih e d a).2 e' h)
            (filterAndSort M self.board (M.generateMoves self.board)
              (M.generateMoves self.board).length minInt).2 0
            { self with nodeCount := self.nodeCount + 1 } minInt
          cases hl : scout.loop M (scout M env fuel) depth alpha (boolInt (M.inCheck self.board))
            (filterAndSort M self.board (M.generateMoves self.board)
              (M.generateMoves self.board).length minInt).1
            (filterAndSort M self.board (M.generateMoves self.board)
              (M.generateMoves self.board).length minInt).2 0
            { self with nodeCount := self.nodeCount + 1 } minInt with
          | ok bs self1 =>
            refine ⟨fun v e h => ?_, fun e h => ?_⟩
            · cases h; exact K.trans _ _ _ r0 (g1 _ _ hl)
            · cases h
          | aborted self1 =>
            refine ⟨fun v e h => ?_, fun e h => ?_⟩
            · cases h
            · cases h; exact K.absorb _ _ _ r0 (g2 _ hl)
          | outOfFuel =>
            exact ⟨fun _ _ h => Result.noConfusion h, fun _ h => Result.noConfusion h⟩

theorem pvSearch_first_kept (M : BoardModule B) (env : Env) (K : Kept B env)
    (hpv : ∀ (s : Engine B) (p : IntList), K.onReturn s { s with pv := p })
    (pvChild : Engine B → Int → Int → Int → Nat → Result B Int)
    (depth alpha beta : Int) (pvIndex : Nat) (check : Int)
    (moveList : List Int) (nrMoves : Nat) (self : Engine B) (bestScore : Int)
    (hok : ∀ e d a c p v e', pvChild e d a c p = .ok v e' → K.onReturn e e')
    (hab : ∀ e d a c p e', pvChild e d a c p = .aborted e' → K.onAbort e e') :
    (∀ v e, pvSearch.first M pvChild depth alpha beta pvIndex check moveList nrMoves self
        bestScore = .ok v e → K.onReturn self e) ∧
    (∀ e, pvSearch.first M pvChild depth alpha beta pvIndex check moveList nrMoves self
        bestScore = .aborted e → K.onAbort self e) := by
  unfold pvSearch.first
  by_cases h0 : nrMoves > 0
  · rw [if_pos h0]
    simp only
    generalize (if pvIndex < self.pv.len then moveToFront moveList nrMoves (self.pv.v.getD pvIndex 0)
          else moveList) = ml
    have r0 : K.onReturn self (if pvIndex < self.pv.len then self
        else { self with pv := pushList self.pv (ml.getD 0 0) }) := by
      split_ifs
      · exact K.refl _
      · exact hpv _ _
    generalize (if pvIndex < self.pv.len then self
        else { self with pv := pushList self.pv (ml.getD 0 0) }) = s0 at r0
    have r1 : K.onReturn self { s0 with board := M.makeMove s0.board (ml.getD 0 0) } :=
      K.trans _ _ _ r0 (K.board _ _)
    cases hc : pvChild { s0 with board := M.makeMove s0.board (ml.getD 0 0) }
        (imax 0 (depth - 1 + check)) (-beta) (-imax alpha bestScore) (pvIndex + 1) with
    | ok value self1 =>
      have r2 := K.trans _ _ _ r1 (hok _ _ _ _ _ _ _ hc)
      simp only
      by_cases h2 : -value > bestScore
      · rw [if_pos h2]
        refine ⟨fun v e h => ?_, fun e h => ?_⟩
        · cases h; exact K.trans _ _ _ r2 (K.board _ _)
        · cases h
      · rw [if_neg h2]
        refine ⟨fun v e h => ?_, fun e h => ?_⟩
        · cases h
          exact K.trans _ _ _ r2 (K.trans _ _ _ (hpv self1 { self1.pv with len := pvIndex })
            (K.board _ _))
        · cases h
    | aborted self1 =>
      refine ⟨fun v e h => ?_, fun e h => ?_⟩
      · cases h
      · cases h; exact K.absorb _ _ _ r1 (hab _ _ _ _ _ _ hc)
    | outOfFuel => exact ⟨fun _ _ h => Result.noConfusion h, fun _ h => Result.noConfusion h⟩
  · rw [if_neg h0]
    refine ⟨fun v e h => ?_, fun e h => ?_⟩
    · cases h; exact K.refl _
    · cases h

theorem pvSearch_loop_kept (M : BoardModule B) (env : Env) (K : Kept B env)
    (hpv : ∀ (s : Engine B) (p : IntList), K.onReturn s { s with pv := p })
    (pvChild : Engine B → Int → Int → Int → Nat → Result B Int)
    (scoutChild : Engine B → Int → Int → Result B Int)
    (depth alpha beta : Int) (pvIndex : Nat) (check : Int) (moveList : List Int)
    (hok : ∀ e d a c p v e', pvChild e d a c p = .ok v e' → K.onReturn e e')
    (hab : ∀ e d a c p e', pvChild e d a c p = .aborted e' → K.onAbort e e')
    (hsok : ∀ e d a v e', scoutChild e d a = .ok v e' → K.onReturn e e')
    (hsab : ∀ e d a e', scoutChild e d a = .aborted e' → K.onAbort e e') :
    ∀ (k i : Nat) (self : Engine B) (bestScore : Int),
      (∀ v e, pvSearch.loop M pvChild scoutChild depth alpha beta pvIndex check moveList k i
          self bestScore = .ok v e → K.onReturn self e) ∧
      (∀ e, pvSearch.loop M pvChild scoutChild depth alpha beta pvIndex check moveList k i
          self bestScore = .aborted e → K.onAbort self e) := by
  intro k
  induction k with
  | zero =>
    intro i self bestScore
    simp only [pvSearch.loop]
    refine ⟨fun v e h => ?_, fun e h => ?_⟩
    · cases h; exact K.refl _
    · cases h
  | succ k ih =>
    intro i self bestScore
    simp only [pvSearch.loop]
    by_cases h0 : bestScore < beta
    · rw [if_pos h0]
      have r1 : K.onReturn self
          { self with board := M.makeMove self.board (moveList.getD i 0) } := K.board self _
      cases hc : scoutChild { self with board := M.makeMove self.board (moveList.getD i 0) }
          (imax 0 (depth - 1 + check - 0)) (-imax alpha bestScore - 1) with
      | ok value self1 =>
        have r2 := K.trans _ _ _ r1 (hsok _ _ _ _ _ hc)
        simp only
        by_cases h2 : -value > bestScore
        · rw [if_pos h2]
          have r3 : K.onReturn self
              { self1 with pv := pushList self1.pv (moveList.getD i 0) } :=
            K.trans _ _ _ r2 (hpv _ _)
          cases hc2 : pvChild { self1 with pv := pushList self1.pv (moveList.getD i 0) }
              (imax 0 (depth - 1 + check)) (-beta) (-imax alpha bestScore)
              (self1.pv.len + 1) with
          | ok value2 self2 =>
            have r4 := K.trans _ _ _ r3 (hok _ _ _ _ _ _ _ hc2)
            simp only
            by_cases h3 : -value2 > bestScore
            · rw [if_pos h3]
              have r5 := K.trans _ _ _ (K.trans _ _ _ r4
                (hpv self2 (IntList.mk (pvSearch.splice pvIndex self1.pv.len
                    (self2.pv.len - self1.pv.len) 0 self2.pv.v)
                  (self2.pv.len - (self1.pv.len - pvIndex)))))
                (K.board _ (M.undoMove self2.board))
              obtain ⟨g1, g2⟩ := ih (i + 1) _ (-value2)
              exact ⟨fun v e h => K.trans _ _ _ r5 (g1 v e h),
                fun e h => K.absorb _ _ _ r5 (g2 e h)⟩
            · rw [if_neg h3]
              have r5 := K.trans _ _ _ (K.trans _ _ _ r4
                (hpv self2 { self2.pv with len := self1.pv.len }))
                (K.board _ (M.undoMove self2.board))
              obtain ⟨g1, g2⟩ := ih (i + 1) _ bestScore
              exact ⟨fun v e h => K.trans _ _ _ r5 (g1 v e h),
                fun e h => K.absorb _ _ _ r5 (g2 e h)⟩
          | aborted self2 =>
            refine ⟨fun v e h => ?_, fun e h => ?_⟩
            · cases h
            · cases h; exact K.absorb _ _ _ r3 (hab _ _ _ _ _ _ hc2)
          | outOfFuel =>
            exact ⟨fun _ _ h => Result.noConfusion h, fun _ h => Result.noConfusion h⟩
        · rw [if_neg h2]
          have r5 := K.trans _ _ _ r2 (K.board self1 (M.undoMove self1.board))
          obtain ⟨g1, g2⟩ := ih (i + 1) _ bestScore
          exact ⟨fun v e h => K.trans _ _ _ r5 (g1 v e h),
            fun e h => K.absorb _ _ _ r5 (g2 e h)⟩
      | aborted self1 =>
        refine ⟨fun v e h => ?_, fun e h => ?_⟩
        · cases h
        · cases h; exact K.absorb _ _ _ r1 (hsab _ _ _ _ hc)
      | outOfFuel => exact ⟨fun _ _ h => Result.noConfusion h, fun _ h => Result.noConfusion h⟩
    · rw [if_neg h0]
      refine ⟨fun v e h => ?_, fun e h => ?_⟩
      · cases h; exact K.refl _
      · cases h

theorem pvSearch_moves_kept (M : BoardModule B) (env : Env) (K : Kept B env)
    (hpv : ∀ (s : Engine B) (p : IntList), K.onReturn s { s with pv := p })
    (pvChild : Engine B → Int → Int → Int → Nat → Result B Int)
    (scoutChild : Engine B → Int → Int → Result B Int)
    (depth alpha beta : Int) (pvIndex : Nat) (check : Bool) (moveFilter : Int)
    (self : Engine B) (bestScore : Int)
    (hok : ∀ e d a c p v e', pvChild e d a c p = .ok v e' → K.onReturn e e')
    (hab : ∀ e d a c p e', pvChild e d a c p = .aborted e' → K.onAbort e e')
    (hsok : ∀ e d a v e', scoutChild e d a = .ok v e' → K.onReturn e e')
    (hsab : ∀ e d a e', scoutChild e d a = .aborted e' → K.onAbort e e') :
    (∀ v e, pvSearch.moves M pvChild scoutChild depth alpha beta pvIndex check moveFilter self
        bestScore = .ok v e → K.onReturn self e) ∧
    (∀ e, pvSearch.moves M pvChild scoutChild depth alpha beta pvIndex check moveFilter self
        bestScore = .aborted e → K.onAbort self e) := by
  unfold pvSearch.moves
  simp only
  generalize filterLegalMoves M self.board
    (filterAndSort M self.board (M.generateMoves self.board)
      (M.generateMoves self.board).length moveFilter).1
    (filterAndSort M self.board (M.generateMoves self.board)
      (M.generateMoves self.board).length moveFilter).2 = legal
  have r0 : K.onReturn self { self with board := legal.1 } := K.board self _
  obtain ⟨f1, f2⟩ := pvSearch_first_kept M env K hpv pvChild depth alpha beta pvIndex
    (boolInt check) legal.2.1 legal.2.2 { self with board := legal.1 } bestScore hok hab
  cases hf : pvSearch.first M pvChild depth alpha beta pvIndex (boolInt check) legal.2.1
      legal.2.2 { self with board := legal.1 } bestScore with
  | ok value self1 =>
    obtain ⟨bs, ml⟩ := value
    have r1 := K.trans _ _ _ r0 (f1 _ _ hf)
    simp only
    obtain ⟨g1, g2⟩ := pvSearch_loop_kept M env K hpv pvChild scoutChild depth alpha beta
      pvIndex (boolInt check) ml hok hab hsok hsab (legal.2.2 - 1) 1 self1 bs
    cases hl : pvSearch.loop M pvChild scoutChild depth alpha beta pvIndex (boolInt check) ml
        (legal.2.2 - 1) 1 self1 bs with
    | ok bs2 self2 =>
      refine ⟨fun v e h => ?_, fun e h => ?_⟩
      · cases h; exact K.trans _ _ _ r1 (g1 _ _ hl)
      · cases h
    | aborted self2 =>
      refine ⟨fun v e h => ?_, fun e h => ?_⟩
      · cases h
      · cases h; exact K.absorb _ _ _ r1 (g2 _ hl)
    | outOfFuel => exact ⟨fun _ _ h => Result.noConfusion h, fun _ h => Result.noConfusion h⟩
  | aborted self1 =>
    refine ⟨fun v e h => ?_, fun e h => ?_⟩
    · cases h
    · cases h; exact K.absorb _ _ _ r0 (f2 _ hf)
  | outOfFuel => exact ⟨fun _ _ h => Result.noConfusion h, fun _ h => Result.noConfusion h⟩

theorem pvSearch_kept (M : BoardModule B) (env : Env) (K : Kept B env)
    (hpv : ∀ (s : Engine B) (p : IntList), K.onReturn s { s with pv := p }) :
    ∀ (fuel : Nat) (self : Engine B) (depth alpha beta : Int) (pvIndex : Nat),
      (∀ v e, pvSearch M env fuel self depth alpha beta pvIndex = .ok v e → K.onReturn self e) ∧
      (∀ e, pvSearch M env fuel self depth alpha beta pvIndex = .aborted e → K.onAbort self e) := by
  intro fuel
  induction fuel with
  | zero =>
    intro self depth alpha beta pvIndex
    simp only [pvSearch]
    exact ⟨fun _ _ h => Result.noConfusion h, fun _ h => Result.noConfusion h⟩
  | succ fuel ih =>
    intro self depth alpha beta pvIndex
    simp only [pvSearch]
    have r0 : K.onReturn self { self with nodeCount := self.nodeCount + 1 } := K.node self
    have hm := fun mf bs => pvSearch_moves_kept M env K hpv (pvSearch M env fuel)
      (scout M env fuel) depth alpha beta pvIndex (M.inCheck self.board) mf
      { self with nodeCount := self.nodeCount + 1 } bs
      (fun e d a c p v e' h => (ih e d a c p).1 v e' h)
      (fun e d a c p e' h => (ih e d a c p).2 e' h)
      (fun e d a v e' h => (scout_kept M env K fuel e d a).1 v e' h)
      (fun e d a e' h => (scout_kept M env K fuel e d a).2 e' h)
    by_cases h1 : M.repetition self.board = true
    · rw [if_pos h1]
      refine ⟨fun v e h => ?_, fun e h => ?_⟩
      · cases h; exact r0
      · cases h
    · rw [if_neg h1]
      by_cases h2 : depth = 0 ∧ M.inCheck self.board = false
      · rw [if_pos h2]
        by_cases h3 : M.evaluate self.board ≥ beta
        · rw [if_pos h3]
          refine ⟨fun v e h => ?_, fun e h => ?_⟩
          · cases h; exact K.trans _ _ _ r0 (hpv _ _)
          · cases h
        · rw [if_neg h3]
          obtain ⟨g1, g2⟩ := hm 0 (M.evaluate self.board)
          exact ⟨fun v e h => K.trans _ _ _ r0 (g1 v e h), fun e h => K.absorb _ _ _ r0 (g2 e h)⟩
      · rw [if_neg h2]
        obtain ⟨g1, g2⟩ := hm minInt minInt
        exact ⟨fun v e h => K.trans _ _ _ r0 (g1 v e h), fun e h => K.absorb _ _ _ r0 (g2 e h)⟩

/-! ## Theorems: polling and iterating -/

theorem qSearch_never_aborts (M : BoardModule B) (fuel : Nat) (self : Engine B) (alpha : Int)
    (e : Engine B) : qSearch M fuel self alpha ≠ .aborted e :=
  fun h => (qSearch_kept M ⟨fun _ => 0⟩ (keptNoAbort B) fuel self alpha).2 e h

/-- C17, amended. At a node that is not a repetition, a call of `scout` with
`depth ≠ 0` that finds the abort flag set unwinds at once, with no move
generated or made; when the flag is not set at its poll, an unwinding of the
call comes from the poll of a node visited later.  A call with `depth = 0`
never unwinds. -/
theorem scout_polls_below_horizon (M : BoardModule B) (env : Env) (self : Engine B)
    (depth alpha : Int) (hrep : M.repetition self.board = false) (hdepth : depth ≠ 0) :
    (env.globalSignal (self.nodeCount + 1) ≠ 0 → ∀ fuel : Nat,
      scout M env (fuel + 1) self depth alpha
        = .aborted { self with nodeCount := self.nodeCount + 1 }) ∧
    (env.globalSignal (self.nodeCount + 1) = 0 → ∀ (fuel : Nat) (e : Engine B),
      scout M env fuel self depth alpha = .aborted e →
        self.nodeCount + 1 < e.nodeCount ∧ env.globalSignal e.nodeCount ≠ 0) ∧
    (∀ (fuel : Nat) (node : Engine B) (a : Int) (e : Engine B),
      scout M env fuel node 0 a ≠ .aborted e) := by
  refine ⟨?_, ?_, ?_⟩
  · intro hsig fuel
    simp only [scout]
    rw [if_neg (by rw [hrep]; exact Bool.false_ne_true), if_neg hdepth, if_pos hsig]
  · intro hsig fuel e h
    obtain ⟨-, -, -, -, hlt, hs⟩ := (scout_kept M env (keptFields B env) fuel self depth alpha).2 e h
    refine ⟨?_, hs⟩
    rcases Nat.lt_or_ge (self.nodeCount + 1) e.nodeCount with h1 | h1
    · exact h1
    · have : e.nodeCount = self.nodeCount + 1 := by omega
      rw [this] at hs
      exact absurd hsig hs
  · intro fuel node a e h
    cases fuel with
    | zero => simp [scout] at h
    | succ fuel =>
      simp only [scout] at h
      by_cases h1 : M.repetition node.board = true
      · rw [if_pos h1] at h; cases h
      · rw [if_neg h1, if_pos trivial] at h
        exact qSearch_never_aborts M fuel _ a e h

set_option maxRecDepth 100000 in
theorem scout_polls_below_horizon_witness :
    twoMoveModule.repetition [] = false ∧ (1 : Int) ≠ 0 ∧
    (⟨fun _ => 14⟩ : Env).globalSignal ((freshEngine ([] : List Int)).nodeCount + 1) ≠ 0 ∧
    scout twoMoveModule ⟨fun _ => 14⟩ 1 (freshEngine []) 1 0
      = .aborted { freshEngine [] with nodeCount := 1 } :=
  ⟨rfl, by decide, by decide,
    (scout_polls_below_horizon twoMoveModule ⟨fun _ => 14⟩ (freshEngine []) 1 0 rfl
      (by decide)).1 (by decide) 0⟩

set_option maxRecDepth 100000 in
/-- C17, as stated, fails at `depth = 0`: on a node that is not a repetition,
with the abort flag set, `scout` hands over to `qSearch` before it polls the
flag and returns normally. -/
theorem scout_depth_zero_skips_poll :
    twoMoveModule.repetition [] = false ∧
    (⟨fun _ => 14⟩ : Env).globalSignal ((freshEngine ([] : List Int)).nodeCount + 1) = 14 ∧
    scout twoMoveModule ⟨fun _ => 14⟩ 2 (freshEngine []) 0 0
      = .ok 0 { freshEngine [] with nodeCount := 1 } := by
  decide

theorem rootSearch_loop_stopped (M : BoardModule B) (env : Env) (fuel : Nat)
    (infoFunction : Option (Engine B → Bool)) (k : Nat) (iteration : Int) (self : Engine B) :
    rootSearch.loop M env fuel infoFunction k iteration true self = .ok () self := by
  cases k with
  | zero => rfl
  | succ k => simp [rootSearch.loop]

theorem iterationStep_depth (M : BoardModule B) (env : Env) (fuel : Nat)
    (infoFunction : Option (Engine B → Bool)) (iteration : Int) (self e : Engine B)
    (stop : Bool) (h : iterationStep M env fuel infoFunction iteration self = .ok stop e) :
    e.depth = iteration := by
  unfold iterationStep at h
  cases hp : pvSearch M env fuel { self with depth := iteration } iteration (-maxInt) maxInt 0 with
  | ok value s =>
    have hd : s.depth = iteration :=
      ((pvSearch_kept M env (keptFields B env) (fun _ _ => ⟨rfl, rfl, rfl, rfl, le_refl _⟩)
        fuel _ _ _ _ _).1 _ _ hp).2.1
    rw [hp] at h
    simp only at h
    cases infoFunction with
    | none =>
      simp only [Result.ok.injEq] at h
      rw [← h.2]
      split_ifs <;> exact hd
    | some f =>
      simp only [Result.ok.injEq] at h
      rw [← h.2]
      split_ifs <;> exact hd
  | aborted s => rw [hp] at h; cases h
  | outOfFuel => rw [hp] at h; cases h

theorem rootSearch_loop_step (M : BoardModule B) (env : Env) (fuel : Nat)
    (infoFunction : Option (Engine B → Bool)) (k : Nat) (iteration : Int) (self : Engine B) :
    rootSearch.loop M env fuel infoFunction (k + 1) iteration false self
      = match iterationStep M env fuel infoFunction iteration self with
        | .ok stop mid => rootSearch.loop M env fuel infoFunction k (iteration + 1) stop mid
        | .aborted mid => .aborted mid
        | .outOfFuel => .outOfFuel := by
  simp only [rootSearch.loop, iterationStep]
  generalize pvSearch M env fuel { self with depth := iteration } iteration (-maxInt) maxInt 0 = r
  cases r <;> cases infoFunction <;> simp

theorem rootSearch_loop_iterations (M : BoardModule B) (env : Env) (fuel : Nat)
    (infoFunction : Option (Engine B → Bool)) :
    ∀ (k : Nat) (iteration : Int) (self e : Engine B),
      rootSearch.loop M env fuel infoFunction (k + 1) iteration false self = .ok () e →
      ∃ (n : Nat) (stop : Bool),
        Iterations M env fuel infoFunction iteration n self e stop ∧
        1 ≤ n ∧ n ≤ k + 1 ∧ e.depth = iteration + n - 1 ∧ (stop = true ∨ n = k + 1) ∧
        ((∀ f, infoFunction = some f → ∀ s, f s = false) → n = k + 1) := by
  intro k
  induction k with
  | zero =>
    intro iteration self e h
    rw [rootSearch_loop_step] at h
    cases hstep : iterationStep M env fuel infoFunction iteration self with
    | ok stop mid =>
      rw [hstep] at h
      simp only [rootSearch.loop, Result.ok.injEq, true_and] at h
      subst h
      refine ⟨1, stop, Iterations.last _ _ _ _ hstep, le_refl _, le_refl _, ?_, Or.inr rfl,
        fun _ => rfl⟩
      rw [iterationStep_depth M env fuel infoFunction iteration self mid _ hstep]
      simp
    | aborted s => rw [hstep] at h; cases h
    | outOfFuel => rw [hstep] at h; cases h
  | succ k ih =>
    intro iteration self e h
    rw [rootSearch_loop_step] at h
    cases hstep : iterationStep M env fuel infoFunction iteration self with
    | ok stop mid =>
      rw [hstep] at h
      simp only at h
      have hdm := iterationStep_depth M env fuel infoFunction iteration self mid _ hstep
      cases stop with
      | true =>
        rw [rootSearch_loop_stopped] at h
        simp only [Result.ok.injEq, true_and] at h
        subst h
        refine ⟨1, true, Iterations.last _ _ _ _ hstep, le_refl _, by omega, ?_, Or.inl rfl, ?_⟩
        · rw [hdm]; simp
        · intro hnever
          exfalso
          unfold iterationStep at hstep
          cases infoFunction with
          | none => split at hstep <;> simp at hstep
          | some f =>
            split at hstep
            · simp only [Result.ok.injEq] at hstep
              rw [hnever f rfl] at hstep
              exact Bool.noConfusion hstep.1
            · cases hstep
            · cases hstep
      | false =>
        obtain ⟨n, stop, hit, h1, h2, h3, h4, h5⟩ := ih (iteration + 1) mid e h
        refine ⟨n + 1, stop, Iterations.next _ _ _ _ _ _ hstep hit, by omega, by omega, ?_, ?_,
          ?_⟩
        · rw [h3]; push_cast; ring
        · rcases h4 with h4 | h4
          · exact Or.inl h4
          · exact Or.inr (by omega)
        · intro hnever
          have := h5 hnever
          omega
    | aborted s => rw [hstep] at h; cases h
    | outOfFuel => rw [hstep] at h; cases h

theorem rootSearch_loop_of_iterations (M : BoardModule B) (env : Env) (fuel : Nat)
    (infoFunction : Option (Engine B → Bool)) (first : Int) (n : Nat) (self e : Engine B)
    (stop : Bool) (hit : Iterations M env fuel infoFunction first n self e stop) :
    ∀ k : Nat, n ≤ k → (stop = true ∨ n = k) →
      rootSearch.loop M env fuel infoFunction k first false self = .ok () e := by
  induction hit with
  | last first self e stop hstep =>
    intro k hk hs
    obtain ⟨k, rfl⟩ : ∃ j, k = j + 1 := ⟨k - 1, by omega⟩
    rw [rootSearch_loop_step, hstep]
    simp only
    rcases hs with hs | hs
    · rw [hs, rootSearch_loop_stopped]
    · have : k = 0 := by omega
      subst this
      cases stop <;> simp [rootSearch.loop]
  | next first n self mid e stop hstep _ ih =>
    intro k hk hs
    obtain ⟨k, rfl⟩ : ∃ j, k = j + 1 := ⟨k - 1, by omega⟩
    rw [rootSearch_loop_step, hstep]
    simp only
    exact ih k (by omega) (by rcases hs with hs | hs; exact Or.inl hs; exact Or.inr (by omega))

/-- C18. When `rootSearch` returns normally for a depth `≥ 0`, it has reset
`nodeCount` to 0 and then run `n` rounds of `pvSearch` at the root, numbered
`0, 1, …, n - 1` in this order, each with the window `[-maxInt, maxInt]` and
`pvIndex = 0`, and it returns with `engine.depth = n - 1`.  Either the info
function answered `true` after the last round and `false` before, or `n =
depth + 1`; with no info function, or one that always answers `false`,
`n = depth + 1` and `engine.depth = depth`.  Conversely, when such rounds
return normally, so does `rootSearch`, with the engine of the last round. -/
theorem rootSearch_iterations (M : BoardModule B) (env : Env) (fuel : Nat) (self : Engine B)
    (depth : Int) (infoFunction : Option (Engine B → Bool)) (hdepth : 0 ≤ depth) :
    (∀ e : Engine B, rootSearch M env fuel self depth infoFunction = .ok () e →
      ∃ (n : Nat) (stop : Bool),
        Iterations M env fuel infoFunction 0 n
          { self with nodeCount := 0, rootPlyNumber := M.plyNumber self.board } e stop ∧
        1 ≤ n ∧ (n : Int) ≤ depth + 1 ∧ e.depth = (n : Int) - 1 ∧
        (stop = true ∨ (n : Int) = depth + 1) ∧
        ((∀ f, infoFunction = some f → ∀ s, f s = false) →
          (n : Int) = depth + 1 ∧ e.depth = depth)) ∧
    (∀ (e : Engine B) (n : Nat) (stop : Bool),
      Iterations M env fuel infoFunction 0 n
        { self with nodeCount := 0, rootPlyNumber := M.plyNumber self.board } e stop →
      (n : Int) ≤ depth + 1 → (stop = true ∨ (n : Int) = depth + 1) →
      rootSearch M env fuel self depth infoFunction = .ok () e) := by
  constructor
  · intro e h
    unfold rootSearch at h
    simp only at h
    obtain ⟨k, hk⟩ : ∃ k : Nat, (depth + 1).toNat = k + 1 := ⟨depth.toNat, by omega⟩
    rw [hk] at h
    cases hl : rootSearch.loop M env fuel infoFunction (k + 1) 0 false
        { self with nodeCount := 0, rootPlyNumber := M.plyNumber self.board } with
    | ok u e1 =>
      have h' : rootSearch.loop M env fuel infoFunction (k + 1) 0 false
        { self with nodeCount := 0, rootPlyNumber := M.plyNumber self.board } = .ok () e1 := hl
      rw [hl] at h
      simp only [Result.ok.injEq, true_and] at h
      subst h
      obtain ⟨n, stop, hit, h1, h2, h3, h4, h5⟩ :=
        rootSearch_loop_iterations M env fuel infoFunction k 0 _ _ h'
      refine ⟨n, stop, hit, h1, by omega, by omega, ?_, ?_⟩
      · rcases h4 with h4 | h4
        · exact Or.inl h4
        · exact Or.inr (by omega)
      · intro hnever
        have := h5 hnever
        constructor <;> omega
    | aborted e1 => rw [hl] at h; cases h
    | outOfFuel => rw [hl] at h; cases h
  · intro e n stop hit hn hs
    unfold rootSearch
    simp only
    rw [rootSearch_loop_of_iterations M env fuel infoFunction 0 n _ e stop hit
      (depth + 1).toNat (by omega) (by rcases hs with hs | hs; exact Or.inl hs; exact Or.inr (by omega))]

set_option maxRecDepth 100000 in
theorem rootSearch_iterations_witness :
    (0 : Int) ≤ 1 ∧
    rootSearch twoMoveModule ⟨fun _ => 0⟩ 4 (freshEngine []) 1 none
      = .ok () { board := [], rootPlyNumber := 0, depth := 1, score := -1, bestMove := 1,
                 pv := { v := [1, 1], len := 1 }, nodeCount := 5 } ∧
    ∃ (n : Nat) (stop : Bool),
      Iterations twoMoveModule ⟨fun _ => 0⟩ 4 none 0 n
        { freshEngine [] with nodeCount := 0, rootPlyNumber := twoMoveModule.plyNumber [] }
        { board := [], rootPlyNumber := 0, depth := 1, score := -1, bestMove := 1,
          pv := { v := [1, 1], len := 1 }, nodeCount := 5 } stop ∧
      1 ≤ n ∧ (n : Int) ≤ 1 + 1 ∧
      ({ board := [], rootPlyNumber := 0, depth := 1, score := -1, bestMove := 1,
         pv := { v := [1, 1], len := 1 }, nodeCount := 5 } : Engine (List Int)).depth
        = (n : Int) - 1 ∧
      (stop = true ∨ (n : Int) = 1 + 1) ∧
      ((∀ f, (none : Option (Engine (List Int) → Bool)) = some f → ∀ s, f s = false) →
        (n : Int) = 1 + 1 ∧
        ({ board := [], rootPlyNumber := 0, depth := 1, score := -1, bestMove := 1,
           pv := { v := [1, 1], len := 1 }, nodeCount := 5 } : Engine (List Int)).depth = 1) :=
  ⟨by decide, by decide,
    (rootSearch_iterations twoMoveModule ⟨fun _ => 0⟩ 4 (freshEngine []) 1 none (by decide)).1 _
      (by decide)⟩

/-! ## Theorems: the root at depth 0 and in stalemate -/

theorem pvSearch_succ (M : BoardModule B) (env : Env) (fuel : Nat) (self : Engine B)
    (depth alpha beta : Int) (pvIndex : Nat) :
    pvSearch M env (fuel + 1) self depth alpha beta pvIndex
      = pvSearch.node M (pvSearch M env fuel) (scout M env fuel) self depth alpha beta pvIndex :=
  rfl

theorem writeAt_getD_of_ne (v : List Int) (i j : Nat) (x : Int) (h : j ≠ i) :
    (writeAt v i x).getD j 0 = v.getD j 0 := by
  unfold writeAt
  split_ifs with hi
  · simp [List.getElem?_set, Ne.symm h]
  · simp only [List.getD_eq_getElem?_getD, List.append_assoc]
    rcases Nat.lt_or_ge j v.length with hj | hj
    · rw [List.getElem?_append_left hj]
    · rw [List.getElem?_append_right hj, List.getElem?_eq_none hj]
      rcases Nat.lt_or_ge (j - v.length) (i - v.length) with h1 | h1
      · rw [List.getElem?_append_left (by simpa using h1)]
        simp [List.getElem?_replicate, h1]
      · rw [List.getElem?_append_right (by simpa using h1)]
        have : j - v.length - (List.replicate (i - v.length) (0 : Int)).length ≠ 0 := by
          simp; omega
        rw [List.getElem?_eq_none (by simp; omega)]

theorem splice_getD_below (pvIndex pvLen : Nat) :
    ∀ (k j : Nat) (v : List Int) (i : Nat), i < pvIndex →
      (pvSearch.splice pvIndex pvLen k j v).getD i 0 = v.getD i 0 := by
  intro k
  induction k with
  | zero => intro j v i _; rfl
  | succ k ih =>
    intro j v i hi
    simp only [pvSearch.splice]
    rw [ih (j + 1) _ i hi, writeAt_getD_of_ne _ _ _ _ (by omega)]

theorem pvSearch_first_frame (M : BoardModule B)
    (child other : Engine B → Int → Int → Int → Nat → Result B Int)
    (depth alpha beta : Int) (pvIndex : Nat) (check : Int)
    (moveList : List Int) (nrMoves : Nat) (self : Engine B) (bestScore : Int)
    (hframe : ∀ e d a b p v e', p ≤ e.pv.len → child e d a b p = .ok v e' → PvFrame p e e')
    (hle : pvIndex ≤ self.pv.len) :
    pvSearch.first M (enteredWithin child other) depth alpha beta pvIndex check moveList nrMoves
        self bestScore
      = pvSearch.first M child depth alpha beta pvIndex check moveList nrMoves self bestScore ∧
    ∀ v e, pvSearch.first M child depth alpha beta pvIndex check moveList nrMoves self bestScore
      = .ok v e → PvFrame pvIndex self e := by
  unfold pvSearch.first
  by_cases h0 : nrMoves > 0
  · rw [if_pos h0, if_pos h0]
    simp only
    generalize (if pvIndex < self.pv.len then moveToFront moveList nrMoves (self.pv.v.getD pvIndex 0)
          else moveList) = ml
    have hs0 : pvIndex + 1 ≤ (if pvIndex < self.pv.len then self
        else { self with pv := pushList self.pv (ml.getD 0 0) }).pv.len ∧
        ∀ i, i < pvIndex → (if pvIndex < self.pv.len then self
          else { self with pv := pushList self.pv (ml.getD 0 0) }).pv.v.getD i 0
            = self.pv.v.getD i 0 := by
      split_ifs with hlt
      · exact ⟨hlt, fun _ _ => rfl⟩
      · refine ⟨by simp only [pushList]; omega, fun i hi => ?_⟩
        simp only [pushList]
        exact writeAt_getD_of_ne _ _ _ _ (by omega)
    generalize (if pvIndex < self.pv.len then self
        else { self with pv := pushList self.pv (ml.getD 0 0) }) = s0 at hs0
    have hg : enteredWithin child other { s0 with board := M.makeMove s0.board (ml.getD 0 0) }
        (imax 0 (depth - 1 + check)) (-beta) (-imax alpha bestScore) (pvIndex + 1)
        = child { s0 with board := M.makeMove s0.board (ml.getD 0 0) }
          (imax 0 (depth - 1 + check)) (-beta) (-imax alpha bestScore) (pvIndex + 1) := by
      unfold enteredWithin
      rw [if_pos hs0.1]
    rw [hg]
    refine ⟨rfl, ?_⟩
    intro v e h
    cases hc : child { s0 with board := M.makeMove s0.board (ml.getD 0 0) }
        (imax 0 (depth - 1 + check)) (-beta) (-imax alpha bestScore) (pvIndex + 1) with
    | ok value s1 =>
      obtain ⟨f1, f2⟩ := hframe { s0 with board := M.makeMove s0.board (ml.getD 0 0) }
        _ _ _ _ _ _ hs0.1 hc
      rw [hc] at h
      simp only at h
      have hpre : ∀ i, i < pvIndex → s1.pv.v.getD i 0 = self.pv.v.getD i 0 :=
        fun i hi => (f2 i (by omega)).trans (hs0.2 i hi)
      by_cases h2 : -value > bestScore
      · rw [if_pos h2] at h
        cases h
        exact ⟨by simp only; omega, hpre⟩
      · rw [if_neg h2] at h
        cases h
        exact ⟨le_refl _, hpre⟩
    | aborted s1 => rw [hc] at h; cases h
    | outOfFuel => rw [hc] at h; cases h
  · rw [if_neg h0, if_neg h0]
    refine ⟨rfl, ?_⟩
    intro v e h
    cases h
    exact ⟨hle, fun _ _ => rfl⟩

theorem pvSearch_loop_frame (M : BoardModule B)
    (child other : Engine B → Int → Int → Int → Nat → Result B Int)
    (scoutChild : Engine B → Int → Int → Result B Int)
    (depth alpha beta : Int) (pvIndex : Nat) (check : Int) (moveList : List Int)
    (hframe : ∀ e d a b p v e', p ≤ e.pv.len → child e d a b p = .ok v e' → PvFrame p e e')
    (hscout : ∀ e d a v e', scoutChild e d a = .ok v e' → e'.pv = e.pv) :
    ∀ (k i : Nat) (self : Engine B) (bestScore : Int), pvIndex ≤ self.pv.len →
      pvSearch.loop M (enteredWithin child other) scoutChild depth alpha beta pvIndex check
          moveList k i self bestScore
        = pvSearch.loop M child scoutChild depth alpha beta pvIndex check moveList k i self
          bestScore ∧
      ∀ v e, pvSearch.loop M child scoutChild depth alpha beta pvIndex check moveList k i self
        bestScore = .ok v e → PvFrame pvIndex self e := by
  intro k
  induction k with
  | zero =>
    intro i self bestScore hle
    simp only [pvSearch.loop]
    refine ⟨trivial, ?_⟩
    intro v e h
    cases h
    exact ⟨hle, fun _ _ => rfl⟩
  | succ k ih =>
    intro i self bestScore hle
    simp only [pvSearch.loop]
    by_cases h0 : bestScore < beta
    · rw [if_pos h0, if_pos h0]
      cases hc : scoutChild { self with board := M.makeMove self.board (moveList.getD i 0) }
          (imax 0 (depth - 1 + check - 0)) (-imax alpha bestScore - 1) with
      | ok value s1 =>
        have hpv1 : s1.pv = self.pv := by
          have := hscout _ _ _ _ _ hc
          exact this
        simp only
        by_cases h2 : -value > bestScore
        · rw [if_pos h2, if_pos h2]
          have hlen : s1.pv.len + 1
              ≤ ({ s1 with pv := pushList s1.pv (moveList.getD i 0) } : Engine B).pv.len := by
            simp only [pushList]; omega
          have hg : enteredWithin child other
              { s1 with pv := pushList s1.pv (moveList.getD i 0) }
              (imax 0 (depth - 1 + check)) (-beta) (-imax alpha bestScore) (s1.pv.len + 1)
              = child { s1 with pv := pushList s1.pv (moveList.getD i 0) }
                (imax 0 (depth - 1 + check)) (-beta) (-imax alpha bestScore)
                (s1.pv.len + 1) := by
            unfold enteredWithin
            rw [if_pos hlen]
          rw [hg]
          cases hc2 : child { s1 with pv := pushList s1.pv (moveList.getD i 0) }
              (imax 0 (depth - 1 + check)) (-beta) (-imax alpha bestScore)
              (s1.pv.len + 1) with
          | ok value2 s2 =>
            obtain ⟨f1, f2⟩ := hframe { s1 with pv := pushList s1.pv (moveList.getD i 0) }
              _ _ _ _ _ _ hlen hc2
            have hpre : ∀ j, j < pvIndex → s2.pv.v.getD j 0 = self.pv.v.getD j 0 := by
              intro j hj
              rw [f2 j (by rw [hpv1]; omega)]
              simp only [pushList]
              rw [writeAt_getD_of_ne _ _ _ _ (by rw [hpv1]; omega), hpv1]
            simp only
            by_cases h3 : -value2 > bestScore
            · rw [if_pos h3, if_pos h3]
              obtain ⟨g1, g2⟩ := ih (i + 1)
                { s2 with
                  pv := IntList.mk (pvSearch.splice pvIndex s1.pv.len
                      (s2.pv.len - s1.pv.len) 0 s2.pv.v)
                    (s2.pv.len - (s1.pv.len - pvIndex))
                  board := M.undoMove s2.board } (-value2)
                (by simp only; rw [hpv1] at f1 ⊢; omega)
              refine ⟨g1, fun v e h => ?_⟩
              obtain ⟨q1, q2⟩ := g2 v e h
              refine ⟨q1, fun j hj => ?_⟩
              rw [q2 j hj]
              simp only
              rw [splice_getD_below _ _ _ _ _ _ hj]
              exact hpre j hj
            · rw [if_neg h3, if_neg h3]
              obtain ⟨g1, g2⟩ := ih (i + 1)
                { s2 with
                  pv := { s2.pv with len := s1.pv.len }
                  board := M.undoMove s2.board } bestScore
                (by simp only; rw [hpv1]; exact hle)
              refine ⟨g1, fun v e h => ?_⟩
              obtain ⟨q1, q2⟩ := g2 v e h
              exact ⟨q1, fun j hj => (q2 j hj).trans (hpre j hj)⟩
          | aborted s2 => exact ⟨rfl, fun _ _ h => Result.noConfusion h⟩
          | outOfFuel => exact ⟨rfl, fun _ _ h => Result.noConfusion h⟩
        · rw [if_neg h2, if_neg h2]
          obtain ⟨g1, g2⟩ := ih (i + 1) { s1 with board := M.undoMove s1.board } bestScore
            (by simp only; rw [hpv1]; exact hle)
          refine ⟨g1, fun v e h => ?_⟩
          obtain ⟨q1, q2⟩ := g2 v e h
          refine ⟨q1, fun j hj => ?_⟩
          rw [q2 j hj]
          simp only
          rw [hpv1]
      | aborted s1 => exact ⟨rfl, fun _ _ h => Result.noConfusion h⟩
      | outOfFuel => exact ⟨rfl, fun _ _ h => Result.noConfusion h⟩
    · rw [if_neg h0, if_neg h0]
      refine ⟨rfl, ?_⟩
      intro v e h
      cases h
      exact ⟨hle, fun _ _ => rfl⟩

theorem pvSearch_moves_frame (M : BoardModule B)
    (child other : Engine B → Int → Int → Int → Nat → Result B Int)
    (scoutChild : Engine B → Int → Int → Result B Int)
    (depth alpha beta : Int) (pvIndex : Nat) (check : Bool) (moveFilter : Int)
    (self : Engine B) (bestScore : Int)
    (hframe : ∀ e d a b p v e', p ≤ e.pv.len → child e d a b p = .ok v e' → PvFrame p e e')
    (hscout : ∀ e d a v e', scoutChild e d a = .ok v e' → e'.pv = e.pv)
    (hle : pvIndex ≤ self.pv.len) :
    pvSearch.moves M (enteredWithin child other) scoutChild depth alpha beta pvIndex check
        moveFilter self bestScore
      = pvSearch.moves M child scoutChild depth alpha beta pvIndex check moveFilter self
        bestScore ∧
    ∀ v e, pvSearch.moves M child scoutChild depth alpha beta pvIndex check moveFilter self
      bestScore = .ok v e → PvFrame pvIndex self e := by
  unfold pvSearch.moves
  simp only
  generalize filterLegalMoves M self.board
    (filterAndSort M self.board (M.generateMoves self.board)
      (M.generateMoves self.board).length moveFilter).1
    (filterAndSort M self.board (M.generateMoves self.board)
      (M.generateMoves self.board).length moveFilter).2 = legal
  obtain ⟨f1, f2⟩ := pvSearch_first_frame M child other depth alpha beta pvIndex
    (boolInt check) legal.2.1 legal.2.2 { self with board := legal.1 } bestScore hframe hle
  rw [f1]
  cases hf : pvSearch.first M child depth alpha beta pvIndex (boolInt check) legal.2.1
      legal.2.2 { self with board := legal.1 } bestScore with
  | ok value s1 =>
    obtain ⟨bs, ml⟩ := value
    obtain ⟨p1, p2⟩ := f2 _ _ hf
    simp only
    obtain ⟨g1, g2⟩ := pvSearch_loop_frame M child other scoutChild depth alpha beta pvIndex
      (boolInt check) ml hframe hscout (legal.2.2 - 1) 1 s1 bs p1
    rw [g1]
    refine ⟨rfl, ?_⟩
    intro v e h
    cases hl : pvSearch.loop M child scoutChild depth alpha beta pvIndex (boolInt check) ml
        (legal.2.2 - 1) 1 s1 bs with
    | ok bs2 s2 =>
      rw [hl] at h
      cases h
      obtain ⟨q1, q2⟩ := g2 _ _ hl
      exact ⟨q1, fun j hj => (q2 j hj).trans (p2 j hj)⟩
    | aborted s2 => rw [hl] at h; cases h
    | outOfFuel => rw [hl] at h; cases h
  | aborted s1 => exact ⟨rfl, fun _ _ h => Result.noConfusion h⟩
  | outOfFuel => exact ⟨rfl, fun _ _ h => Result.noConfusion h⟩

theorem pvSearch_node_frame (M : BoardModule B)
    (child other : Engine B → Int → Int → Int → Nat → Result B Int)
    (scoutChild : Engine B → Int → Int → Result B Int)
    (self : Engine B) (depth alpha beta : Int) (pvIndex : Nat)
    (hframe : ∀ e d a b p v e', p ≤ e.pv.len → child e d a b p = .ok v e' → PvFrame p e e')
    (hscout : ∀ e d a v e', scoutChild e d a = .ok v e' → e'.pv = e.pv)
    (hle : pvIndex ≤ self.pv.len) :
    pvSearch.node M (enteredWithin child other) scoutChild self depth alpha beta pvIndex
      = pvSearch.node M child scoutChild self depth alpha beta pvIndex ∧
    ∀ v e, pvSearch.node M child scoutChild self depth alpha beta pvIndex = .ok v e →
      PvFrame pvIndex self e := by
  unfold pvSearch.node
  simp only
  have hm := fun mf bs => pvSearch_moves_frame M child other scoutChild depth alpha beta pvIndex
    (M.inCheck self.board) mf { self with nodeCount := self.nodeCount + 1 } bs hframe hscout hle
  by_cases h1 : M.repetition self.board = true
  · rw [if_pos h1, if_pos h1]
    refine ⟨rfl, fun v e h => ?_⟩
    cases h
    exact ⟨hle, fun _ _ => rfl⟩
  · rw [if_neg h1, if_neg h1]
    by_cases h2 : depth = 0 ∧ M.inCheck self.board = false
    · rw [if_pos h2, if_pos h2]
      by_cases h3 : M.evaluate self.board ≥ beta
      · rw [if_pos h3, if_pos h3]
        refine ⟨rfl, fun v e h => ?_⟩
        cases h
        exact ⟨le_refl _, fun _ _ => rfl⟩
      · rw [if_neg h3, if_neg h3]
        exact hm 0 (M.evaluate self.board)
    · rw [if_neg h2, if_neg h2]
      exact hm minInt minInt

theorem pvSearch_frame (M : BoardModule B) (env : Env) :
    ∀ (fuel : Nat) (self : Engine B) (depth alpha beta : Int) (pvIndex : Nat) (v : Int)
      (e : Engine B), pvIndex ≤ self.pv.len →
      pvSearch M env fuel self depth alpha beta pvIndex = .ok v e → PvFrame pvIndex self e := by
  intro fuel
  induction fuel with
  | zero => intro self depth alpha beta pvIndex v e _ h; simp [pvSearch] at h
  | succ fuel ih =>
    intro self depth alpha beta pvIndex v e hle h
    rw [pvSearch_succ] at h
    exact (pvSearch_node_frame M (pvSearch M env fuel) (pvSearch M env fuel)
      (scout M env fuel) self depth alpha beta pvIndex
      (fun e d a b p v e' hp hc => ih e d a b p v e' hp hc)
      (fun e d a v e' hc => (scout_kept M env (keptPv B env) fuel e d a).1 v e' hc) hle).2 v e h

/-- C20. A call of `pvSearch` that is entered with `pvIndex ≤ pv.len` and
returns normally leaves the entries `pv[0..pvIndex)` as they were and returns
with `pv.len ≥ pvIndex`; and the call does not depend on what `pvSearch` would
do when entered with a `pvIndex` beyond `pv.len`: every recursive call is
entered with its `pvIndex ≤ pv.len`. -/
theorem pvSearch_pv_frame (M : BoardModule B) (env : Env) (fuel : Nat) (self : Engine B)
    (depth alpha beta : Int) (pvIndex : Nat) (hle : pvIndex ≤ self.pv.len) :
    (∀ (v : Int) (e : Engine B),
      pvSearch M env fuel self depth alpha beta pvIndex = .ok v e →
      pvIndex ≤ e.pv.len ∧ ∀ i, i < pvIndex → e.pv.v.getD i 0 = self.pv.v.getD i 0) ∧
    (∀ other : Engine B → Int → Int → Int → Nat → Result B Int,
      pvSearch.node M (enteredWithin (pvSearch M env fuel) other) (scout M env fuel) self
          depth alpha beta pvIndex
        = pvSearch M env (fuel + 1) self depth alpha beta pvIndex) := by
  refine ⟨fun v e h => pvSearch_frame M env fuel self depth alpha beta pvIndex v e hle h, ?_⟩
  intro other
  rw [pvSearch_succ]
  exact (pvSearch_node_frame M (pvSearch M env fuel) other (scout M env fuel) self depth alpha
    beta pvIndex (fun e d a b p v e' hp hc => pvSearch_frame M env fuel e d a b p v e' hp hc)
    (fun e d a v e' hc => (scout_kept M env (keptPv B env) fuel e d a).1 v e' hc) hle).1

set_option maxRecDepth 100000 in
theorem pvSearch_pv_frame_witness :
    1 ≤ ({ freshEngine [2] with pv := { v := [2, 9], len := 1 } } : Engine (List Int)).pv.len ∧
    pvSearch twoMoveModule ⟨fun _ => 0⟩ 5
        { freshEngine [2] with pv := { v := [2, 9], len := 1 } } 1 (-maxInt) maxInt 1
      = .ok (-3) { board := [2], rootPlyNumber := 0, depth := 0, score := 0, bestMove := 0,
                   pv := { v := [2, 1, 1], len := 2 }, nodeCount := 4 } ∧
    (1 ≤ ({ board := [2], rootPlyNumber := 0, depth := 0, score := 0, bestMove := 0,
            pv := { v := [2, 1, 1], len := 2 }, nodeCount := 4 } : Engine (List Int)).pv.len ∧
      ∀ i, i < 1 →
        ({ board := [2], rootPlyNumber := 0, depth := 0, score := 0, bestMove := 0,
           pv := { v := [2, 1, 1], len := 2 }, nodeCount := 4 } : Engine (List Int)).pv.v.getD i 0
          = ({ freshEngine [2] with pv := { v := [2, 9], len := 1 } }
              : Engine (List Int)).pv.v.getD i 0) :=
  ⟨by decide, by decide,
    (pvSearch_pv_frame twoMoveModule ⟨fun _ => 0⟩ 5
      { freshEngine [2] with pv := { v := [2, 9], len := 1 } } 1 (-maxInt) maxInt 1
      (by decide)).1 (-3) _ (by decide)⟩

/-! ## Theorems: the bounds that `qSearch` returns -/

set_option maxRecDepth 100000 in
/-- C13, as stated, fails: at the root of `recaptureModule` with `alpha = 0`,
`qSearch` returns `-100`, which is neither above `alpha` nor the quiescence
value `-200` of the root: the child failed high on its stand-pat score `100`
while its value is `500`. -/
theorem qSearch_returns_bound_not_value :
    qFinite recaptureModule 3 [] = true ∧ qValue recaptureModule 0 3 [] = -200 ∧
    qSearch recaptureModule 3 (freshEngine []) 0 = .ok (-100) { freshEngine [] with nodeCount := 1 } := by
  decide

theorem foldl_max_le_iff (v s : Int) (vs : List Int) :
    vs.foldl max v ≤ s ↔ v ≤ s ∧ ∀ x ∈ vs, x ≤ s := by
  induction vs generalizing v with
  | nil => simp
  | cons a vs ih =>
    simp only [List.foldl_cons, ih, List.mem_cons, forall_eq_or_imp, max_le_iff]
    tauto

theorem le_foldl_max_init (v : Int) (vs : List Int) : v ≤ vs.foldl max v :=
  ((foldl_max_le_iff v _ vs).1 (le_refl _)).1

theorem le_foldl_max_mem (v : Int) (vs : List Int) {x : Int} (hx : x ∈ vs) :
    x ≤ vs.foldl max v :=
  ((foldl_max_le_iff v _ vs).1 (le_refl _)).2 x hx

theorem imax_eq_max (a b : Int) : imax a b = max a b := by
  unfold imax
  split_ifs with h
  · exact (max_eq_right (le_of_lt h)).symm
  · exact (max_eq_left (not_lt.1 h)).symm

theorem mem_take_getD {l : List Int} {n : Nat} {x : Int} (h : x ∈ l.take n) :
    ∃ j, j < n ∧ l.getD j 0 = x := by
  obtain ⟨j, hj, e⟩ := List.mem_iff_getElem.1 h
  have hj' : j < n ∧ j < l.length := by
    simp only [List.length_take] at hj
    omega
  refine ⟨j, hj'.1, ?_⟩
  rw [List.getD_eq_getElem _ _ hj'.2, ← e]
  simp

theorem mem_qMoves (M : BoardModule B) (b : B) (m : Int) :
    m ∈ qMoves M b ↔ m ∈ M.generateMoves b ∧
      (if M.inCheck b then minInt else 0) ≤ exchange M b m ∧
      M.wasLegalMove (M.makeMove b m) = true := by
  have hb := exchange_bounds M b m
  unfold qMoves
  rw [List.mem_filter]
  cases hc : M.inCheck b
  · simp
  · simp only [Bool.true_or, Bool.true_and, if_true]
    have : minInt ≤ exchange M b m := by unfold minInt; omega
    tauto

theorem qSearch_loop_bounds (M : BoardModule B) (H : UndoRestores M) (n : Nat) (root : Int)
    (alpha : Int) (b : B) (moveList : List Int) (cnt : Nat)
    (ha1 : -maxInt ≤ alpha) (ha2 : alpha < maxInt)
    (hP : ∀ (node : Engine B) (a : Int), node.rootPlyNumber = root →
      qFinite M n node.board = true → -maxInt ≤ a → a < maxInt → QBounds M n node a)
    (hgen : ∀ j, j < cnt → moveList.getD j 0 ∈ M.generateMoves b)
    (hfin : ∀ j, j < cnt → legalAt M b (moveList.getD j 0) = true →
      qFinite M n (M.makeMove b (moveList.getD j 0)) = true) :
    ∀ (k i : Nat) (self : Engine B) (bs : Int), i + k ≤ cnt → self.board = b →
      self.rootPlyNumber = root → minInt ≤ bs → bs ≤ maxInt →
      ∃ s e, qSearch.loop M (qSearch M n) alpha moveList k i self bs = .ok s e ∧
        e.board = b ∧ e.rootPlyNumber = root ∧ bs ≤ s ∧ s ≤ maxInt ∧
        (s ≤ alpha → ∀ j, i ≤ j → j < i + k → legalAt M b (moveList.getD j 0) = true →
          -(qValue M root n (M.makeMove b (moveList.getD j 0))) ≤ s) ∧
        (alpha < s → s = bs ∨ ∃ j, i ≤ j ∧ j < i + k ∧
          legalAt M b (moveList.getD j 0) = true ∧
          s ≤ -(qValue M root n (M.makeMove b (moveList.getD j 0)))) ∧
        (s ≠ bs → ∃ j, i ≤ j ∧ j < i + k ∧ legalAt M b (moveList.getD j 0) = true) ∧
        (s = minInt → ∀ j, i ≤ j → j < i + k → legalAt M b (moveList.getD j 0) = false) := by
  have hmin : minInt = -maxInt - 1 := by decide
  intro k
  induction k with
  | zero =>
    intro i self bs _ hb hr _ hbs
    refine ⟨bs, self, rfl, hb, hr, le_refl _, hbs, ?_, fun _ => Or.inl rfl,
      fun h => absurd rfl h, ?_⟩
    · intro _ j h1 h2; omega
    · intro _ j h1 h2; omega
  | succ k ih =>
    intro i self bs hik hb hr hbs1 hbs2
    simp only [qSearch.loop]
    by_cases h0 : bs ≤ alpha
    · rw [if_pos h0, hb]
      have hund : M.undoMove (M.makeMove b (moveList.getD i 0)) = b :=
        (H b _ (hgen i (by omega))).2
      by_cases h1 : M.wasLegalMove (M.makeMove b (moveList.getD i 0)) = true
      · rw [if_pos h1]
        have hleg : legalAt M b (moveList.getD i 0) = true := h1
        obtain ⟨sc, ec, hc, hc1, hc2, hc3, hc4⟩ := hP
          { self with board := M.makeMove b (moveList.getD i 0),
                      nodeCount := self.nodeCount + 1 } (-(alpha + 1)) hr
          (hfin i (by omega) hleg) (by omega) (by omega)
        have hcb : ec.board = M.makeMove b (moveList.getD i 0) := by
          have := qSearch_board M H _ _ _ _ _ hc
          exact this
        have hcr : ec.rootPlyNumber = root := by
          have := ((qSearch_kept M ⟨fun _ => 0⟩ (keptFields B ⟨fun _ => 0⟩) _ _ _).1 _ _ hc).1
          exact this.trans hr
        rw [hc]
        simp only
        rw [hcb, hund, imax_eq_max]
        simp only at hc3 hc4
        rw [hr] at hc3 hc4
        obtain ⟨s, e, hl, e1, e2, e3, e4, e5, e6, e7, e8⟩ := ih (i + 1)
          { ec with board := b } (max bs (-sc)) (by omega) rfl hcr
          (le_trans hbs1 (le_max_left _ _)) (max_le hbs2 (by omega))
        have hbs' : bs ≤ s := le_trans (le_max_left _ _) e3
        have hsc' : -sc ≤ s := le_trans (le_max_right _ _) e3
        refine ⟨s, e, hl, e1, e2, hbs', e4, ?_, ?_, ?_, ?_⟩
        · intro hs j hj1 hj2 hjl
          rcases Nat.eq_or_lt_of_le hj1 with hj | hj
          · subst hj
            have := hc4 (by omega)
            omega
          · exact e5 hs j hj (by omega) hjl
        · intro hs
          rcases e6 hs with h6 | ⟨j, hj1, hj2, hj3, hj4⟩
          · rcases le_total bs (-sc) with hle | hle
            · rw [max_eq_right hle] at h6
              right
              refine ⟨i, le_refl _, by omega, hleg, ?_⟩
              have := hc3 (by omega)
              omega
            · rw [max_eq_left hle] at h6
              exact Or.inl h6
          · exact Or.inr ⟨j, by omega, by omega, hj3, hj4⟩
        · intro _
          exact ⟨i, le_refl _, by omega, hleg⟩
        · intro hs
          omega
      · rw [if_neg h1]
        have hleg : legalAt M b (moveList.getD i 0) = false := by
          simpa [legalAt] using h1
        rw [hund]
        obtain ⟨s, e, hl, e1, e2, e3, e4, e5, e6, e7, e8⟩ := ih (i + 1)
          { self with board := b } bs (by omega) rfl hr hbs1 hbs2
        refine ⟨s, e, hl, e1, e2, e3, e4, ?_, ?_, ?_, ?_⟩
        · intro hs j hj1 hj2 hjl
          rcases Nat.eq_or_lt_of_le hj1 with hj | hj
          · subst hj
            rw [hleg] at hjl
            cases hjl
          · exact e5 hs j hj (by omega) hjl
        · intro hs
          rcases e6 hs with h6 | ⟨j, hj1, hj2, hj3, hj4⟩
          · exact Or.inl h6
          · exact Or.inr ⟨j, by omega, by omega, hj3, hj4⟩
        · intro hs
          obtain ⟨j, hj1, hj2, hj3⟩ := e7 hs
          exact ⟨j, by omega, by omega, hj3⟩
        · intro hs j hj1 hj2
          rcases Nat.eq_or_lt_of_le hj1 with hj | hj
          · subst hj; exact hleg
          · exact e8 hs j hj (by omega)
    · rw [if_neg h0]
      refine ⟨bs, self, rfl, hb, hr, le_refl _, hbs2, ?_, fun _ => Or.inl rfl,
        fun h => absurd rfl h, ?_⟩
      · intro hs; exact absurd hs h0
      · intro hs; omega

theorem qFinite_child (M : BoardModule B) (n : Nat) (b : B) (h : qFinite M (n + 1) b = true)
    {m : Int} (hm : m ∈ qMoves M b) : qFinite M n (M.makeMove b m) = true := by
  simp only [qFinite, List.all_eq_true] at h
  exact h m hm

theorem qSearch_bounds (M : BoardModule B) (H : UndoRestores M) (root : Int)
    (hB : ScoresBounded M root) :
    ∀ (n : Nat) (self : Engine B) (alpha : Int), self.rootPlyNumber = root →
      qFinite M n self.board = true → -maxInt ≤ alpha → alpha < maxInt →
      QBounds M n self alpha := by
  have hmin : minInt = -maxInt - 1 := by decide
  intro n
  induction n with
  | zero => intro self alpha _ hf; simp [qFinite] at hf
  | succ n ih =>
    intro self alpha hr hfin ha1 ha2
    obtain ⟨⟨hev1, hev2⟩, hend⟩ := hB self.board
    obtain ⟨hs1, hs2, -⟩ := filterAndSort_generated M self.board
      (if M.inCheck self.board = true then minInt else 0) (M.generateMoves self.board)
      (fun m hm => (H self.board m hm).1)
    have hmemL : ∀ j, j < (filterAndSort M self.board (M.generateMoves self.board)
          (M.generateMoves self.board).length
          (if M.inCheck self.board = true then minInt else 0)).2 →
        (filterAndSort M self.board (M.generateMoves self.board)
          (M.generateMoves self.board).length
          (if M.inCheck self.board = true then minInt else 0)).1.getD j 0
          ∈ M.generateMoves self.board ∧
        (if M.inCheck self.board = true then minInt else 0) ≤ exchange M self.board
          ((filterAndSort M self.board (M.generateMoves self.board)
            (M.generateMoves self.board).length
            (if M.inCheck self.board = true then minInt else 0)).1.getD j 0) :=
      fun j hj => hs2 _ (getD_mem_take _ hj hs1)
    have hidx : ∀ m ∈ qMoves M self.board, ∃ j,
        j < (filterAndSort M self.board (M.generateMoves self.board)
          (M.generateMoves self.board).length
          (if M.inCheck self.board = true then minInt else 0)).2 ∧
        (filterAndSort M self.board (M.generateMoves self.board)
          (M.generateMoves self.board).length
          (if M.inCheck self.board = true then minInt else 0)).1.getD j 0 = m := by
      intro m hm
      obtain ⟨hm1, hm2, -⟩ := (mem_qMoves M self.board m).1 hm
      exact mem_take_getD ((filterAndSort_mem_iff M self.board _ (M.generateMoves self.board)
        (fun m hm => (H self.board m hm).1) m).2 ⟨hm1, hm2⟩)
    obtain ⟨s, e, hl, e1, e2, e3, e4, e5, e6, e7, e8⟩ := qSearch_loop_bounds M H n root alpha
      self.board _ _ ha1 ha2 ih (fun j hj => (hmemL j hj).1)
      (fun j hj hleg => qFinite_child M n self.board hfin
        ((mem_qMoves M self.board _).2 ⟨(hmemL j hj).1, (hmemL j hj).2, hleg⟩))
      _ 0 self (if M.inCheck self.board = true then minInt else M.evaluate self.board)
      (le_of_eq (Nat.zero_add _)) rfl hr
      (by split_ifs <;> omega) (by split_ifs <;> omega)
    have hchild_le : ∀ t : Int, s ≤ alpha → s ≤ t →
        ∀ x ∈ (qMoves M self.board).map
          (fun m => -(qValue M root n (M.makeMove self.board m))), x ≤ t := by
      intro t hs ht x hx
      obtain ⟨m, hm, rfl⟩ := List.mem_map.1 hx
      obtain ⟨j, hj, rfl⟩ := hidx m hm
      exact le_trans (e5 hs j (Nat.zero_le _) (by omega)
        ((mem_qMoves M self.board _).1 hm).2.2) ht
    have hchild_ge : ∀ j, j < (filterAndSort M self.board (M.generateMoves self.board)
          (M.generateMoves self.board).length
          (if M.inCheck self.board = true then minInt else 0)).2 →
        legalAt M self.board ((filterAndSort M self.board (M.generateMoves self.board)
          (M.generateMoves self.board).length
          (if M.inCheck self.board = true then minInt else 0)).1.getD j 0) = true →
        -(qValue M root n (M.makeMove self.board
          ((filterAndSort M self.board (M.generateMoves self.board)
            (M.generateMoves self.board).length
            (if M.inCheck self.board = true then minInt else 0)).1.getD j 0)))
          ∈ (qMoves M self.board).map
            (fun m => -(qValue M root n (M.makeMove self.board m))) := by
      intro j hj hleg
      exact List.mem_map.2 ⟨_, (mem_qMoves M self.board _).2
        ⟨(hmemL j hj).1, (hmemL j hj).2, hleg⟩, rfl⟩
    unfold QBounds
    simp only [qSearch, qValue]
    rw [hr]
    by_cases hcheck : M.inCheck self.board = true
    · obtain ⟨hend1, hend2⟩ := hend hcheck
      simp only [hcheck, if_true] at hs1 hs2 hmemL hidx hl e3 e5 e6 e7 e8 hchild_le hchild_ge ⊢
      rw [if_neg (by omega), hl]
      simp only [ttWrite]
      by_cases hsmin : s = minInt
      · rw [if_pos hsmin]
        have hnil : qMoves M self.board = [] := by
          rw [List.eq_nil_iff_forall_not_mem]
          intro m hm
          obtain ⟨j, hj, rfl⟩ := hidx m hm
          have h1 := e8 hsmin j (Nat.zero_le _) (by omega)
          have h2 : legalAt M self.board _ = true := ((mem_qMoves M self.board _).1 hm).2.2
          rw [h1] at h2
          cases h2
        refine ⟨_, e, rfl, ?_⟩
        simp only [endScore, if_true, hnil, List.map_nil, e1, e2]
        exact ⟨hend1, hend2, fun _ => le_refl _, fun _ => le_refl _⟩
      · rw [if_neg hsmin]
        refine ⟨s, e, rfl, by omega, e4, ?_, ?_⟩
        · intro hs
          obtain ⟨j, -, hj2, hj3⟩ := e7 hsmin
          have hmem := hchild_ge j (by omega) hj3
          cases hch : (qMoves M self.board).map
              (fun m => -(qValue M root n (M.makeMove self.board m))) with
          | nil => rw [hch] at hmem; cases hmem
          | cons v vs =>
            simp only
            rw [foldl_max_le_iff]
            exact ⟨hchild_le s hs (le_refl _) v (by rw [hch]; exact List.mem_cons_self _ _),
              fun x hx => hchild_le s hs (le_refl _) x
                (by rw [hch]; exact List.mem_cons_of_mem _ hx)⟩
        · intro hs
          rcases e6 hs with h6 | ⟨j, -, hj2, hj3, hj4⟩
          · exact absurd h6 hsmin
          · have hmem := hchild_ge j (by omega) hj3
            cases hch : (qMoves M self.board).map
                (fun m => -(qValue M root n (M.makeMove self.board m))) with
            | nil => rw [hch] at hmem; cases hmem
            | cons v vs =>
              simp only
              rw [hch] at hmem
              rcases List.mem_cons.1 hmem with h | h
              · rw [← h]; exact le_trans hj4 (le_foldl_max_init _ _)
              · exact le_trans hj4 (le_foldl_max_mem _ _ h)
    · have hcf : M.inCheck self.board = false := by simpa using hcheck
      simp only [hcf, Bool.false_eq_true, if_false] at hs1 hs2 hmemL hidx hl e3 e5 e6 e7 e8 hchild_le hchild_ge ⊢
      by_cases hhigh : M.evaluate self.board > alpha
      · rw [if_pos hhigh]
        refine ⟨_, self, rfl, hev1, hev2, fun h => ?_, fun _ => le_foldl_max_init _ _⟩
        simp only [ttWrite] at h
        omega
      · rw [if_neg hhigh, hl]
        simp only [ttWrite]
        rw [if_neg (by omega)]
        refine ⟨s, e, rfl, by omega, e4, ?_, ?_⟩
        · intro hs
          rw [foldl_max_le_iff]
          exact ⟨e3, hchild_le s hs (le_refl _)⟩
        · intro hs
          rcases e6 hs with h6 | ⟨j, -, hj2, hj3, hj4⟩
          · rw [h6]; exact le_foldl_max_init _ _
          · exact le_trans hj4 (le_foldl_max_mem _ _ (hchild_ge j (by omega) hj3))

theorem recaptureModule_undo : UndoRestores recaptureModule := by
  intro b m hm
  have hm' : m ∈ (if b.length < 2 then ([65] : List Int) else []) := hm
  split_ifs at hm'
  · simp only [List.mem_singleton] at hm'
    subst hm'
    exact ⟨by decide, rfl⟩
  · simp at hm'

theorem recaptureModule_bounded : ScoresBounded recaptureModule 0 := by
  intro b
  refine ⟨?_, fun h => by cases h⟩
  show -maxInt ≤ (if b.length < 1 then (-200 : Int) else if b.length < 2 then 100 else -500) ∧
    (if b.length < 1 then (-200 : Int) else if b.length < 2 then 100 else -500) ≤ maxInt
  split_ifs <;> decide

/-- C13, amended. Over a finite capture tree, with scores that an `int` holds
and `-maxInt ≤ alpha < maxInt`, `qSearch` returns a score `s` that bounds the
quiescence negamax value of the position: when `s ≤ alpha` the value is at
most `s` (it need not equal `s`), and when `s > alpha` the value is at least
`s`. -/
theorem qSearch_fail_soft (M : BoardModule B) (H : UndoRestores M) (n : Nat) (self : Engine B)
    (alpha : Int) (hB : ScoresBounded M self.rootPlyNumber)
    (hfin : qFinite M n self.board = true) (ha1 : -maxInt ≤ alpha) (ha2 : alpha < maxInt) :
    ∃ s e, qSearch M n self alpha = .ok s e ∧
      (s ≤ alpha → qValue M self.rootPlyNumber n self.board ≤ s) ∧
      (alpha < s → s ≤ qValue M self.rootPlyNumber n self.board) := by
  obtain ⟨s, e, h1, -, -, h2, h3⟩ :=
    qSearch_bounds M H self.rootPlyNumber hB n self alpha rfl hfin ha1 ha2
  exact ⟨s, e, h1, h2, h3⟩

set_option maxRecDepth 100000 in
theorem qSearch_fail_soft_witness :
    ∃ s e, qSearch recaptureModule 3 (freshEngine []) 0 = .ok s e ∧
      (s ≤ 0 → qValue recaptureModule (freshEngine ([] : List Int)).rootPlyNumber 3
        (freshEngine ([] : List Int)).board ≤ s) ∧
      (0 < s → s ≤ qValue recaptureModule (freshEngine ([] : List Int)).rootPlyNumber 3
        (freshEngine ([] : List Int)).board) :=
  qSearch_fail_soft recaptureModule recaptureModule_undo 3 (freshEngine []) 0
    recaptureModule_bounded (by decide) (by decide) (by decide)

/-! ## Theorems: following the principal variation -/

/-- C24. For every board and move the exchange estimate lies in `[-28, 35]`,
so the key `(pre << 16) + (m & 0xffff)` that `filterAndSort` packs lies within
the 32-bit `int` and is stored without wrapping (the first loop of
`filterAndSort` stores it for a one-entry list); two packed keys compare as the
pairs `(pre, m & 0xffff)` compare lexicographically, for `<`, for `=` and for
`compareMoves`; and a packed key masked with `0xffff` is `m & 0xffff`. -/
theorem sortKey_packing (M : BoardModule B) (b b' : B) (m m' : Int) :
    (-28 ≤ exchange M b m ∧ exchange M b m ≤ 35) ∧
    (minInt ≤ exchange M b m * 65536 + m % 65536 ∧
      exchange M b m * 65536 + m % 65536 ≤ maxInt) ∧
    wrap32 (exchange M b m * 65536 + m % 65536) = sortKey M b m ∧
    filterAndSort.pack M b minInt 1 0 0 [m] = ([sortKey M b m], 1) ∧
    (sortKey M b m < sortKey M b' m' ↔
      exchange M b m < exchange M b' m' ∨
        (exchange M b m = exchange M b' m' ∧ m % 65536 < m' % 65536)) ∧
    (sortKey M b m = sortKey M b' m' ↔
      exchange M b m = exchange M b' m' ∧ m % 65536 = m' % 65536) ∧
    (compareMoves (sortKey M b m) (sortKey M b' m') < 0 ↔
      exchange M b' m' < exchange M b m ∨
        (exchange M b' m' = exchange M b m ∧ m' % 65536 < m % 65536)) ∧
    sortKey M b m % 65536 = m % 65536 := by
  have hb := exchange_bounds M b m
  have hb' := exchange_bounds M b' m'
  have hmin : minInt = -2147483648 := rfl
  have hmax : maxInt = 2147483647 := rfl
  refine ⟨hb, ⟨by omega, by omega⟩, wrap32_key _ _ hb.1 hb.2, ?_, ?_, ?_, ?_, sortKey_mod M b m⟩
  · simp only [filterAndSort.pack, List.getD_cons_zero, ge_iff_le]
    rw [if_pos (by omega), wrap32_key _ _ hb.1 hb.2]
    rfl
  · unfold sortKey
    omega
  · unfold sortKey
    omega
  · unfold compareMoves sortKey
    split_ifs <;> omega

/-! ## Theorems: the splice of the principal variation -/

theorem writeAt_getD_self (v : List Int) (i : Nat) (x : Int) :
    (writeAt v i x).getD i 0 = x := by
  unfold writeAt
  split_ifs with hi
  · simp [List.getElem?_set, hi]
  · simp only [List.getD_eq_getElem?_getD, List.append_assoc]
    rw [List.getElem?_append_right (by omega), List.getElem?_append_right (by simp)]
    simp

theorem splice_getD_before (pvIndex pvLen : Nat) :
    ∀ (k j : Nat) (v : List Int) (i : Nat), i < pvIndex + j →
      (pvSearch.splice pvIndex pvLen k j v).getD i 0 = v.getD i 0 := by
  intro k
  induction k with
  | zero => intro j v i _; rfl
  | succ k ih =>
    intro j v i hi
    simp only [pvSearch.splice]
    rw [ih (j + 1) _ i (by omega), writeAt_getD_of_ne _ _ _ _ (by omega)]

theorem splice_getD_copied (pvIndex pvLen : Nat) (hle : pvIndex ≤ pvLen) :
    ∀ (k j0 : Nat) (v : List Int) (j : Nat), j0 ≤ j → j < j0 + k →
      (pvSearch.splice pvIndex pvLen k j0 v).getD (pvIndex + j) 0 = v.getD (pvLen + j) 0 := by
  intro k
  induction k with
  | zero => intro j0 v j h1 h2; omega
  | succ k ih =>
    intro j0 v j h1 h2
    simp only [pvSearch.splice]
    rcases Nat.eq_or_lt_of_le h1 with h | h
    · subst h
      rw [splice_getD_before _ _ _ _ _ _ (by omega), writeAt_getD_self]
    · rw [ih (j0 + 1) _ j (by omega) (by omega), writeAt_getD_of_ne _ _ _ _ (by omega)]

/-- C21. One round of the loop of `pvSearch` over the later moves, in which
`scout` returns for the move `m = moveList[i]` a score above `bestScore` and
the re-search, entered with `m` appended at `pv[pvLen]` and `pvLen ≥ pvIndex`,
returns.  The re-search keeps `pv[pvLen] = m` and leaves a child line `c` in
`pv[pvLen+1 .. pv.len)`.  When its score is above `bestScore` the round ends
with `pv[pvIndex] = m`, then `c`, `pv.len = pvIndex + 1 + |c|` and `pv[0 ..
pvIndex)` as before; otherwise with `pv.len = pvLen` and `pv[0 .. pvLen)` as
before.  The loop goes on from there. -/
theorem pvSearch_research_splice (M : BoardModule B) (env : Env) (fuel : Nat)
    (depth alpha beta : Int) (pvIndex : Nat) (check : Int) (moveList : List Int) (k i : Nat)
    (self : Engine B) (bestScore value1 value2 : Int) (s1 s2 : Engine B)
    (hbeta : bestScore < beta)
    (hscout : scout M env fuel { self with board := M.makeMove self.board (moveList.getD i 0) }
      (imax 0 (depth - 1 + check - 0)) (-imax alpha bestScore - 1) = .ok value1 s1)
    (hhigh : -value1 > bestScore)
    (hle : pvIndex ≤ s1.pv.len)
    (hres : pvSearch M env fuel { s1 with pv := pushList s1.pv (moveList.getD i 0) }
      (imax 0 (depth - 1 + check)) (-beta) (-imax alpha bestScore) (s1.pv.len + 1)
      = .ok value2 s2) :
    ∃ e : Engine B,
      pvSearch.loop M (pvSearch M env fuel) (scout M env fuel) depth alpha beta pvIndex check
          moveList (k + 1) i self bestScore
        = pvSearch.loop M (pvSearch M env fuel) (scout M env fuel) depth alpha beta pvIndex check
          moveList k (i + 1) e (if -value2 > bestScore then -value2 else bestScore) ∧
      s1.pv = self.pv ∧
      s1.pv.len + 1 ≤ s2.pv.len ∧ s2.pv.v.getD s1.pv.len 0 = moveList.getD i 0 ∧
      (-value2 > bestScore →
        e.pv.len = pvIndex + 1 + (s2.pv.len - (s1.pv.len + 1)) ∧
        e.pv.v.getD pvIndex 0 = moveList.getD i 0 ∧
        (∀ j, j < s2.pv.len - (s1.pv.len + 1) →
          e.pv.v.getD (pvIndex + 1 + j) 0 = s2.pv.v.getD (s1.pv.len + 1 + j) 0) ∧
        (∀ j, j < pvIndex → e.pv.v.getD j 0 = s1.pv.v.getD j 0)) ∧
      (¬ -value2 > bestScore →
        e.pv.len = s1.pv.len ∧ ∀ j, j < s1.pv.len → e.pv.v.getD j 0 = s1.pv.v.getD j 0) := by
  have hpv1 : s1.pv = self.pv := by
    have := (scout_kept M env (keptPv B env) fuel
      { self with board := M.makeMove self.board (moveList.getD i 0) }
      (imax 0 (depth - 1 + check - 0)) (-imax alpha bestScore - 1)).1 _ _ hscout
    exact this
  have hlen : s1.pv.len + 1
      ≤ ({ s1 with pv := pushList s1.pv (moveList.getD i 0) } : Engine B).pv.len := by
    simp only [pushList]; omega
  obtain ⟨f1, f2⟩ := pvSearch_frame M env fuel
    { s1 with pv := pushList s1.pv (moveList.getD i 0) } _ _ _ _ _ _ hlen hres
  have hkeep : ∀ j, j < s1.pv.len → s2.pv.v.getD j 0 = s1.pv.v.getD j 0 := by
    intro j hj
    rw [f2 j (by omega)]
    simp only [pushList]
    rw [writeAt_getD_of_ne _ _ _ _ (by omega)]
  have hm : s2.pv.v.getD s1.pv.len 0 = moveList.getD i 0 := by
    rw [f2 _ (Nat.lt_succ_self _)]
    simp only [pushList]
    rw [writeAt_getD_self]
  by_cases h3 : -value2 > bestScore
  · refine ⟨{ s2 with
        pv := IntList.mk (pvSearch.splice pvIndex s1.pv.len (s2.pv.len - s1.pv.len) 0 s2.pv.v)
          (s2.pv.len - (s1.pv.len - pvIndex))
        board := M.undoMove s2.board }, ?_, hpv1, f1, hm, fun _ => ⟨?_, ?_, ?_, ?_⟩,
      fun h => absurd h3 h⟩
    · simp only [pvSearch.loop]
      rw [if_pos hbeta, hscout]
      simp only
      rw [if_pos hhigh, hres]
      simp only
      rw [if_pos h3, if_pos h3]
    · simp only
      omega
    · simp only
      have := splice_getD_copied pvIndex s1.pv.len hle (s2.pv.len - s1.pv.len) 0 s2.pv.v 0
        (le_refl _) (by omega)
      rw [Nat.add_zero, Nat.add_zero] at this
      rw [this, hm]
    · intro j hj
      simp only
      have := splice_getD_copied pvIndex s1.pv.len hle (s2.pv.len - s1.pv.len) 0 s2.pv.v (1 + j)
        (Nat.zero_le _) (by omega)
      rw [← Nat.add_assoc, ← Nat.add_assoc] at this
      exact this
    · intro j hj
      simp only
      rw [splice_getD_below _ _ _ _ _ _ hj]
      exact hkeep j (by omega)
  · refine ⟨{ s2 with pv := { s2.pv with len := s1.pv.len }, board := M.undoMove s2.board },
      ?_, hpv1, f1, hm, fun h => absurd h h3, fun _ => ⟨rfl, hkeep⟩⟩
    simp only [pvSearch.loop]
    rw [if_pos hbeta, hscout]
    simp only
    rw [if_pos hhigh, hres]
    simp only
    rw [if_neg h3, if_neg h3]

set_option maxRecDepth 100000 in
theorem pvSearch_research_splice_witness :
    (2 : Int) < maxInt ∧
    scout twoMoveModule ⟨fun _ => 0⟩ 5
      { researchEntry with
        board := twoMoveModule.makeMove researchEntry.board (([1, 2] : List Int).getD 1 0) }
      (imax 0 (2 - 1 + 0 - 0)) (-imax (-maxInt) 2 - 1) = .ok (-3) researchScouted ∧
    -(-3 : Int) > 2 ∧
    0 ≤ researchScouted.pv.len ∧
    pvSearch twoMoveModule ⟨fun _ => 0⟩ 5
      { researchScouted with pv := pushList researchScouted.pv (([1, 2] : List Int).getD 1 0) }
      (imax 0 (2 - 1 + 0)) (-maxInt) (-imax (-maxInt) 2) (researchScouted.pv.len + 1)
      = .ok (-3) researchDone ∧
    ∃ e : Engine (List Int),
      pvSearch.loop twoMoveModule (pvSearch twoMoveModule ⟨fun _ => 0⟩ 5)
          (scout twoMoveModule ⟨fun _ => 0⟩ 5) 2 (-maxInt) maxInt 0 0 [1, 2] (0 + 1) 1
          researchEntry 2
        = pvSearch.loop twoMoveModule (pvSearch twoMoveModule ⟨fun _ => 0⟩ 5)
          (scout twoMoveModule ⟨fun _ => 0⟩ 5) 2 (-maxInt) maxInt 0 0 [1, 2] 0 (1 + 1) e
          (if -(-3 : Int) > 2 then -(-3 : Int) else 2) ∧
      researchScouted.pv = researchEntry.pv ∧
      researchScouted.pv.len + 1 ≤ researchDone.pv.len ∧
      researchDone.pv.v.getD researchScouted.pv.len 0 = ([1, 2] : List Int).getD 1 0 ∧
      (-(-3 : Int) > 2 →
        e.pv.len = 0 + 1 + (researchDone.pv.len - (researchScouted.pv.len + 1)) ∧
        e.pv.v.getD 0 0 = ([1, 2] : List Int).getD 1 0 ∧
        (∀ j, j < researchDone.pv.len - (researchScouted.pv.len + 1) →
          e.pv.v.getD (0 + 1 + j) 0 = researchDone.pv.v.getD (researchScouted.pv.len + 1 + j) 0) ∧
        (∀ j, j < 0 → e.pv.v.getD j 0 = researchScouted.pv.v.getD j 0)) ∧
      (¬ -(-3 : Int) > 2 →
        e.pv.len = researchScouted.pv.len ∧
        ∀ j, j < researchScouted.pv.len → e.pv.v.getD j 0 = researchScouted.pv.v.getD j 0) :=
  ⟨by decide, by decide, by decide, by decide, by decide,
    pvSearch_research_splice twoMoveModule ⟨fun _ => 0⟩ 5 2 (-maxInt) maxInt 0 0 [1, 2] 0 1
      researchEntry 2 (-3) (-3) researchScouted researchDone
      (by decide) (by decide) (by decide) (by decide) (by decide)⟩

/-! ## Theorems: the bounds that `scout` returns -/

theorem mem_legalMoves (M : BoardModule B) (b : B) (m : Int) :
    m ∈ legalMoves M b ↔ m ∈ M.generateMoves b ∧ legalAt M b m = true := by
  unfold legalMoves
  rw [List.mem_filter]

theorem scout_loop_bounds (M : BoardModule B) (H : UndoRestores M)
    (child : Engine B → Int → Int → Result B Int) (depth alpha check root : Int) (b : B)
    (moveList : List Int) (cnt : Nat) (cv : Int → Int) (ha : minInt ≤ alpha)
    (hgen : ∀ j, j < cnt → moveList.getD j 0 ∈ M.generateMoves b)
    (hchild : ∀ j, j < cnt → legalAt M b (moveList.getD j 0) = true →
      ∀ node : Engine B, node.board = M.makeMove b (moveList.getD j 0) →
        node.rootPlyNumber = root →
        child node (imax 0 (depth - 1 + check - 0)) (-(alpha + 1)) ≠ .outOfFuel ∧
        ∀ sc ec, child node (imax 0 (depth - 1 + check - 0)) (-(alpha + 1)) = .ok sc ec →
          ec.board = node.board ∧ ec.rootPlyNumber = root ∧ -maxInt ≤ sc ∧ sc ≤ maxInt ∧
          (sc ≤ -(alpha + 1) → cv (moveList.getD j 0) ≤ sc) ∧
          (-(alpha + 1) < sc → sc ≤ cv (moveList.getD j 0))) :
    ∀ (k i : Nat) (self : Engine B) (bs : Int), i + k ≤ cnt → self.board = b →
      self.rootPlyNumber = root → minInt ≤ bs → bs ≤ maxInt →
      scout.loop M child depth alpha check moveList k i self bs ≠ .outOfFuel ∧
      ∀ s e, scout.loop M child depth alpha check moveList k i self bs = .ok s e →
        e.board = b ∧ e.rootPlyNumber = root ∧ bs ≤ s ∧ s ≤ maxInt ∧
        (s ≤ alpha → ∀ j, i ≤ j → j < i + k → legalAt M b (moveList.getD j 0) = true →
          -(cv (moveList.getD j 0)) ≤ s) ∧
        (alpha < s → s = bs ∨ ∃ j, i ≤ j ∧ j < i + k ∧
          legalAt M b (moveList.getD j 0) = true ∧ s ≤ -(cv (moveList.getD j 0))) ∧
        (s ≠ bs → ∃ j, i ≤ j ∧ j < i + k ∧ legalAt M b (moveList.getD j 0) = true) ∧
        (s = minInt → ∀ j, i ≤ j → j < i + k → legalAt M b (moveList.getD j 0) = false) := by
  have hmin : minInt = -maxInt - 1 := by decide
  intro k
  induction k with
  | zero =>
    intro i self bs _ hb hr _ hbs
    simp only [scout.loop]
    refine ⟨fun h => Result.noConfusion h, ?_⟩
    intro s e h
    simp only [Result.ok.injEq] at h
    obtain ⟨rfl, rfl⟩ := h
    refine ⟨hb, hr, le_refl _, hbs, ?_, fun _ => Or.inl rfl, fun h => absurd rfl h, ?_⟩
    · intro _ j h1 h2; omega
    · intro _ j h1 h2; omega
  | succ k ih =>
    intro i self bs hik hb hr hbs1 hbs2
    simp only [scout.loop]
    by_cases h0 : bs ≤ alpha
    · rw [if_pos h0, hb]
      have hund : M.undoMove (M.makeMove b (moveList.getD i 0)) = b :=
        (H b _ (hgen i (by omega))).2
      by_cases h1 : M.wasLegalMove (M.makeMove b (moveList.getD i 0)) = true
      · rw [if_pos h1]
        have hleg : legalAt M b (moveList.getD i 0) = true := h1
        obtain ⟨hne, hok⟩ := hchild i (by omega) hleg
          { self with board := M.makeMove b (moveList.getD i 0) } rfl hr
        cases hc : child { self with board := M.makeMove b (moveList.getD i 0) }
            (imax 0 (depth - 1 + check - 0)) (-(alpha + 1)) with
        | ok sc ec =>
          obtain ⟨hcb, hcr, hc1, hc2, hc3, hc4⟩ := hok sc ec hc
          simp only at hcb
          simp only
          rw [hcb, hund, imax_eq_max]
          obtain ⟨hne2, hrest⟩ := ih (i + 1) { ec with board := b } (max bs (-sc)) (by omega) rfl
            hcr (le_trans hbs1 (le_max_left _ _)) (max_le hbs2 (by omega))
          refine ⟨hne2, ?_⟩
          intro s e hl
          obtain ⟨e1, e2, e3, e4, e5, e6, e7, e8⟩ := hrest s e hl
          have hbs' : bs ≤ s := le_trans (le_max_left _ _) e3
          have hsc' : -sc ≤ s := le_trans (le_max_right _ _) e3
          refine ⟨e1, e2, hbs', e4, ?_, ?_, ?_, ?_⟩
          · intro hs j hj1 hj2 hjl
            rcases Nat.eq_or_lt_of_le hj1 with hj | hj
            · subst hj
              have := hc4 (by omega)
              omega
            · exact e5 hs j hj (by omega) hjl
          · intro hs
            rcases e6 hs with h6 | ⟨j, hj1, hj2, hj3, hj4⟩
            · rcases le_total bs (-sc) with hle | hle
              · rw [max_eq_right hle] at h6
                right
                refine ⟨i, le_refl _, by omega, hleg, ?_⟩
                have := hc3 (by omega)
                omega
              · rw [max_eq_left hle] at h6
                exact Or.inl h6
            · exact Or.inr ⟨j, by omega, by omega, hj3, hj4⟩
          · intro _
            exact ⟨i, le_refl _, by omega, hleg⟩
          · intro hs
            omega
        | aborted ec =>
          exact ⟨fun h => Result.noConfusion h, fun _ _ h => Result.noConfusion h⟩
        | outOfFuel => exact absurd hc hne
      · rw [if_neg h1]
        have hleg : legalAt M b (moveList.getD i 0) = false := by
          simpa [legalAt] using h1
        rw [hund]
        obtain ⟨hne2, hrest⟩ := ih (i + 1) { self with board := b } bs (by omega) rfl hr hbs1 hbs2
        refine ⟨hne2, ?_⟩
        intro s e hl
        obtain ⟨e1, e2, e3, e4, e5, e6, e7, e8⟩ := hrest s e hl
        refine ⟨e1, e2, e3, e4, ?_, ?_, ?_, ?_⟩
        · intro hs j hj1 hj2 hjl
          rcases Nat.eq_or_lt_of_le hj1 with hj | hj
          · subst hj
            rw [hleg] at hjl
            cases hjl
          · exact e5 hs j hj (by omega) hjl
        · intro hs
          rcases e6 hs with h6 | ⟨j, hj1, hj2, hj3, hj4⟩
          · exact Or.inl h6
          · exact Or.inr ⟨j, by omega, by omega, hj3, hj4⟩
        · intro hs
          obtain ⟨j, hj1, hj2, hj3⟩ := e7 hs
          exact ⟨j, by omega, by omega, hj3⟩
        · intro hs j hj1 hj2
          rcases Nat.eq_or_lt_of_le hj1 with hj | hj
          · subst hj; exact hleg
          · exact e8 hs j hj (by omega)
    · rw [if_neg h0]
      refine ⟨fun h => Result.noConfusion h, ?_⟩
      intro s e h
      simp only [Result.ok.injEq] at h
      obtain ⟨rfl, rfl⟩ := h
      refine ⟨hb, hr, le_refl _, hbs2, ?_, fun _ => Or.inl rfl, fun h => absurd rfl h, ?_⟩
      · intro hs; exact absurd hs h0
      · intro hs; omega

theorem gameFinite_child (M : BoardModule B) (n : Nat) (b : B) (depth : Int)
    (h : gameFinite M (n + 1) b depth = true) (hrep : M.repetition b = false)
    (hd : depth ≠ 0) {m : Int} (hm : m ∈ legalMoves M b) :
    gameFinite M n (M.makeMove b m) (imax 0 (depth - 1 + boolInt (M.inCheck b))) = true := by
  simp only [gameFinite, hrep, Bool.false_or, if_neg hd, List.all_eq_true] at h
  exact h m hm

theorem scout_bounds (M : BoardModule B) (env : Env) (H : UndoRestores M) (root : Int)
    (hB : ScoresBounded M root) :
    ∀ (n : Nat) (self : Engine B) (depth alpha : Int), self.rootPlyNumber = root →
      gameFinite M n self.board depth = true → -maxInt ≤ alpha → alpha < maxInt →
      scout M env n self depth alpha ≠ .outOfFuel ∧
      ∀ s e, scout M env n self depth alpha = .ok s e →
        -maxInt ≤ s ∧ s ≤ maxInt ∧
        (s ≤ alpha → negamaxValue M root n self.board depth ≤ s) ∧
        (alpha < s → s ≤ negamaxValue M root n self.board depth) := by
  have hmin : minInt = -maxInt - 1 := by decide
  have hmax : maxInt = 2147483647 := rfl
  intro n
  induction n with
  | zero => intro self depth alpha _ hf; simp [gameFinite] at hf
  | succ n ih =>
    intro self depth alpha hr hfin ha1 ha2
    simp only [scout, negamaxValue]
    by_cases hrep : M.repetition self.board = true
    · rw [if_pos hrep, if_pos hrep]
      refine ⟨fun h => Result.noConfusion h, ?_⟩
      intro s e h
      simp only [Result.ok.injEq, drawScore] at h
      obtain ⟨rfl, -⟩ := h
      exact ⟨by omega, by omega, fun _ => le_refl _, fun _ => le_refl _⟩
    · have hrepf : M.repetition self.board = false := by simpa using hrep
      rw [if_neg hrep, if_neg hrep]
      by_cases hd : depth = 0
      · rw [if_pos hd, if_pos hd]
        have hq : qFinite M n self.board = true := by
          simpa only [gameFinite, hrepf, Bool.false_or, if_pos hd] using hfin
        obtain ⟨s0, e0, h0, b1, b2, b3, b4⟩ := qSearch_bounds M H root hB n
          { self with nodeCount := self.nodeCount + 1 } alpha hr hq ha1 ha2
        simp only at b3 b4
        rw [hr] at b3 b4
        rw [h0]
        refine ⟨fun h => Result.noConfusion h, ?_⟩
        intro s e h
        simp only [Result.ok.injEq] at h
        obtain ⟨rfl, -⟩ := h
        exact ⟨b1, b2, b3, b4⟩
      · rw [if_neg hd, if_neg hd]
        by_cases hsig : env.globalSignal (self.nodeCount + 1) ≠ 0
        · rw [if_pos hsig]
          exact ⟨fun h => Result.noConfusion h, fun _ _ h => Result.noConfusion h⟩
        · rw [if_neg hsig]
          obtain ⟨L, cnt, hLc⟩ : ∃ L cnt, filterAndSort M self.board (M.generateMoves self.board)
              (M.generateMoves self.board).length minInt = (L, cnt) := ⟨_, _, rfl⟩
          have hgenall := filterAndSort_generated M self.board minInt (M.generateMoves self.board)
            (fun m hm => (H self.board m hm).1)
          have hmemiff := filterAndSort_mem_iff M self.board minInt (M.generateMoves self.board)
            (fun m hm => (H self.board m hm).1)
          rw [hLc] at hgenall hmemiff
          simp only at hgenall hmemiff
          rw [hLc]
          simp only
          obtain ⟨hs1, hs2, -⟩ := hgenall
          have hmemL : ∀ j, j < cnt → L.getD j 0 ∈ M.generateMoves self.board :=
            fun j hj => (hs2 _ (getD_mem_take _ hj hs1)).1
          have hidx : ∀ m ∈ legalMoves M self.board, ∃ j, j < cnt ∧ L.getD j 0 = m := by
            intro m hm
            obtain ⟨hm1, -⟩ := (mem_legalMoves M self.board m).1 hm
            have hbm := exchange_bounds M self.board m
            exact mem_take_getD ((hmemiff m).2 ⟨hm1, by omega⟩)
          obtain ⟨hne, hloop⟩ := scout_loop_bounds M H (scout M env n) depth alpha
            (boolInt (M.inCheck self.board)) root self.board L cnt
            (fun m => negamaxValue M root n (M.makeMove self.board m)
              (imax 0 (depth - 1 + boolInt (M.inCheck self.board))))
            (by omega) hmemL
            (by
              intro j hj hleg node hnb hnr
              have hfc := gameFinite_child M n self.board depth hfin hrepf hd
                ((mem_legalMoves M self.board _).2 ⟨hmemL j hj, hleg⟩)
              rw [sub_zero]
              rw [← hnb] at hfc
              obtain ⟨c1, c2⟩ := ih node (imax 0 (depth - 1 + boolInt (M.inCheck self.board)))
                (-(alpha + 1)) hnr hfc (by omega) (by omega)
              refine ⟨c1, ?_⟩
              intro sc ec hc
              obtain ⟨d1, d2, d3, d4⟩ := c2 sc ec hc
              rw [hnb] at d3 d4
              have hcb := scout_board M env H _ _ _ _ _ _ hc
              have hcr := ((scout_kept M env (keptFields B env) _ _ _ _).1 _ _ hc).1
              exact ⟨hcb, hcr.trans hnr, d1, d2, d3, d4⟩)
            cnt 0 { self with nodeCount := self.nodeCount + 1 } minInt
            (le_of_eq (Nat.zero_add _)) rfl hr (le_refl _) (by omega)
          cases hl : scout.loop M (scout M env n) depth alpha (boolInt (M.inCheck self.board)) L cnt 0
              { self with nodeCount := self.nodeCount + 1 } minInt with
          | ok s1 e1 =>
            obtain ⟨e1b, e1r, e3, e4, e5, e6, e7, e8⟩ := hloop s1 e1 hl
            simp only
            refine ⟨fun h => Result.noConfusion h, ?_⟩
            intro s e h
            simp only [Result.ok.injEq, ttWrite] at h
            obtain ⟨rfl, -⟩ := h
            have hchild_le : ∀ t : Int, s1 ≤ alpha → s1 ≤ t →
                ∀ x ∈ (legalMoves M self.board).map (fun m =>
                  -(negamaxValue M root n (M.makeMove self.board m)
                    (imax 0 (depth - 1 + boolInt (M.inCheck self.board))))), x ≤ t := by
              intro t hs ht x hx
              obtain ⟨m, hm, rfl⟩ := List.mem_map.1 hx
              obtain ⟨j, hj, rfl⟩ := hidx m hm
              exact le_trans (e5 hs j (Nat.zero_le _) (by omega)
                ((mem_legalMoves M self.board _).1 hm).2) ht
            have hchild_ge : ∀ j, j < cnt → legalAt M self.board (L.getD j 0) = true →
                -(negamaxValue M root n (M.makeMove self.board (L.getD j 0))
                    (imax 0 (depth - 1 + boolInt (M.inCheck self.board))))
                  ∈ (legalMoves M self.board).map (fun m =>
                    -(negamaxValue M root n (M.makeMove self.board m)
                      (imax 0 (depth - 1 + boolInt (M.inCheck self.board))))) := by
              intro j hj hleg
              exact List.mem_map.2 ⟨_, (mem_legalMoves M self.board _).2 ⟨hmemL j hj, hleg⟩, rfl⟩
            by_cases hsmin : s1 = minInt
            · rw [if_pos hsmin]
              have hnil : legalMoves M self.board = [] := by
                rw [List.eq_nil_iff_forall_not_mem]
                intro m hm
                obtain ⟨j, hj, rfl⟩ := hidx m hm
                have h1 := e8 hsmin j (Nat.zero_le _) (by omega)
                have h2 : legalAt M self.board _ = true := ((mem_legalMoves M self.board _).1 hm).2
                rw [h1] at h2
                cases h2
              simp only [endScore, hnil, List.map_nil, e1b, e1r]
              by_cases hcheck : M.inCheck self.board = true
              · obtain ⟨hend1, hend2⟩ := (hB self.board).2 hcheck
                simp only [hcheck, if_true]
                exact ⟨hend1, hend2, fun _ => le_refl _, fun _ => le_refl _⟩
              · have hcf : M.inCheck self.board = false := by simpa using hcheck
                simp only [hcf, Bool.false_eq_true, if_false]
                exact ⟨by omega, by omega, fun _ => le_refl _, fun _ => le_refl _⟩
            · rw [if_neg hsmin]
              refine ⟨by omega, e4, ?_, ?_⟩
              · intro hs
                obtain ⟨j, -, hj2, hj3⟩ := e7 hsmin
                have hmem := hchild_ge j (by omega) hj3
                cases hch : (legalMoves M self.board).map (fun m =>
                    -(negamaxValue M root n (M.makeMove self.board m)
                      (imax 0 (depth - 1 + boolInt (M.inCheck self.board))))) with
                | nil => rw [hch] at hmem; cases hmem
                | cons v vs =>
                  simp only
                  rw [foldl_max_le_iff]
                  exact ⟨hchild_le s1 hs (le_refl _) v (by rw [hch]; exact List.mem_cons_self _ _),
                    fun x hx => hchild_le s1 hs (le_refl _) x
                      (by rw [hch]; exact List.mem_cons_of_mem _ hx)⟩
              · intro hs
                rcases e6 hs with h6 | ⟨j, -, hj2, hj3, hj4⟩
                · exact absurd h6 hsmin
                · have hmem := hchild_ge j (by omega) hj3
                  cases hch : (legalMoves M self.board).map (fun m =>
                      -(negamaxValue M root n (M.makeMove self.board m)
                        (imax 0 (depth - 1 + boolInt (M.inCheck self.board))))) with
                  | nil => rw [hch] at hmem; cases hmem
                  | cons v vs =>
                    simp only
                    rw [hch] at hmem
                    rcases List.mem_cons.1 hmem with h | h
                    · rw [← h]; exact le_trans hj4 (le_foldl_max_init _ _)
                    · exact le_trans hj4 (le_foldl_max_mem _ _ h)
          | aborted e1 =>
            exact ⟨fun h => Result.noConfusion h, fun _ _ h => Result.noConfusion h⟩
          | outOfFuel => exact absurd hl hne

theorem qFinite_succ (M : BoardModule B) :
    ∀ (n : Nat) (b : B), qFinite M n b = true → qFinite M (n + 1) b = true := by
  intro n
  induction n with
  | zero => intro b h; simp [qFinite] at h
  | succ n ih =>
    intro b h
    rw [qFinite, List.all_eq_true] at h ⊢
    exact fun m hm => ih _ (h m hm)

theorem qValue_succ (M : BoardModule B) (root : Int) :
    ∀ (n : Nat) (b : B), qFinite M n b = true →
      qValue M root (n + 1) b = qValue M root n b := by
  intro n
  induction n with
  | zero => intro b h; simp [qFinite] at h
  | succ n ih =>
    intro b h
    rw [qFinite, List.all_eq_true] at h
    have hmap : (qMoves M b).map (fun m => -(qValue M root (n + 1) (M.makeMove b m)))
        = (qMoves M b).map (fun m => -(qValue M root n (M.makeMove b m))) :=
      List.map_congr_left (fun m hm => by rw [ih _ (h m hm)])
    rw [qValue, qValue, hmap]

theorem gameFinite_succ (M : BoardModule B) :
    ∀ (n : Nat) (b : B) (depth : Int), gameFinite M n b depth = true →
      gameFinite M (n + 1) b depth = true := by
  intro n
  induction n with
  | zero => intro b depth h; simp [gameFinite] at h
  | succ n ih =>
    intro b depth h
    rw [gameFinite] at h ⊢
    rw [Bool.or_eq_true] at h ⊢
    rcases h with h | h
    · exact Or.inl h
    · right
      by_cases hd : depth = 0
      · rw [if_pos hd] at h ⊢
        exact qFinite_succ M n b h
      · rw [if_neg hd, List.all_eq_true] at h ⊢
        exact fun m hm => ih _ _ (h m hm)

theorem negamaxValue_succ (M : BoardModule B) (root : Int) :
    ∀ (n : Nat) (b : B) (depth : Int), gameFinite M n b depth = true →
      negamaxValue M root (n + 1) b depth = negamaxValue M root n b depth := by
  intro n
  induction n with
  | zero => intro b depth h; simp [gameFinite] at h
  | succ n ih =>
    intro b depth h
    rw [gameFinite, Bool.or_eq_true] at h
    rw [negamaxValue, negamaxValue]
    by_cases hrep : M.repetition b = true
    · rw [if_pos hrep, if_pos hrep]
    · rw [if_neg hrep, if_neg hrep]
      rcases h with h | h
      · exact absurd h hrep
      · by_cases hd : depth = 0
        · rw [if_pos hd] at h
          rw [if_pos hd, if_pos hd]
          exact qValue_succ M root n b h
        · rw [if_neg hd, List.all_eq_true] at h
          rw [if_neg hd, if_neg hd]
          have hmap : (legalMoves M b).map (fun m =>
                -(negamaxValue M root (n + 1) (M.makeMove b m)
                  (imax 0 (depth - 1 + boolInt (M.inCheck b)))))
              = (legalMoves M b).map (fun m =>
                -(negamaxValue M root n (M.makeMove b m)
                  (imax 0 (depth - 1 + boolInt (M.inCheck b))))) :=
            List.map_congr_left (fun m hm => by rw [ih _ _ (h m hm)])
          rw [hmap]

theorem qValue_add (M : BoardModule B) (root : Int) (n : Nat) (b : B)
    (h : qFinite M n b = true) :
    ∀ k, qFinite M (n + k) b = true ∧ qValue M root (n + k) b = qValue M root n b := by
  intro k
  induction k with
  | zero => exact ⟨h, rfl⟩
  | succ k ih =>
    exact ⟨qFinite_succ M _ b ih.1, (qValue_succ M root _ b ih.1).trans ih.2⟩

theorem negamaxValue_add (M : BoardModule B) (root : Int) (n : Nat) (b : B) (depth : Int)
    (h : gameFinite M n b depth = true) :
    ∀ k, gameFinite M (n + k) b depth = true ∧
      negamaxValue M root (n + k) b depth = negamaxValue M root n b depth := by
  intro k
  induction k with
  | zero => exact ⟨h, rfl⟩
  | succ k ih =>
    exact ⟨gameFinite_succ M _ b depth ih.1, (negamaxValue_succ M root _ b depth ih.1).trans ih.2⟩

/-- C23. Over a finite game tree, with scores that an `int` holds together
with their negation and `-maxInt ≤ alpha < maxInt`: when `scout(depth, alpha)`
returns `s`, then `s ≤ alpha` implies `V(node, depth) ≤ s` and `s > alpha`
implies `V(node, depth) ≥ s`, for the plain negamax value `V`; `scout` does
return when the abort flag is never set; and `qSearch(alpha)` returns a score
with the same two bounds against the quiescence value.  Neither value depends
on the fuel once the tree is finite within it. -/
theorem scout_fail_soft (M : BoardModule B) (env : Env) (H : UndoRestores M) (n : Nat)
    (self : Engine B) (depth alpha : Int) (hB : ScoresBounded M self.rootPlyNumber)
    (ha1 : -maxInt ≤ alpha) (ha2 : alpha < maxInt) :
    (gameFinite M n self.board depth = true →
      (∀ s e, scout M env n self depth alpha = .ok s e →
        (s ≤ alpha → negamaxValue M self.rootPlyNumber n self.board depth ≤ s) ∧
        (alpha < s → s ≤ negamaxValue M self.rootPlyNumber n self.board depth)) ∧
      ((∀ k, env.globalSignal k = 0) → ∃ s e, scout M env n self depth alpha = .ok s e) ∧
      (∀ k, negamaxValue M self.rootPlyNumber (n + k) self.board depth
        = negamaxValue M self.rootPlyNumber n self.board depth)) ∧
    (qFinite M n self.board = true →
      (∃ s e, qSearch M n self alpha = .ok s e ∧
        (s ≤ alpha → qValue M self.rootPlyNumber n self.board ≤ s) ∧
        (alpha < s → s ≤ qValue M self.rootPlyNumber n self.board)) ∧
      (∀ k, qValue M self.rootPlyNumber (n + k) self.board
        = qValue M self.rootPlyNumber n self.board)) := by
  constructor
  · intro hfin
    obtain ⟨hne, hok⟩ := scout_bounds M env H self.rootPlyNumber hB n self depth alpha rfl hfin
      ha1 ha2
    refine ⟨fun s e h => (hok s e h).2.2, ?_,
      fun k => (negamaxValue_add M self.rootPlyNumber n self.board depth hfin k).2⟩
    intro hsig
    cases hr : scout M env n self depth alpha with
    | ok s e => exact ⟨s, e, rfl⟩
    | aborted e =>
      have := (scout_kept M env (keptFields B env) n self depth alpha).2 e hr
      exact absurd (hsig e.nodeCount) this.2.2.2.2.2
    | outOfFuel => exact absurd hr hne
  · intro hfin
    obtain ⟨s, e, h1, -, -, h2, h3⟩ :=
      qSearch_bounds M H self.rootPlyNumber hB n self alpha rfl hfin ha1 ha2
    exact ⟨⟨s, e, h1, h2, h3⟩, fun k => (qValue_add M self.rootPlyNumber n self.board hfin k).2⟩

set_option maxRecDepth 100000 in
theorem scout_fail_soft_witness :
    -maxInt ≤ (0 : Int) ∧ (0 : Int) < maxInt ∧
    gameFinite recaptureModule 4 (freshEngine ([] : List Int)).board 1 = true ∧
    scout recaptureModule ⟨fun _ => 0⟩ 4 (freshEngine []) 1 0
      = .ok (-100) { freshEngine [] with nodeCount := 2 } ∧
    negamaxValue recaptureModule 0 4 [] 1 = -500 ∧
    (∀ s e, scout recaptureModule ⟨fun _ => 0⟩ 4 (freshEngine []) 1 0 = .ok s e →
      (s ≤ 0 → negamaxValue recaptureModule (freshEngine ([] : List Int)).rootPlyNumber 4
        (freshEngine ([] : List Int)).board 1 ≤ s) ∧
      (0 < s → s ≤ negamaxValue recaptureModule (freshEngine ([] : List Int)).rootPlyNumber 4
        (freshEngine ([] : List Int)).board 1)) :=
  ⟨by decide, by decide, by decide, by decide, by decide,
    ((scout_fail_soft recaptureModule ⟨fun _ => 0⟩ recaptureModule_undo 4 (freshEngine []) 1 0
      recaptureModule_bounded (by decide) (by decide)).1 (by decide)).1⟩

end Floyd
